import Mathlib

/-!
# Verification of the segmented live-range core (LiveInterval.cpp)

A shallow embedding of the LiveRange / LiveInterval data structure and its
mutation algorithms, translated from `src/lib/CodeGen/LiveInterval.cpp`.

Modelling conventions:
* A `SlotIndex` is a natural number.  As in the source, every instruction
  owns four consecutive slots (Block, EarlyClobber, Register, Dead), so the
  slot `s` belongs to instruction `s / 4` and has sub-slot `s % 4`.
* `VNInfo` objects live in an arena (a list); segments and the value-number
  table store arena handles (indices).  This models C++ pointer identity:
  mutating an arena cell is visible through every handle to it.
* `assert`s in the source are modelled by returning `Except AssertErr`;
  a `.error` result corresponds to an assertion failure in a debug build.
* The embedding covers the array-backed (vector) segment collection, i.e.
  the state of a live range after `flushSegmentSet`, which is the state in
  which every operation verified here is exercised and in which the
  `LiveRange::verify` invariants are claimed to hold.
* `end` is a Lean keyword, so the segment field `end` is named `stop`.
-/

namespace LiveIntervalModel

/-- Slot arithmetic (`SlotIndex`): slot kind within the owning instruction. -/
def slotInstr (s : Nat) : Nat := s / 4

/-- `SlotIndex::isDead`: the slot is the Dead slot (sub-slot 3) of its instruction. -/
def slotIsDead (s : Nat) : Bool := s % 4 == 3

/-- `SlotIndex::getDeadSlot`: the Dead slot of the same instruction. -/
def getDeadSlot (s : Nat) : Nat := 4 * (s / 4) + 3

/-- `SlotIndex::isSameInstr`: both slots belong to the same instruction. -/
def isSameInstr (a b : Nat) : Bool := a / 4 == b / 4

/-- `SlotIndex::isEarlierInstr`: `a` belongs to an earlier instruction than `b`. -/
def isEarlierInstr (a b : Nat) : Bool := a / 4 < b / 4

/-- `SlotIndex::getPrevSlot`: the previous slot (truncated at zero). -/
def getPrevSlot (s : Nat) : Nat := s - 1

/-- `LiveRange::Segment`: a half-open interval `[start, stop)` tagged with a
value number.  `valno` is an arena handle for the `VNInfo` (the source field
is named `end`, a Lean keyword, hence `stop`). -/
structure Segment where
  start : Nat
  stop : Nat
  valno : Nat
deriving Repr, DecidableEq, Inhabited

/-- `VNInfo`: value-number identity. `vdef` is the defining slot (source field
`def`, a Lean keyword), `unusedFlag`/`phiDef` the two flags. -/
structure VNInfo where
  id : Nat
  vdef : Nat
  unusedFlag : Bool
  phiDef : Bool
deriving Repr, DecidableEq, Inhabited

/-- The state of a `LiveRange` backed by the segment vector: the VN arena
(shared bump allocator, modelled per range), the ordered segment list and the
value-number table `valnos` (a list of arena handles). -/
structure LiveRangeS where
  arena : List VNInfo
  segments : List Segment
  valnos : List Nat
deriving Repr, DecidableEq, Inhabited

/-- Dereference a VN handle in the arena. -/
def vn (lr : LiveRangeS) (h : Nat) : VNInfo := lr.arena.getD h default

/-- Update the arena cell behind a VN handle. -/
def setVN (lr : LiveRangeS) (h : Nat) (f : VNInfo → VNInfo) : LiveRangeS :=
  { lr with arena := lr.arena.set h (f (lr.arena.getD h default)) }

/-- Assertion failures (debug-build `assert`s) of the live-range core. -/
inductive AssertErr where
  /-- `createDeadDef`: "Cannot define a value at the dead slot". -/
  | deadSlotDef
  /-- `createDeadDef`: "Inconsistent existing value def". -/
  | inconsistentDef
  /-- `createDeadDef`: "Already live at def". -/
  | alreadyLiveAtDef
  /-- `extendSegmentEndTo`/`extendSegmentStartTo`: "Cannot merge with differing values". -/
  | mergeMismatch
  /-- `addSegment`: "Cannot overlap two segments with differing ValID's". -/
  | overlapMismatch
  /-- `removeSegment`: the removed span is not inside a single segment. -/
  | notInRange
  /-- `Segment::containsInterval`: "Backwards interval?". -/
  | invalidSegment
  /-- `RenumberValues`: "Unused valno used by live segment". -/
  | unusedValNo
  /-- `MergeValueNumberInto`: "Identical value#'s are always equivalent!". -/
  | identicalVN
  /-- `join`: a segment maps to a null entry of `NewVNInfo`. -/
  | staleVN
  /-- `coalescable`: "Unordered live segments.". -/
  | unorderedSegments
  /-- `LiveRangeUpdater`: "Cannot overlap different values". -/
  | overlapDifferentValues
  /-- `LiveRangeUpdater` internal iterator consistency assertions. -/
  | updaterInternal
  /-- `LiveRange::verify()` failed (invoked from `flush`). -/
  | verifyFailed
deriving Repr, DecidableEq

/-! ## The LiveRange invariants (`LiveRange::verify`, lines 889-903) -/

/-- The relation `verify` checks between adjacent segments: ordering /
non-overlap, and touching segments must carry different value numbers. -/
def adjOK (a b : Segment) : Prop :=
  a.stop ≤ b.start ∧ (a.stop = b.start → a.valno ≠ b.valno)

instance (a b : Segment) : Decidable (adjOK a b) :=
  inferInstanceAs (Decidable (a.stop ≤ b.start ∧ (a.stop = b.start → a.valno ≠ b.valno)))

/-- A segment's value number is a live arena handle whose `id` round-trips
through the VN table (`valno->id < valnos.size() && valnos[valno->id] == valno`). -/
def vnConsistent (lr : LiveRangeS) (s : Segment) : Prop :=
  s.valno < lr.arena.length ∧
  (vn lr s.valno).id < lr.valnos.length ∧
  lr.valnos.getD (vn lr s.valno).id 0 = s.valno

instance (lr : LiveRangeS) (s : Segment) : Decidable (vnConsistent lr s) :=
  inferInstanceAs (Decidable (_ ∧ _ ∧ _))

/-- The `LiveRange::verify` invariant: every segment is a proper interval,
adjacent segments are ordered, non-overlapping and, when touching, carry
different value numbers, and every segment's value number round-trips through
the VN table. -/
def lrInvariant (lr : LiveRangeS) : Prop :=
  (∀ s ∈ lr.segments, s.start < s.stop) ∧
  lr.segments.Chain' adjOK ∧
  ∀ s ∈ lr.segments, vnConsistent lr s

/-- Boolean form of `adjOK`. -/
def adjOKb (a b : Segment) : Bool :=
  decide (a.stop ≤ b.start) && (!decide (a.stop = b.start) || !decide (a.valno = b.valno))

/-- Boolean chain check over adjacent segment pairs. -/
def chainB (r : Segment → Segment → Bool) : List Segment → Bool
  | [] => true
  | [_] => true
  | a :: b :: rest => r a b && chainB r (b :: rest)

/-- Decidable rendering of `LiveRange::verify()` (lines 889-903; also invoked
from `flush` and `flushSegmentSet`): it checks exactly the `lrInvariant`
conditions (see `verifyLR_iff`). -/
def verifyLR (lr : LiveRangeS) : Bool :=
  lr.segments.all (fun s => decide (s.start < s.stop)) &&
  chainB adjOKb lr.segments &&
  lr.segments.all (fun s => decide (vnConsistent lr s))

theorem adjOKb_iff (a b : Segment) : adjOKb a b = true ↔ adjOK a b := by
  simp only [adjOKb, adjOK, Bool.and_eq_true, Bool.or_eq_true, Bool.not_eq_true',
    decide_eq_true_eq, decide_eq_false_iff_not]
  tauto

theorem chainB_iff (l : List Segment) : chainB adjOKb l = true ↔ l.Chain' adjOK := by
  induction l with
  | nil => simp [chainB]
  | cons a l ih =>
    cases l with
    | nil => simp [chainB]
    | cons b rest =>
      rw [List.chain'_cons]
      rw [show chainB adjOKb (a :: b :: rest) = (adjOKb a b && chainB adjOKb (b :: rest)) from rfl]
      rw [Bool.and_eq_true, adjOKb_iff, ih]

theorem verifyLR_iff (lr : LiveRangeS) : verifyLR lr = true ↔ lrInvariant lr := by
  simp only [verifyLR, lrInvariant, Bool.and_eq_true, List.all_eq_true,
    decide_eq_true_eq, chainB_iff]
  tauto

instance (lr : LiveRangeS) : Decidable (lrInvariant lr) :=
  decidable_of_iff (verifyLR lr = true) (verifyLR_iff lr)

/-- Invariant 5 of the data model (checked nowhere in `verify`, but part of
the spec's invariant list): a VN flagged `unused` is referenced by no segment. -/
def unusedNotReferenced (lr : LiveRangeS) : Prop :=
  ∀ s ∈ lr.segments, (vn lr s.valno).unusedFlag = false

instance (lr : LiveRangeS) : Decidable (unusedNotReferenced lr) :=
  inferInstanceAs (Decidable (∀ s ∈ lr.segments, (vn lr s.valno).unusedFlag = false))

/-! ## Queries -/

/-- One round of the hand-written binary search in `LiveRange::find`
(lines 311-321): `i` is the current base iterator, `len` the remaining
length.  The extra fuel argument only drives structural recursion; `len`
strictly decreases every iteration, so `fuel = len` is always enough. -/
def findLoop (segs : List Segment) (pos : Nat) : Nat → Nat → Nat → Nat
  | 0, i, _ => i
  | fuel + 1, i, len =>
    if len = 0 then i
    else
      let mid := len / 2
      if pos < (segs.getD (i + mid) default).stop then
        findLoop segs pos fuel i mid
      else
        findLoop segs pos fuel (i + mid + 1) (len - (mid + 1))

/-- `endIndex()`: the end of the last segment (0 when empty, never queried then). -/
def endIndex (segs : List Segment) : Nat := (segs.getLastD default).stop

/-- `LiveRange::find(Pos)` (lines 305-323): the first segment whose `stop`
is after `Pos`; the result is the index of that segment, `segs.length`
standing for the end iterator.  Returns the end iterator immediately when the
range is empty or `Pos >= endIndex()`. -/
def find (segs : List Segment) (pos : Nat) : Nat :=
  if segs.isEmpty || decide (endIndex segs ≤ pos) then segs.length
  else findLoop segs pos segs.length 0 segs.length

/-- `std::upper_bound` over segment starts: the first index whose segment
starts strictly after `key` (the ordered-range contract of the STL call). -/
def upperBoundIdx (key : Nat) : List Segment → Nat
  | [] => 0
  | t :: rest => if key < t.start then 0 else upperBoundIdx key rest + 1

/-- `CalcLiveRangeUtilVector::findInsertPos` (lines 253-255):
`std::upper_bound(begin, end, S.start)` comparing a slot against segment
starts. -/
def findInsertPos (segs : List Segment) (s : Segment) : Nat :=
  upperBoundIdx s.start segs

/-- `contains(pos)` / `liveAt(pos)`. Modelled from the spec: "`contains(pos)`:
`find(pos)` returns a segment `s` with `s.start <= pos`" (the implementation
lives in the header `LiveInterval.h`, which is not part of the sources). -/
def containsPos (segs : List Segment) (pos : Nat) : Bool :=
  let i := find segs pos
  decide (i < segs.length) && decide ((segs.getD i default).start ≤ pos)

/-! ## Mutations -/

/-- `LiveRange::getNextValue` (header): allocate a fresh `VNInfo` with
`id = valnos.size()` and the given def slot, and push it onto the VN table.
Modelled from the spec: the allocator lives in `LiveInterval.h`, which is not
among the sources; the spec describes VN allocation from a bump arena with a
dense 0-based `id`. -/
def getNextValue (lr : LiveRangeS) (d : Nat) : LiveRangeS × Nat :=
  let h := lr.arena.length
  let vni : VNInfo := ⟨lr.valnos.length, d, false, false⟩
  ({ lr with arena := lr.arena ++ [vni], valnos := lr.valnos ++ [h] }, h)

/-- `CalcLiveRangeUtilBase::createDeadDef` (lines 64-92), instantiated for the
segment vector.  Returns the updated range and the handle of the value number
of the definition. -/
def createDeadDef (lr : LiveRangeS) (d : Nat) : Except AssertErr (LiveRangeS × Nat) :=
  if slotIsDead d then .error .deadSlotDef
  else
    let i := find lr.segments d
    if i = lr.segments.length then
      let (lr', h) := getNextValue lr d
      .ok ({ lr' with segments := lr'.segments ++ [⟨d, getDeadSlot d, h⟩] }, h)
    else
      let S := lr.segments.getD i default
      if isSameInstr d S.start then
        if (vn lr S.valno).vdef ≠ S.start then .error .inconsistentDef
        else
          let d' := min d S.start
          if d' ≠ S.start then
            let lr' := setVN { lr with segments := lr.segments.set i { S with start := d' } }
                         S.valno (fun v => { v with vdef := d' })
            .ok (lr', S.valno)
          else .ok (lr, S.valno)
      else if ¬ isEarlierInstr d S.start then .error .alreadyLiveAtDef
      else
        let (lr', h) := getNextValue lr d
        .ok ({ lr' with
                 segments := lr'.segments.take i ++ [⟨d, getDeadSlot d, h⟩] ++ lr'.segments.drop i },
             h)

/-- Core of `extendSegmentEndTo` (lines 113-136): given the segment's value
number `v`, its current `stop`, the requested `newEnd` and the list of
segments after it, merge away all segments ending at or before `newEnd`
(asserting they carry `v`), compute the new endpoint, and absorb a touching
same-VN successor.  Returns the new endpoint and the surviving suffix. -/
def extendEndCore (v newEnd sStop : Nat) (post : List Segment) :
    Except AssertErr (Nat × List Segment) :=
  let merged := post.takeWhile (fun m => m.stop ≤ newEnd)
  let rest := post.dropWhile (fun m => m.stop ≤ newEnd)
  if merged.any (fun m => m.valno ≠ v) then .error .mergeMismatch
  else
    let e1 := max newEnd (merged.getLastD ⟨0, sStop, v⟩).stop
    match rest with
    | m :: rest' =>
      if m.start ≤ e1 ∧ m.valno = v then .ok (m.stop, rest') else .ok (e1, rest)
    | [] => .ok (e1, [])

/-- `CalcLiveRangeUtilBase::extendSegmentEndTo` (lines 113-136) acting on the
segment at index `i`. -/
def extendSegmentEndTo (segs : List Segment) (i newEnd : Nat) :
    Except AssertErr (List Segment) :=
  if segs.length ≤ i then .error .notInRange
  else
    let s := segs.getD i default
    match extendEndCore s.valno newEnd s.stop (segs.drop (i + 1)) with
    | .error e => .error e
    | .ok (e', rest) => .ok (segs.take i ++ [{ s with stop := e' }] ++ rest)

/-- Core of `extendSegmentStartTo` (lines 141-172): walk backwards over the
reversed prefix; `v`/`sStop` are the extended segment's value number and end.
Returns the surviving reversed prefix and the merged segment. -/
def extendStartWalk (v newStart sStop : Nat) :
    List Segment → Except AssertErr (List Segment × Segment)
  | [] => .ok ([], ⟨newStart, sStop, v⟩)
  | b :: revPre =>
    if newStart ≤ b.start then
      match revPre with
      | [] => .ok ([], ⟨newStart, sStop, v⟩)
      | _ :: _ =>
        if b.valno ≠ v then .error .mergeMismatch
        else extendStartWalk v newStart sStop revPre
    else
      if newStart ≤ b.stop ∧ b.valno = v then .ok (revPre, ⟨b.start, sStop, b.valno⟩)
      else .ok (b :: revPre, ⟨newStart, sStop, v⟩)

/-- `CalcLiveRangeUtilBase::extendSegmentStartTo` (lines 141-172) acting on the
segment at index `i`.  Returns the new list together with the index of the
merged segment (the returned iterator). -/
def extendSegmentStartTo (segs : List Segment) (i newStart : Nat) :
    Except AssertErr (List Segment × Nat) :=
  if segs.length ≤ i then .error .notInRange
  else
    let s := segs.getD i default
    match extendStartWalk s.valno newStart s.stop (segs.take i).reverse with
    | .error e => .error e
    | .ok (keptRev, merged) =>
      .ok (keptRev.reverse ++ [merged] ++ segs.drop (i + 1), keptRev.length)

/-- Tail of `addSegment` (lines 196-220): the interaction with the segment at
the insert position after the previous-neighbour checks did not return. -/
def addSegmentTail (lr : LiveRangeS) (S : Segment) (i : Nat) :
    Except AssertErr LiveRangeS :=
  let segs := lr.segments
  let plain : Except AssertErr LiveRangeS :=
    .ok { lr with segments := segs.take i ++ [S] ++ segs.drop i }
  if i < segs.length then
    let I := segs.getD i default
    if S.valno = I.valno then
      if I.start ≤ S.stop then
        match extendSegmentStartTo segs i S.start with
        | .error e => .error e
        | .ok (segs', j) =>
          if (segs'.getD j default).stop < S.stop then
            match extendSegmentEndTo segs' j S.stop with
            | .error e => .error e
            | .ok segs'' => .ok { lr with segments := segs'' }
          else .ok { lr with segments := segs' }
      else plain
    else if I.start < S.stop then .error .overlapMismatch
    else plain
  else plain

/-- `CalcLiveRangeUtilBase::addSegment` (lines 174-221), instantiated for the
segment vector. -/
def addSegment (lr : LiveRangeS) (S : Segment) : Except AssertErr LiveRangeS :=
  let segs := lr.segments
  let i := findInsertPos segs S
  if i = 0 then addSegmentTail lr S i
  else
    let B := segs.getD (i - 1) default
    if S.valno = B.valno then
      if B.start ≤ S.start ∧ S.start ≤ B.stop then
        match extendSegmentEndTo segs (i - 1) S.stop with
        | .error e => .error e
        | .ok segs' => .ok { lr with segments := segs' }
      else addSegmentTail lr S i
    else if S.start < B.stop then .error .overlapMismatch
    else addSegmentTail lr S i

/-- `CalcLiveRangeUtilBase::extendInBlock` (lines 94-107) /
`LiveRange::extendInBlock` (lines 515-521) for the segment vector: extend the
range to be live up to `kill` inside the block starting at `startIdx`. -/
def extendInBlock (lr : LiveRangeS) (startIdx kill : Nat) :
    Except AssertErr (LiveRangeS × Option Nat) :=
  if lr.segments.isEmpty then .ok (lr, none)
  else
    let ip := findInsertPos lr.segments ⟨getPrevSlot kill, kill, 0⟩
    if ip = 0 then .ok (lr, none)
    else
      let I := lr.segments.getD (ip - 1) default
      if I.stop ≤ startIdx then .ok (lr, none)
      else if I.stop < kill then
        match extendSegmentEndTo lr.segments (ip - 1) kill with
        | .error e => .error e
        | .ok segs' => .ok ({ lr with segments := segs' }, some I.valno)
      else .ok (lr, some I.valno)

/-- Drop the maximal suffix of handles flagged unused (the `do/while` pop loop
of `markValNoForDeletion`). -/
def dropTrailingUnused (arena : List VNInfo) (l : List Nat) : List Nat :=
  (l.reverse.dropWhile (fun h => (arena.getD h default).unusedFlag)).reverse

/-- `LiveRange::markValNoForDeletion` (lines 467-475).  The guard
`ValNo->id == getNumValNums()-1` uses unsigned arithmetic, rendered here as
`id + 1 = length`. -/
def markValNoForDeletion (lr : LiveRangeS) (h : Nat) : LiveRangeS :=
  if (vn lr h).id + 1 = lr.valnos.length then
    { lr with valnos := dropTrailingUnused lr.arena lr.valnos.dropLast }
  else
    setVN lr h (fun v => { v with unusedFlag := true })

/-- `LiveRange::removeValNo` (lines 574-581). -/
def removeValNo (lr : LiveRangeS) (h : Nat) : LiveRangeS :=
  if lr.segments.isEmpty then lr
  else
    markValNoForDeletion
      { lr with segments := lr.segments.filter (fun s => s.valno ≠ h) } h

/-- `LiveRange::removeSegment` (lines 525-570).  The preconditions are the
asserts `I != end()` and `I->containsInterval(Start, End)`; `containsInterval`
(header, modelled from the spec/LLVM header) asserts `Start < End`
("Backwards interval?") and checks containment in the found segment. -/
def removeSegment (lr : LiveRangeS) (start stop : Nat) (removeDeadValNo : Bool) :
    Except AssertErr LiveRangeS :=
  let segs := lr.segments
  let i := find segs start
  if segs.length ≤ i then .error .notInRange
  else
    let I := segs.getD i default
    if stop ≤ start then .error .invalidSegment
    else if ¬ (I.start ≤ start ∧ stop ≤ I.stop) then .error .notInRange
    else if I.start = start then
      if I.stop = stop then
        let isDead := (segs.eraseIdx i).all (fun t => t.valno ≠ I.valno)
        let lrM := if removeDeadValNo && isDead then markValNoForDeletion lr I.valno else lr
        .ok { lrM with segments := segs.eraseIdx i }
      else .ok { lr with segments := segs.set i { I with start := stop } }
    else if I.stop = stop then
      .ok { lr with segments := segs.set i { I with stop := start } }
    else
      .ok { lr with
              segments := segs.take i
                ++ [{ I with stop := start }, ⟨stop, I.stop, I.valno⟩]
                ++ segs.drop (i + 1) }

/-- Loop of `LiveRange::RenumberValues` (lines 479-490): walk segments in
order, assign consecutive ids to value numbers in first-appearance order
(`seen` models the `SmallPtrSet`). -/
def renumberGo (lr : LiveRangeS) (seen : List Nat) :
    List Segment → Except AssertErr LiveRangeS
  | [] => .ok lr
  | s :: rest =>
    if s.valno ∈ seen then renumberGo lr seen rest
    else if (vn lr s.valno).unusedFlag then .error .unusedValNo
    else
      renumberGo
        (setVN { lr with valnos := lr.valnos ++ [s.valno] } s.valno
          (fun v => { v with id := lr.valnos.length }))
        (s.valno :: seen) rest

/-- `LiveRange::RenumberValues` (lines 479-490). -/
def RenumberValues (lr : LiveRangeS) : Except AssertErr LiveRangeS :=
  renumberGo { lr with valnos := [] } [] lr.segments

/-- Merge loop of `MergeValueNumberInto` (lines 706-738): `acc` is the
already-processed prefix in reverse.  Each `V1` segment is merged with a
touching `V2` predecessor, relabelled to `V2`, and merged with a touching
`V2` successor. -/
def mergeV1Loop (V1 V2 : Nat) (acc : List Segment) :
    List Segment → List Segment
  | [] => acc.reverse
  | s :: rest =>
    if s.valno ≠ V1 then mergeV1Loop V1 V2 (s :: acc) rest
    else
      let s1 : Segment :=
        match acc with
        | p :: _ => if p.valno = V2 ∧ p.stop = s.start then ⟨p.start, s.stop, V2⟩
                    else ⟨s.start, s.stop, V2⟩
        | [] => ⟨s.start, s.stop, V2⟩
      let acc1 :=
        match acc with
        | p :: acc' => if p.valno = V2 ∧ p.stop = s.start then acc' else acc
        | [] => []
      match rest with
      | [] => (s1 :: acc1).reverse
      | i :: rest' =>
        if i.start = s1.stop ∧ i.valno = V2 then
          mergeV1Loop V1 V2 (⟨s1.start, i.stop, V2⟩ :: acc1) rest'
        else
          mergeV1Loop V1 V2 (s1 :: acc1) (i :: rest')
termination_by l => l.length
decreasing_by all_goals simp_all <;> omega

/-- `LiveRange::MergeValueNumberInto` (lines 691-744): merge value number `V1`
into `V2`, keeping the smaller-id `VNInfo` object alive (`V1->copyFrom(*V2)`
then swap when `V1` has the smaller id).  `copyFrom` is modelled from the
spec ("Swap `(v1, v2)` contents"): it copies the def slot and flags, not the
id (the header implementation is not among the sources). -/
def MergeValueNumberInto (lr : LiveRangeS) (V1 V2 : Nat) :
    Except AssertErr (LiveRangeS × Nat) :=
  if V1 = V2 then .error .identicalVN
  else
    let st :=
      if (vn lr V1).id < (vn lr V2).id then
        (setVN lr V1 (fun a =>
            { a with vdef := (vn lr V2).vdef,
                     unusedFlag := (vn lr V2).unusedFlag,
                     phiDef := (vn lr V2).phiDef }), V2, V1)
      else (lr, V1, V2)
    match st with
    | (lr1, W1, W2) =>
      let segs' := mergeV1Loop W1 W2 [] lr1.segments
      .ok (markValNoForDeletion { lr1 with segments := segs' } W1, W2)

/-! ## LiveRangeUpdater (lines 929-1134) -/

/-- `LiveRangeUpdater` state: the target range, the dirty marker `lastStart`
(`SlotIndex LastStart`, invalid = `none`), the area-1/area-2 iterators as
indices into `lr.segments`, and the spill buffer. -/
structure LiveRangeUpdater where
  lr : LiveRangeS
  lastStart : Option Nat
  writeI : Nat
  readI : Nat
  spills : List Segment
deriving Repr, DecidableEq, Inhabited

/-- `LiveRangeUpdater::isDirty` : `LastStart.isValid()`. -/
def LiveRangeUpdater.isDirty (u : LiveRangeUpdater) : Bool := u.lastStart.isSome

/-- `coalescable(A, B)` (lines 986-995): should the two segments be merged. -/
def coalescable (a b : Segment) : Except AssertErr Bool :=
  if ¬ (a.start ≤ b.start) then .error .unorderedSegments
  else if a.stop = b.start then .ok (decide (a.valno = b.valno))
  else if a.stop < b.start then .ok false
  else if a.valno ≠ b.valno then .error .overlapDifferentValues
  else .ok true

/-- Backward-merge loop of `mergeSpills` (lines 1093-1099): `src`/`dst` are
indices into the segment list, `spillSrc` into the spill buffer; elements are
written downward from `dst`.  `dst` strictly decreases, so `fuel = dst`
always suffices. -/
def mergeBackLoop :
    Nat → List Segment → List Segment → Nat → Nat → Nat → List Segment × Nat
  | 0, segs, _, _, _, spillSrc => (segs, spillSrc)
  | fuel + 1, segs, spills, src, dst, spillSrc =>
    if src = dst then (segs, spillSrc)
    else if src ≠ 0 ∧
        (spills.getD (spillSrc - 1) default).start < (segs.getD (src - 1) default).start then
      mergeBackLoop fuel (segs.set (dst - 1) (segs.getD (src - 1) default))
        spills (src - 1) (dst - 1) spillSrc
    else
      mergeBackLoop fuel (segs.set (dst - 1) (spills.getD (spillSrc - 1) default))
        spills src (dst - 1) (spillSrc - 1)

/-- `LiveRangeUpdater::mergeSpills` (lines 1081-1102): merge as many spilled
segments as fit into the gap between `writeI` and `readI`
(`NumMoved = min(Spills.size(), GapSize)`, `Dst = WriteI + NumMoved`). -/
def mergeSpills (u : LiveRangeUpdater) : Except AssertErr LiveRangeUpdater :=
  match mergeBackLoop (u.writeI + min u.spills.length (u.readI - u.writeI)) u.lr.segments
      u.spills u.writeI (u.writeI + min u.spills.length (u.readI - u.writeI))
      u.spills.length with
  | (segs', spillSrc) =>
    if min u.spills.length (u.readI - u.writeI) ≠ u.spills.length - spillSrc then
      .error .updaterInternal
    else
      .ok { u with lr := { u.lr with segments := segs' },
                   writeI := u.writeI + min u.spills.length (u.readI - u.writeI),
                   spills := u.spills.take spillSrc }

/-- `LiveRangeUpdater::flush` (lines 1104-1134): clear the dirty state, then
either erase the gap (no spills) or resize the gap to the spill count and run
`mergeSpills`.  The trailing `LR->verify()` is rendered as a `verifyLR`
check. -/
def updFlush (u : LiveRangeUpdater) : Except AssertErr LiveRangeUpdater :=
  if ¬ u.isDirty then .ok u
  else if u.spills.isEmpty then
    if verifyLR { u.lr with
        segments := u.lr.segments.take u.writeI ++ u.lr.segments.drop u.readI } then
      .ok { u with lastStart := none,
                   lr := { u.lr with
                     segments := u.lr.segments.take u.writeI ++ u.lr.segments.drop u.readI } }
    else .error .verifyFailed
  else
    match mergeSpills
        { u with
            lastStart := none,
            readI := u.writeI + u.spills.length,
            lr := { u.lr with
              segments :=
                if u.readI - u.writeI < u.spills.length then
                  u.lr.segments.take u.readI
                    ++ List.replicate (u.spills.length - (u.readI - u.writeI)) default
                    ++ u.lr.segments.drop u.readI
                else
                  u.lr.segments.take (u.writeI + u.spills.length)
                    ++ u.lr.segments.drop u.readI } } with
    | .error e => .error e
    | .ok u4 => if verifyLR u4.lr then .ok u4 else .error .verifyFailed

/-- The `*WriteI++ = *ReadI++` advance loop of `add` (lines 1029-1030). -/
def updAdvanceLoop :
    Nat → LiveRangeS → Nat → Nat → Nat → LiveRangeS × Nat × Nat
  | 0, lr, w, r, _ => (lr, w, r)
  | fuel + 1, lr, w, r, segStart =>
    if r < lr.segments.length ∧ (lr.segments.getD r default).stop ≤ segStart then
      updAdvanceLoop fuel
        { lr with segments := lr.segments.set w (lr.segments.getD r default) }
        (w + 1) (r + 1) segStart
    else (lr, w, r)

/-- The forward coalescing loop of `add` (lines 1047-1050). -/
def updCoalesceLoop :
    Nat → LiveRangeS → Segment → Nat → Except AssertErr (Segment × Nat)
  | 0, _, seg, r => .ok (seg, r)
  | fuel + 1, lr, seg, r =>
    if r < lr.segments.length then
      match coalescable seg (lr.segments.getD r default) with
      | .error e => .error e
      | .ok true =>
        updCoalesceLoop fuel lr
          { seg with stop := max seg.stop (lr.segments.getD r default).stop } (r + 1)
      | .ok false => .ok (seg, r)
    else .ok (seg, r)

/-- `LiveRangeUpdater::add` (lines 997-1077) for a vector-backed target range
(the segment-set fallback of lines 1002-1005 concerns only the staging mode,
which is outside this embedding). -/
def updAdd (u0 : LiveRangeUpdater) (seg0 : Segment) :
    Except AssertErr LiveRangeUpdater := do
  -- Flush the state if Start moves backwards.
  let u ←
    match u0.lastStart with
    | none => pure { u0 with writeI := 0, readI := 0 }
    | some ls =>
      if seg0.start < ls then do
        let u1 ← updFlush u0
        if ¬ u1.spills.isEmpty then throw .updaterInternal
        pure { u1 with writeI := 0, readI := 0 }
      else pure u0
  -- Remember start for next time.
  let u : LiveRangeUpdater := { u with lastStart := some seg0.start }
  -- Advance ReadI until it ends after Seg.start.
  let u ←
    if u.readI < u.lr.segments.length ∧
        (u.lr.segments.getD u.readI default).stop ≤ seg0.start then do
      let u ← if u.readI ≠ u.writeI then mergeSpills u else pure u
      if u.readI = u.writeI then
        let j := find u.lr.segments seg0.start
        pure { u with readI := j, writeI := j }
      else
        let (lr', w, r) :=
          updAdvanceLoop (u.lr.segments.length - u.readI) u.lr u.writeI u.readI seg0.start
        pure { u with lr := lr', writeI := w, readI := r }
    else pure u
  if u.readI < u.lr.segments.length ∧
      (u.lr.segments.getD u.readI default).stop ≤ seg0.start then
    throw .updaterInternal
  -- Check if the ReadI segment begins early.
  let (seg, u) ←
    if u.readI < u.lr.segments.length ∧
        (u.lr.segments.getD u.readI default).start ≤ seg0.start then do
      let rseg := u.lr.segments.getD u.readI default
      if rseg.valno ≠ seg0.valno then throw .overlapDifferentValues
      -- Bail if Seg is completely contained in ReadI.
      if seg0.stop ≤ rseg.stop then return u
      pure ({ seg0 with start := rseg.start }, { u with readI := u.readI + 1 })
    else pure (seg0, u)
  -- Coalesce as much as possible from ReadI into Seg.
  let (seg, r') ← updCoalesceLoop (u.lr.segments.length - u.readI) u.lr seg u.readI
  let u : LiveRangeUpdater := { u with readI := r' }
  -- Try coalescing Spills.back() into Seg.
  let (seg, u) ←
    match u.spills.getLast? with
    | some sb => do
      let c ← coalescable sb seg
      if c then
        pure ({ seg with start := sb.start, stop := max sb.stop seg.stop },
              { u with spills := u.spills.dropLast })
      else pure (seg, u)
    | none => pure (seg, u)
  -- Try coalescing Seg into WriteI[-1].
  if u.writeI ≠ 0 then
    let wm1 := u.lr.segments.getD (u.writeI - 1) default
    let c ← coalescable wm1 seg
    if c then
      return { u with lr := { u.lr with
        segments := u.lr.segments.set (u.writeI - 1) { wm1 with stop := max wm1.stop seg.stop } } }
  -- Seg doesn't coalesce with anything; insert into the gap,
  if u.writeI ≠ u.readI then
    return { u with lr := { u.lr with segments := u.lr.segments.set u.writeI seg },
                    writeI := u.writeI + 1 }
  -- or append to LR, or push to Spills.
  if u.writeI = u.lr.segments.length then
    let segs' := u.lr.segments ++ [seg]
    return { u with lr := { u.lr with segments := segs' },
                    writeI := segs'.length, readI := segs'.length }
  else
    return { u with spills := u.spills ++ [seg] }

/-- Stream a list of segments through `LiveRangeUpdater::add`. -/
def streamAdds (u : LiveRangeUpdater) :
    List Segment → Except AssertErr LiveRangeUpdater
  | [] => .ok u
  | s :: rest => do streamAdds (← updAdd u s) rest

/-! ## `LiveRange::join` (lines 583-660) -/

/-- The value-number mapping of `join`: a segment's valno handle is mapped to
`NewVNInfo[assign[valno->id]]` (a null pointer is `none`). -/
def joinMapVN (assign : List Nat) (newVNInfo : List (Option Nat))
    (lr : LiveRangeS) (h : Nat) : Option Nat :=
  newVNInfo.getD (assign.getD (vn lr h).id 0) none

/-- The `MustMapCurValNos` scan of `join` (lines 591-601). -/
def mustMapCurValNos (lr : LiveRangeS) (lhsAssign : List Nat)
    (newVNInfo : List (Option Nat)) : Bool :=
  (List.range lr.valnos.length).any (fun i =>
    let lhsValID := lhsAssign.getD i 0
    i ≠ lhsValID ||
      (match newVNInfo.getD lhsValID none with
       | some h => h ≠ lr.valnos.getD i 0
       | none => false))

/-- The in-place rewrite loop of `join` (lines 604-631): map every segment's
value number and merge a segment into its predecessor when both map to the
same value number and touch.  A `none` mapping for a live segment is the
`assert(nextValNo && "Huh?")` failure (for the very first segment the source
stores the null pointer without asserting; a null valno is a caller contract
violation either way and is modelled as the same failure). -/
def joinRewriteGo (f : Nat → Option Nat) (cur : Segment) :
    List Segment → Except AssertErr (List Segment)
  | [] => .ok [cur]
  | i :: rest =>
    match f i.valno with
    | none => .error .staleVN
    | some v =>
      if cur.valno = v ∧ cur.stop = i.start then
        joinRewriteGo f { cur with stop := i.stop } rest
      else
        (joinRewriteGo f ⟨i.start, i.stop, v⟩ rest).map (fun l => cur :: l)

/-- Entry of the rewrite loop: map the first segment (lines 607-608). -/
def joinRewrite (f : Nat → Option Nat) :
    List Segment → Except AssertErr (List Segment)
  | [] => .ok []
  | s :: rest =>
    match f s.valno with
    | none => .error .staleVN
    | some v => joinRewriteGo f ⟨s.start, s.stop, v⟩ rest

/-- `valnos[i] = VNI` / `valnos.push_back(VNI)` depending on the write index
(lines 646-649). -/
def writeOrPush (l : List Nat) (i x : Nat) : List Nat :=
  if i < l.length then l.set i x else l ++ [x]

/-- The VN-table rebuild loop of `join` (lines 642-652): walk `NewVNInfo`,
write the non-null handles densely into `valnos` and renumber their ids. -/
def joinRebuildGo : List (Option Nat) → LiveRangeS → Nat → LiveRangeS
  | [], lr, _ => lr
  | none :: rest, lr, k => joinRebuildGo rest lr k
  | some h :: rest, lr, k =>
    joinRebuildGo rest
      (setVN { lr with valnos := writeOrPush lr.valnos k h } h (fun v => { v with id := k }))
      (k + 1)

/-- The VN-table rebuild of `join` including the `shrinkify` resize
(lines 641-654). -/
def joinRebuildValnos (lr : LiveRangeS) (newVNInfo : List (Option Nat)) : LiveRangeS :=
  let numVals := lr.valnos.length
  let lr' := joinRebuildGo newVNInfo lr 0
  if newVNInfo.length < numVals then { lr' with valnos := lr'.valnos.take newVNInfo.length }
  else lr'

/-- The rewrite of `Other`'s segments (lines 637-638): no coalescing.  As in
`joinRewrite`, a null mapping for a live segment is modelled as a `staleVN`
failure. -/
def rewriteOtherSegs (f : Nat → Option Nat) :
    List Segment → Except AssertErr (List Segment)
  | [] => .ok []
  | s :: rest =>
    match f s.valno with
    | none => .error .staleVN
    | some v => (rewriteOtherSegs f rest).map (fun l => { s with valno := v } :: l)

/-- `LiveRange::join` (lines 583-660).  `otherSegments` are the segments of
`Other`; their valno handles point into `lr.arena`, modelling that all
`VNInfo`s of one compilation unit live in one shared bump allocator.  The
trailing updater destruction performs the final `flush`. -/
def join (lr : LiveRangeS) (otherSegments : List Segment)
    (lhsAssign rhsAssign : List Nat) (newVNInfo : List (Option Nat)) :
    Except AssertErr LiveRangeS := do
  if ¬ verifyLR lr then throw .verifyFailed
  let mustMap := mustMapCurValNos lr lhsAssign newVNInfo
  let lr ←
    if mustMap ∧ ¬ lr.segments.isEmpty then
      match joinRewrite (joinMapVN lhsAssign newVNInfo lr) lr.segments with
      | .error e => throw e
      | .ok segs' => pure { lr with segments := segs' }
    else pure lr
  -- Rewrite Other values before changing the VNInfo ids.
  let otherSegs' ← rewriteOtherSegs (joinMapVN rhsAssign newVNInfo lr) otherSegments
  -- Update val# info.
  let lr := joinRebuildValnos lr newVNInfo
  -- Okay, now insert the RHS live segments into the LHS.
  let u ← streamAdds ⟨lr, none, 0, 0, []⟩ otherSegs'
  let u ← updFlush u
  pure u.lr

/-! ## SubRange list management (`LiveInterval::removeEmptySubRanges`) -/

/-- A subrange node of a `LiveInterval`: a live range tagged with a lane
mask.  The linked list is modelled as a Lean list. -/
structure SubRange where
  laneMask : Nat
  range : LiveRangeS
deriving Repr, DecidableEq, Inhabited

/-- `LiveRange::empty()` for a subrange. -/
def SubRange.emptyRange (sr : SubRange) : Bool := sr.range.segments.isEmpty

theorem length_dropWhile_le_sub {α : Type} (p : α → Bool) (l : List α) :
    (l.dropWhile p).length ≤ l.length := by
  induction l with
  | nil => simp [List.dropWhile]
  | cons a l ih =>
    simp only [List.dropWhile]
    cases p a
    · simp
    · simp; omega

/-- `LiveInterval::removeEmptySubRanges` (lines 795-812): walk the linked
list with a previous-pointer pointer; on a non-empty node advance, on an
empty node free the whole run of empty nodes and relink. -/
def removeEmptySubRanges : List SubRange → List SubRange
  | [] => []
  | i :: rest =>
    if !i.emptyRange then
      i :: removeEmptySubRanges rest
    else
      removeEmptySubRanges (rest.dropWhile SubRange.emptyRange)
termination_by l => l.length
decreasing_by
  all_goals simp only [List.length_cons]
  · omega
  · exact Nat.lt_succ_of_le (length_dropWhile_le_sub SubRange.emptyRange rest)

/-! ## General helper lemmas -/

theorem filter_dropWhile_not {α : Type} (p : α → Bool) (l : List α) :
    (l.dropWhile p).filter (fun x => !p x) = l.filter (fun x => !p x) := by
  induction l with
  | nil => rfl
  | cons a l ih =>
    by_cases h : p a = true
    · simp [List.dropWhile, List.filter, h, ih]
    · simp only [Bool.not_eq_true] at h
      simp [List.dropWhile, List.filter, h]

theorem removeEmptySubRanges_len (n : Nat) :
    ∀ l : List SubRange, l.length ≤ n →
      removeEmptySubRanges l = l.filter (fun sr => !sr.emptyRange) := by
  induction n with
  | zero =>
    intro l hl
    match l with
    | [] => simp [removeEmptySubRanges]
  | succ n ih =>
    intro l hl
    match l with
    | [] => simp [removeEmptySubRanges]
    | i :: rest =>
      rw [removeEmptySubRanges]
      by_cases h : i.emptyRange = true
      · have hlen : (rest.dropWhile SubRange.emptyRange).length ≤ n := by
          have := length_dropWhile_le_sub SubRange.emptyRange rest
          simp only [List.length_cons] at hl
          omega
        rw [if_neg (by simp [h])]
        rw [ih _ hlen, filter_dropWhile_not]
        simp [List.filter, h]
      · simp only [Bool.not_eq_true] at h
        rw [if_pos (by simp [h])]
        rw [ih rest (by simp only [List.length_cons] at hl; omega)]
        simp [List.filter, h]

/-! ## Claim C10 -/

/-- C10: `removeEmptySubRanges` leaves exactly the subranges that were
non-empty before the call, in their original relative order, and does not
modify any field of the surviving subranges: it equals filtering the
subrange list by non-emptiness. -/
theorem C10_removeEmptySubRanges_eq_filter (l : List SubRange) :
    removeEmptySubRanges l = l.filter (fun sr => !sr.emptyRange) :=
  removeEmptySubRanges_len l.length l (Nat.le_refl _)

/-! ## Claim C7: flush idempotence -/

deriving instance DecidableEq for Except

theorem mergeSpills_lastStart {u u' : LiveRangeUpdater} (h : mergeSpills u = .ok u') :
    u'.lastStart = u.lastStart := by
  unfold mergeSpills at h
  split at h
  split at h
  · exact absurd h (by simp)
  · cases h
    rfl

theorem flush_ok_lastStart {u u' : LiveRangeUpdater} (h : updFlush u = .ok u') :
    u'.lastStart = none := by
  unfold updFlush at h
  split at h
  · rename_i hclean
    cases h
    simp only [LiveRangeUpdater.isDirty, Bool.not_eq_true, Option.isSome] at hclean
    cases hls : u.lastStart with
    | none => rfl
    | some x => rw [hls] at hclean; simp at hclean
  · split at h
    · split at h
      · cases h
        rfl
      · exact absurd h (by simp)
    · split at h
      · exact absurd h (by simp)
      · rename_i u4 heq
        split at h
        · cases h
          rw [mergeSpills_lastStart heq]
        · exact absurd h (by simp)

/-- C7: `flush` is idempotent: whenever `flush` completes on an updater state,
the resulting state is clean (`isDirty` is false because `LastStart` was
invalidated), so a second `flush` returns it unchanged. -/
theorem C7_flush_idempotent (u u' : LiveRangeUpdater) (h : updFlush u = .ok u') :
    updFlush u' = .ok u' ∧ u'.isDirty = false := by
  have hl := flush_ok_lastStart h
  have hd : u'.isDirty = false := by simp [LiveRangeUpdater.isDirty, hl]
  refine ⟨?_, hd⟩
  unfold updFlush
  simp [hd]

/-- Witness for C7 at a concrete dirty updater state. -/
theorem C7_flush_idempotent_witness :
    updFlush (⟨⟨[⟨0, 0, false, false⟩], [⟨0, 10, 0⟩], [0]⟩, none, 0, 0, []⟩ : LiveRangeUpdater)
      = .ok (⟨⟨[⟨0, 0, false, false⟩], [⟨0, 10, 0⟩], [0]⟩, none, 0, 0, []⟩ : LiveRangeUpdater) :=
  (C7_flush_idempotent
    (⟨⟨[⟨0, 0, false, false⟩], [⟨0, 10, 0⟩], [0]⟩, some 5, 0, 0, []⟩ : LiveRangeUpdater)
    (⟨⟨[⟨0, 0, false, false⟩], [⟨0, 10, 0⟩], [0]⟩, none, 0, 0, []⟩ : LiveRangeUpdater)
    (by decide)).1

/-! ## Claim C6: updater scenario and the coalescing test -/

/-- C6: on the live range `[(0,10,v0), (20,30,v0)]`, streaming
`add (10,20,v0)` then the out-of-order `add (5,8,v0)` through a
`LiveRangeUpdater` and flushing yields the fully coalesced `[(0,30,v0)]`;
and for segments `A`, `B` with `A.start ≤ B.start`, the `coalescable` test
succeeds exactly when `A.end ≥ B.start` and `A.valno = B.valno`. -/
theorem C6_updater_out_of_order_flush :
    ((do
        let u1 ← updAdd ⟨⟨[⟨0, 0, false, false⟩], [⟨0, 10, 0⟩, ⟨20, 30, 0⟩], [0]⟩, none, 0, 0, []⟩
          ⟨10, 20, 0⟩
        let u2 ← updAdd u1 ⟨5, 8, 0⟩
        let u3 ← updFlush u2
        pure u3.lr.segments : Except AssertErr (List Segment)) = .ok [⟨0, 30, 0⟩]) ∧
    ∀ a b : Segment, a.start ≤ b.start →
      (coalescable a b = .ok true ↔ (b.start ≤ a.stop ∧ a.valno = b.valno)) := by
  constructor
  · decide
  · intro a b hab
    unfold coalescable
    rw [if_neg (by omega)]
    by_cases h1 : a.stop = b.start
    · simp [h1]
    · rw [if_neg h1]
      by_cases h2 : a.stop < b.start
      · simp only [if_pos h2]
        constructor
        · intro h; exact absurd h (by simp)
        · intro h; omega
      · rw [if_neg h2]
        by_cases h3 : a.valno = b.valno
        · simp [h3]; omega
        · simp [h3]

/-- Witness for C6's coalescing test at concrete segments. -/
theorem C6_updater_out_of_order_flush_witness :
    coalescable ⟨0, 10, 7⟩ ⟨10, 20, 7⟩ = .ok true ↔
      ((10 : Nat) ≤ 10 ∧ (7 : Nat) = 7) :=
  C6_updater_out_of_order_flush.2 ⟨0, 10, 7⟩ ⟨10, 20, 7⟩ (by decide)

/-! ## Claim C2: `find` and `contains` -/

theorem getD_eq_getElem {α : Type} (l : List α) (d : α) (i : Nat) (h : i < l.length) :
    l.getD i d = l[i] := by
  induction l generalizing i with
  | nil => simp at h
  | cons a t ih =>
    cases i with
    | zero => rfl
    | succ n => simpa using ih n (by simpa using h)

/-- Under the ordering invariants, adjacent-pair ordering extends to all pairs. -/
theorem pairwise_adjOK : ∀ segs : List Segment,
    (∀ s ∈ segs, s.start < s.stop) → segs.Chain' adjOK → segs.Pairwise adjOK
  | [], _, _ => List.Pairwise.nil
  | a :: t, h1, h2 => by
    have ht : t.Chain' adjOK := (List.chain'_cons'.mp h2).2
    have hp := pairwise_adjOK t (fun s hs => h1 s (List.mem_cons_of_mem _ hs)) ht
    refine List.Pairwise.cons ?_ hp
    intro b hb
    cases t with
    | nil => simp at hb
    | cons c t' =>
      have hac : adjOK a c := by
        have := (List.chain'_cons'.mp h2).1
        simpa using this
      rcases List.mem_cons.mp hb with rfl | hb'
      · exact hac
      · have hcb : adjOK c b := (List.pairwise_cons.mp hp).1 b hb'
        have hcc : c.start < c.stop := h1 c (by simp)
        have h3 : a.stop < b.start := by
          have := hac.1; have := hcb.1; omega
        exact ⟨Nat.le_of_lt h3, fun he => absurd he (by omega)⟩

/-- Pairwise ordering at `getD` indices. -/
theorem adjOK_getD (segs : List Segment) (hp : segs.Pairwise adjOK) {j k : Nat}
    (hjk : j < k) (hk : k < segs.length) :
    adjOK (segs.getD j default) (segs.getD k default) := by
  rw [getD_eq_getElem _ _ j (Nat.lt_trans hjk hk), getD_eq_getElem _ _ k hk]
  exact List.pairwise_iff_getElem.mp hp j k (Nat.lt_trans hjk hk) hk hjk

/-- The binary-search loop invariant: positions below `i` end at or before
`pos`, positions at or above `i + len` end after `pos`, and the result stays
inside `[i, i + len]` and satisfies both properties. -/
theorem findLoop_correct (segs : List Segment) (pos : Nat)
    (h1 : ∀ s ∈ segs, s.start < s.stop) (h2 : segs.Chain' adjOK) :
    ∀ fuel i len, len ≤ fuel → i + len ≤ segs.length →
      (∀ j, j < i → (segs.getD j default).stop ≤ pos) →
      (∀ m, i + len ≤ m → m < segs.length → pos < (segs.getD m default).stop) →
      (∀ j, j < findLoop segs pos fuel i len → (segs.getD j default).stop ≤ pos) ∧
      (∀ m, findLoop segs pos fuel i len ≤ m → m < segs.length →
        pos < (segs.getD m default).stop) ∧
      i ≤ findLoop segs pos fuel i len ∧ findLoop segs pos fuel i len ≤ i + len := by
  have hp := pairwise_adjOK segs h1 h2
  intro fuel
  induction fuel with
  | zero =>
    intro i len hfuel hlen hlow hhigh
    have : len = 0 := Nat.le_zero.mp hfuel
    subst this
    simp only [findLoop]
    exact ⟨hlow, by simpa using hhigh, Nat.le_refl _, by omega⟩
  | succ fuel ih =>
    intro i len hfuel hlen hlow hhigh
    by_cases h0 : len = 0
    · subst h0
      rw [show findLoop segs pos (fuel + 1) i 0 = i from by simp [findLoop]]
      exact ⟨hlow, by simpa using hhigh, Nat.le_refl _, by omega⟩
    · rw [show findLoop segs pos (fuel + 1) i len
          = (if pos < (segs.getD (i + len / 2) default).stop then
               findLoop segs pos fuel i (len / 2)
             else
               findLoop segs pos fuel (i + len / 2 + 1) (len - (len / 2 + 1))) by
            simp [findLoop, h0]]
      by_cases hmid : pos < (segs.getD (i + len / 2) default).stop
      · rw [if_pos hmid]
        have hrec := ih i (len / 2) (by omega) (by omega) hlow ?_
        · exact ⟨hrec.1, hrec.2.1, hrec.2.2.1, by omega⟩
        · intro m hm hmlen
          rcases Nat.eq_or_lt_of_le hm with heq | hlt
          · rw [← heq]; exact hmid
          · -- i + len/2 < m: stops are increasing
            have := adjOK_getD segs hp (j := i + len / 2) (k := m) (by omega) hmlen
            have hms : (segs.getD m default).start < (segs.getD m default).stop := by
              rw [getD_eq_getElem _ _ m hmlen]
              exact h1 _ (List.getElem_mem _)
            have := this.1
            omega
      · rw [if_neg hmid]
        have hstep : (segs.getD (i + len / 2) default).stop ≤ pos := by omega
        have hrec := ih (i + len / 2 + 1) (len - (len / 2 + 1)) (by omega) (by omega) ?_ ?_
        · refine ⟨hrec.1, hrec.2.1, by omega, by omega⟩
        · intro j hj
          by_cases hji : j < i
          · exact hlow j hji
          · -- i ≤ j ≤ i + len/2
            rcases Nat.eq_or_lt_of_le (Nat.le_of_lt_succ (by omega : j < i + len / 2 + 1))
              with heq | hlt
            · rw [heq]; exact hstep
            · have hmidlt : i + len / 2 < segs.length := by omega
              have := (adjOK_getD segs hp (j := j) (k := i + len / 2) hlt hmidlt).1
              have hjs : (segs.getD (i + len / 2) default).start
                  < (segs.getD (i + len / 2) default).stop := by
                rw [getD_eq_getElem _ _ _ hmidlt]
                exact h1 _ (List.getElem_mem _)
              omega
        · intro m hm hmlen
          exact hhigh m (by omega) hmlen

/-- C2: under the ordering invariants, `find(p)` returns the first segment
ending after `p` (all earlier segments end at or before `p`), returns the end
iterator exactly when the range is empty or `p` is at or past the end of the
last segment, and returns a segment containing `p` if and only if
`contains(p)` holds. -/
theorem C2_find_first_end_after (segs : List Segment) (pos : Nat)
    (h1 : ∀ s ∈ segs, s.start < s.stop) (h2 : segs.Chain' adjOK) :
    (∀ j, j < find segs pos → (segs.getD j default).stop ≤ pos) ∧
    (find segs pos < segs.length → pos < (segs.getD (find segs pos) default).stop) ∧
    find segs pos ≤ segs.length ∧
    (find segs pos = segs.length ↔ (segs = [] ∨ endIndex segs ≤ pos)) ∧
    ((find segs pos < segs.length ∧ (segs.getD (find segs pos) default).start ≤ pos ∧
        pos < (segs.getD (find segs pos) default).stop) ↔ containsPos segs pos = true) := by
  have hp := pairwise_adjOK segs h1 h2
  by_cases hend : segs.isEmpty = true || decide (endIndex segs ≤ pos) = true
  · have hfind : find segs pos = segs.length := by
      unfold find
      rw [if_pos (by simpa using hend)]
    refine ⟨?_, ?_, ?_, ?_, ?_⟩
    · intro j hj
      rw [hfind] at hj
      rcases (by simpa using hend : segs = [] ∨ endIndex segs ≤ pos) with rfl | hle
      · simp at hj
      · -- every stop is at most the last stop, which is ≤ pos
        have hjlen : j < segs.length := hj
        by_cases hlast : j = segs.length - 1
        · subst hlast
          have : segs.getD (segs.length - 1) default = segs.getLastD default := by
            cases segs with
            | nil => rfl
            | cons a t =>
              rw [List.getLastD_eq_getLast?, List.getLast?_eq_getElem?]
              rw [getD_eq_getElem _ _ _ (by simp)]
              simp [List.getElem?_eq_getElem]
          rw [this]
          exact hle
        · have hlt : j < segs.length - 1 := by omega
          have := (adjOK_getD segs hp hlt (by omega)).1
          have hlast : (segs.getD (segs.length - 1) default).stop = endIndex segs := by
            cases segs with
            | nil => simp at hjlen
            | cons a t =>
              unfold endIndex
              rw [List.getLastD_eq_getLast?, List.getLast?_eq_getElem?]
              rw [getD_eq_getElem _ _ _ (by simp)]
              simp [List.getElem?_eq_getElem]
          have hs : (segs.getD (segs.length - 1) default).start
              < (segs.getD (segs.length - 1) default).stop := by
            rw [getD_eq_getElem _ _ _ (by omega)]
            exact h1 _ (List.getElem_mem _)
          omega
    · intro hlt; rw [hfind] at hlt; omega
    · rw [hfind]
    · simp only [hfind, true_iff]
      simpa using hend
    · rw [hfind]
      constructor
      · intro h; omega
      · intro h
        unfold containsPos at h
        rw [hfind] at h
        simp at h
  · have hcond : ¬(segs.isEmpty || decide (endIndex segs ≤ pos)) = true := by
      simpa using hend
    have hfind : find segs pos = findLoop segs pos segs.length 0 segs.length := by
      unfold find
      rw [if_neg hcond]
    have hrec := findLoop_correct segs pos h1 h2 segs.length 0 segs.length
      (Nat.le_refl _) (by omega) (by omega) (by omega)
    rw [← hfind] at hrec
    obtain ⟨hlow, hhigh, -, hub⟩ := hrec
    have hne : segs ≠ [] := by
      intro hnil
      rw [hnil] at hend
      simp at hend
    have hlt : find segs pos < segs.length := by
      rcases Nat.eq_or_lt_of_le hub with heq | hlt
      · exfalso
        -- find = length contradicts pos < endIndex
        have hlast : (segs.getD (segs.length - 1) default).stop = endIndex segs := by
          cases segs with
          | nil => exact absurd rfl hne
          | cons a t =>
            unfold endIndex
            rw [List.getLastD_eq_getLast?, List.getLast?_eq_getElem?]
            rw [getD_eq_getElem _ _ _ (by simp)]
            simp [List.getElem?_eq_getElem]
        have hslen : 0 < segs.length := by
          cases segs with
          | nil => exact absurd rfl hne
          | cons a t => simp
        have := hlow (segs.length - 1) (by omega)
        have hple : ¬ endIndex segs ≤ pos := by
          intro hx
          rw [show (segs.isEmpty || decide (endIndex segs ≤ pos)) = true by
            simp [hx]] at hcond
          exact hcond rfl
        omega
      · simpa using hlt
    refine ⟨hlow, fun _ => hhigh _ (Nat.le_refl _) hlt, by omega, ?_, ?_⟩
    · constructor
      · intro h; omega
      · intro h
        rcases h with rfl | hle
        · exact absurd rfl hne
        · exfalso
          rw [show (segs.isEmpty || decide (endIndex segs ≤ pos)) = true by
            simp [hle]] at hcond
          exact hcond rfl
    · rw [show containsPos segs pos
          = (decide (find segs pos < segs.length) &&
             decide ((segs.getD (find segs pos) default).start ≤ pos)) from rfl]
      rw [Bool.and_eq_true, decide_eq_true_eq, decide_eq_true_eq]
      constructor
      · intro ⟨ha, hb, _⟩
        exact ⟨ha, hb⟩
      · intro h
        exact ⟨h.1, h.2, hhigh _ (Nat.le_refl _) hlt⟩

/-- Witness for C2 at a concrete sorted range and position. -/
theorem C2_find_first_end_after_witness :
    (∀ j, j < find [⟨0, 5, 0⟩, ⟨8, 12, 1⟩] 9 →
      (([⟨0, 5, 0⟩, ⟨8, 12, 1⟩] : List Segment).getD j default).stop ≤ 9) ∧
    (find [⟨0, 5, 0⟩, ⟨8, 12, 1⟩] 9 < 2 →
      9 < (([⟨0, 5, 0⟩, ⟨8, 12, 1⟩] : List Segment).getD
        (find [⟨0, 5, 0⟩, ⟨8, 12, 1⟩] 9) default).stop) ∧
    find [⟨0, 5, 0⟩, ⟨8, 12, 1⟩] 9 ≤ 2 ∧
    (find [⟨0, 5, 0⟩, ⟨8, 12, 1⟩] 9 = 2 ↔
      (([⟨0, 5, 0⟩, ⟨8, 12, 1⟩] : List Segment) = [] ∨
        endIndex [⟨0, 5, 0⟩, ⟨8, 12, 1⟩] ≤ 9)) ∧
    ((find [⟨0, 5, 0⟩, ⟨8, 12, 1⟩] 9 < 2 ∧
        (([⟨0, 5, 0⟩, ⟨8, 12, 1⟩] : List Segment).getD
          (find [⟨0, 5, 0⟩, ⟨8, 12, 1⟩] 9) default).start ≤ 9 ∧
        9 < (([⟨0, 5, 0⟩, ⟨8, 12, 1⟩] : List Segment).getD
          (find [⟨0, 5, 0⟩, ⟨8, 12, 1⟩] 9) default).stop) ↔
      containsPos [⟨0, 5, 0⟩, ⟨8, 12, 1⟩] 9 = true) :=
  C2_find_first_end_after [⟨0, 5, 0⟩, ⟨8, 12, 1⟩] 9 (by decide) ((chainB_iff _).mp (by decide))

/-! ## Claim C9: removeValNo / markValNoForDeletion -/

/-- C9 counterexample: on a `LiveRange` with no segments but a value number
in its table at the final slot, `removeValNo` is a no-op — the claimed
"marks vn for deletion" (which would pop the final slot) does not happen. -/
theorem C9_counterexample :
    removeValNo ⟨[⟨0, 5, false, false⟩], [], [0]⟩ 0
      = (⟨[⟨0, 5, false, false⟩], [], [0]⟩ : LiveRangeS) ∧
    (vn ⟨[⟨0, 5, false, false⟩], [], [0]⟩ 0).id + 1
      = (⟨[⟨0, 5, false, false⟩], [], [0]⟩ : LiveRangeS).valnos.length ∧
    (removeValNo ⟨[⟨0, 5, false, false⟩], [], [0]⟩ 0).valnos ≠ [] ∧
    (vn (removeValNo ⟨[⟨0, 5, false, false⟩], [], [0]⟩ 0) 0).unusedFlag = false := by
  decide

/-- C9 amended: on a `LiveRange` with no segments `removeValNo` is a no-op;
otherwise it erases exactly the segments carrying `vn` and marks `vn` for
deletion — popping the final VN-table slot together with the trailing
already-unused entries when `vn.id` is the final slot, and flagging the
arena cell unused in place otherwise. -/
theorem C9_removeValNo_amended (lr : LiveRangeS) (h : Nat) :
    (lr.segments = [] → removeValNo lr h = lr) ∧
    (lr.segments ≠ [] →
      (removeValNo lr h).segments = lr.segments.filter (fun s => s.valno ≠ h) ∧
      ((vn lr h).id + 1 = lr.valnos.length →
        (removeValNo lr h).valnos = dropTrailingUnused lr.arena lr.valnos.dropLast ∧
        (removeValNo lr h).arena = lr.arena) ∧
      ((vn lr h).id + 1 ≠ lr.valnos.length →
        (removeValNo lr h).valnos = lr.valnos ∧
        (removeValNo lr h).arena
          = lr.arena.set h { lr.arena.getD h default with unusedFlag := true })) := by
  constructor
  · intro he
    unfold removeValNo
    rw [if_pos (by simp [he])]
  · intro hne
    have hcond : ¬ lr.segments.isEmpty = true := by simpa using hne
    constructor
    · unfold removeValNo
      rw [if_neg hcond]
      unfold markValNoForDeletion
      split <;> rfl
    · constructor
      · intro hid
        unfold removeValNo
        rw [if_neg hcond]
        unfold markValNoForDeletion
        rw [if_pos (by simpa [vn] using hid)]
        exact ⟨rfl, rfl⟩
      · intro hid
        unfold removeValNo
        rw [if_neg hcond]
        unfold markValNoForDeletion
        rw [if_neg (by simpa [vn] using hid)]
        exact ⟨rfl, rfl⟩

/-- Witness for C9's amended statement on a concrete one-segment range. -/
theorem C9_removeValNo_amended_witness :
    (removeValNo ⟨[⟨0, 5, false, false⟩], [⟨5, 9, 0⟩], [0]⟩ 0).segments
      = (([⟨5, 9, 0⟩] : List Segment).filter (fun s => s.valno ≠ 0)) ∧
    ((vn ⟨[⟨0, 5, false, false⟩], [⟨5, 9, 0⟩], [0]⟩ 0).id + 1
        = (⟨[⟨0, 5, false, false⟩], [⟨5, 9, 0⟩], [0]⟩ : LiveRangeS).valnos.length →
      (removeValNo ⟨[⟨0, 5, false, false⟩], [⟨5, 9, 0⟩], [0]⟩ 0).valnos
          = dropTrailingUnused [⟨0, 5, false, false⟩] (([0] : List Nat).dropLast) ∧
      (removeValNo ⟨[⟨0, 5, false, false⟩], [⟨5, 9, 0⟩], [0]⟩ 0).arena
          = [⟨0, 5, false, false⟩]) :=
  let T := C9_removeValNo_amended ⟨[⟨0, 5, false, false⟩], [⟨5, 9, 0⟩], [0]⟩ 0
  ⟨(T.2 (by decide)).1, (T.2 (by decide)).2.1⟩

/-! ## Claim C8: createDeadDef -/

/-- C8 counterexample: with segments `[(6,10,v0)]` and `v0.def = 6`, no
segment covers the slot `5`, yet `createDeadDef(5)` does not allocate a new
value number and does not insert `[5, 5.dead)`: slots 5 and 6 share
instruction 1, so the early-clobber promotion fires and rewrites the existing
segment to `[(5,10,v0)]`, returning `v0`. -/
theorem C8_counterexample :
    (¬ ∃ s ∈ ([⟨6, 10, 0⟩] : List Segment), s.start ≤ 5 ∧ 5 < s.stop) ∧
    slotIsDead 5 = false ∧
    createDeadDef ⟨[⟨0, 6, false, false⟩], [⟨6, 10, 0⟩], [0]⟩ 5
      = .ok (⟨[⟨0, 5, false, false⟩], [⟨5, 10, 0⟩], [0]⟩, 0) ∧
    (⟨[⟨0, 5, false, false⟩], [⟨5, 10, 0⟩], [0]⟩ : LiveRangeS).arena.length
      = (⟨[⟨0, 6, false, false⟩], [⟨6, 10, 0⟩], [0]⟩ : LiveRangeS).arena.length ∧
    ¬ (⟨5, getDeadSlot 5, 1⟩ : Segment) ∈
        (⟨[⟨0, 5, false, false⟩], [⟨5, 10, 0⟩], [0]⟩ : LiveRangeS).segments := by
  decide

theorem find_eq_length_of_all_stop_le (segs : List Segment) (d : Nat)
    (h : ∀ s ∈ segs, s.stop ≤ d) : find segs d = segs.length := by
  unfold find
  cases segs with
  | nil => simp
  | cons a t =>
    rw [if_pos]
    simp only [List.isEmpty_cons, Bool.false_or, decide_eq_true_eq, endIndex,
      List.getLastD_cons]
    exact h _ (List.getLastD_mem_cons t a)

/-- C8 amended: the `createDeadDef` cases are keyed on `find(def)` — the
first segment ending after `def` — not on coverage of `def`: when every
segment ends at or before `def`, a fresh VN with this def is allocated and
`[def, def.dead)` is appended; when the found segment `S` starts in the same
instruction as `def` (whether or not it covers `def`) and the def-consistency
assertion passes, both `S.start` and `S.valno.def` are set to
`min def S.start`, no mutation happens when that minimum equals `S.start`,
and `S.valno` is returned without allocating; when `def` lies in an earlier
instruction than `S.start`, a fresh VN with `[def, def.dead)` is inserted in
front of `S`. -/
theorem C8_createDeadDef_amended (lr : LiveRangeS) (d : Nat)
    (hdead : slotIsDead d = false) :
    ((∀ s ∈ lr.segments, s.stop ≤ d) →
      createDeadDef lr d =
        .ok ({ arena := lr.arena ++ [⟨lr.valnos.length, d, false, false⟩],
               segments := lr.segments ++ [⟨d, getDeadSlot d, lr.arena.length⟩],
               valnos := lr.valnos ++ [lr.arena.length] }, lr.arena.length)) ∧
    (find lr.segments d < lr.segments.length →
      ((isSameInstr d (lr.segments.getD (find lr.segments d) default).start = true →
        (vn lr (lr.segments.getD (find lr.segments d) default).valno).vdef
            = (lr.segments.getD (find lr.segments d) default).start →
        ((min d (lr.segments.getD (find lr.segments d) default).start
              = (lr.segments.getD (find lr.segments d) default).start →
          createDeadDef lr d
            = .ok (lr, (lr.segments.getD (find lr.segments d) default).valno)) ∧
         (min d (lr.segments.getD (find lr.segments d) default).start
              ≠ (lr.segments.getD (find lr.segments d) default).start →
          createDeadDef lr d
            = .ok (setVN ⟨lr.arena,
                    lr.segments.set (find lr.segments d)
                      ⟨min d (lr.segments.getD (find lr.segments d) default).start,
                       (lr.segments.getD (find lr.segments d) default).stop,
                       (lr.segments.getD (find lr.segments d) default).valno⟩,
                    lr.valnos⟩
                  (lr.segments.getD (find lr.segments d) default).valno
                  (fun v => ⟨v.id,
                    min d (lr.segments.getD (find lr.segments d) default).start,
                    v.unusedFlag, v.phiDef⟩),
                (lr.segments.getD (find lr.segments d) default).valno)))) ∧
       (isSameInstr d (lr.segments.getD (find lr.segments d) default).start = false →
        isEarlierInstr d (lr.segments.getD (find lr.segments d) default).start = true →
        createDeadDef lr d =
          .ok ({ arena := lr.arena ++ [⟨lr.valnos.length, d, false, false⟩],
                 segments := lr.segments.take (find lr.segments d)
                   ++ [⟨d, getDeadSlot d, lr.arena.length⟩]
                   ++ lr.segments.drop (find lr.segments d),
                 valnos := lr.valnos ++ [lr.arena.length] }, lr.arena.length)))) := by
  constructor
  · intro hall
    have hfind := find_eq_length_of_all_stop_le lr.segments d hall
    unfold createDeadDef
    rw [if_neg (by simp [hdead]), if_pos hfind]
    rfl
  · intro hlt
    constructor
    · intro hsame hvdef
      constructor
      · intro hmin
        unfold createDeadDef
        rw [if_neg (by simp [hdead]), if_neg (by omega)]
        rw [if_pos hsame, if_neg (by simp [vn] at hvdef ⊢; omega), if_neg (by omega)]
      · intro hmin
        unfold createDeadDef
        rw [if_neg (by simp [hdead]), if_neg (by omega)]
        rw [if_pos hsame, if_neg (by simp [vn] at hvdef ⊢; omega), if_pos hmin]
    · intro hdiff hearlier
      unfold createDeadDef
      rw [if_neg (by simp [hdead]), if_neg (by omega)]
      have hd' : isSameInstr d ((lr.segments[find lr.segments d]?).getD default).start
          = false := by
        simpa only [List.getD, List.get?_eq_getElem?] using hdiff
      have he' : isEarlierInstr d ((lr.segments[find lr.segments d]?).getD default).start
          = true := by
        simpa only [List.getD, List.get?_eq_getElem?] using hearlier
      rw [if_neg (by simp [hd']), if_neg (by simp [he'])]
      rfl

/-- Witness for C8's amended statement: dead-def on an empty range appends a
fresh VN and `[def, def.dead)`. -/
theorem C8_createDeadDef_amended_witness :
    createDeadDef ⟨[], [], []⟩ 10
      = .ok ({ arena := [] ++ [⟨0, 10, false, false⟩],
               segments := ([] : List Segment) ++ [⟨10, getDeadSlot 10, 0⟩],
               valnos := ([] : List Nat) ++ [0] }, 0) :=
  (C8_createDeadDef_amended ⟨[], [], []⟩ 10 (by decide)).1 (by simp)

/-! ## Segment-list toolbox -/

theorem startlt_getD (segs : List Segment) (h1 : ∀ s ∈ segs, s.start < s.stop)
    {j : Nat} (hj : j < segs.length) :
    (segs.getD j default).start < (segs.getD j default).stop := by
  rw [getD_eq_getElem _ _ _ hj]
  exact h1 _ (List.getElem_mem _)

theorem upperBoundIdx_spec (key : Nat) (segs : List Segment) :
    upperBoundIdx key segs ≤ segs.length ∧
    (∀ j, j < upperBoundIdx key segs → (segs.getD j default).start ≤ key) ∧
    (upperBoundIdx key segs < segs.length →
      key < (segs.getD (upperBoundIdx key segs) default).start) := by
  induction segs with
  | nil => simp [upperBoundIdx]
  | cons t rest ih =>
    by_cases h : key < t.start
    · rw [show upperBoundIdx key (t :: rest) = 0 from by simp [upperBoundIdx, h]]
      exact ⟨by simp, by omega, fun _ => h⟩
    · rw [show upperBoundIdx key (t :: rest) = upperBoundIdx key rest + 1 from by
        simp [upperBoundIdx, h]]
      obtain ⟨ih1, ih2, ih3⟩ := ih
      refine ⟨by simp; omega, ?_, ?_⟩
      · intro j hj
        cases j with
        | zero => simpa using Nat.le_of_not_lt h
        | succ n => simpa using ih2 n (by omega)
      · intro hlt
        have hr : upperBoundIdx key rest < rest.length := by
          simp only [List.length_cons] at hlt; omega
        simpa using ih3 hr

/-- `segs` decomposes around index `i`. -/
theorem segs_decomp (segs : List Segment) {i : Nat} (hi : i < segs.length) :
    segs = segs.take i ++ segs.getD i default :: segs.drop (i + 1) := by
  conv_lhs => rw [← List.take_append_drop i segs]
  rw [List.drop_eq_getElem_cons hi, getD_eq_getElem _ _ _ hi]

/-- Membership in a drop, as an index bound. -/
theorem mem_drop_getD (segs : List Segment) (k : Nat) {b : Segment}
    (hb : b ∈ segs.drop k) :
    ∃ j, k ≤ j ∧ j < segs.length ∧ segs.getD j default = b := by
  rw [List.mem_iff_getElem] at hb
  obtain ⟨m, hm, heq⟩ := hb
  refine ⟨k + m, by omega, ?_, ?_⟩
  · have := List.length_drop k segs
    omega
  · have hlen : k + m < segs.length := by
      have := List.length_drop k segs
      omega
    rw [getD_eq_getElem _ _ _ hlen, ← heq]
    exact (List.getElem_drop segs).symm

/-- Membership in a take, as an index bound. -/
theorem mem_take_getD (segs : List Segment) (k : Nat) {b : Segment}
    (hb : b ∈ segs.take k) :
    ∃ j, j < k ∧ j < segs.length ∧ segs.getD j default = b := by
  rw [List.mem_iff_getElem] at hb
  obtain ⟨m, hm, heq⟩ := hb
  have hmk : m < k := by
    have := List.length_take k segs
    omega
  have hms : m < segs.length := by
    have := List.length_take k segs
    omega
  refine ⟨m, hmk, hms, ?_⟩
  rw [getD_eq_getElem _ _ _ hms, ← heq]
  exact (List.getElem_take segs).symm

/-! ## extendInBlock case analysis -/

theorem extendInBlock_none (lr : LiveRangeS) (startIdx kill : Nat) (hkill : 0 < kill)
    (hall : ∀ s ∈ lr.segments, s.start < kill → s.stop ≤ startIdx) :
    extendInBlock lr startIdx kill = .ok (lr, none) := by
  unfold extendInBlock
  by_cases hemp : lr.segments.isEmpty = true
  · rw [if_pos hemp]
  · rw [if_neg hemp]
    by_cases h0 : findInsertPos lr.segments ⟨getPrevSlot kill, kill, 0⟩ = 0
    · rw [if_pos h0]
    · rw [if_neg h0]
      obtain ⟨hub, hlow, -⟩ := upperBoundIdx_spec (getPrevSlot kill) lr.segments
      have hfi : findInsertPos lr.segments ⟨getPrevSlot kill, kill, 0⟩
          = upperBoundIdx (getPrevSlot kill) lr.segments := rfl
      rw [hfi] at h0 ⊢
      have hlt : upperBoundIdx (getPrevSlot kill) lr.segments - 1
          < lr.segments.length := by omega
      have hstart := hlow (upperBoundIdx (getPrevSlot kill) lr.segments - 1) (by omega)
      have hmem : lr.segments.getD
          (upperBoundIdx (getPrevSlot kill) lr.segments - 1) default
          ∈ lr.segments := by
        rw [getD_eq_getElem _ _ _ hlt]
        exact List.getElem_mem _
      have hstop : (lr.segments.getD
          (upperBoundIdx (getPrevSlot kill) lr.segments - 1) default).stop
          ≤ startIdx := by
        apply hall _ hmem
        have hgp : getPrevSlot kill = kill - 1 := rfl
        omega
      rw [if_pos hstop]

/-- `extendSegmentEndTo` when no following segment can be merged away
(every later segment ends after `newEnd`) and the segment's current end is at
most `newEnd`: the segment's end becomes `newEnd`, or the touching same-VN
successor is absorbed. -/
theorem extendSegmentEndTo_clean (segs : List Segment) (i newEnd : Nat)
    (hi : i < segs.length)
    (hs : (segs.getD i default).stop ≤ newEnd)
    (hafter : ∀ m ∈ segs.drop (i + 1), ¬ m.stop ≤ newEnd) :
    (segs.drop (i + 1) = [] ∧
      extendSegmentEndTo segs i newEnd
        = .ok (segs.take i
            ++ ⟨(segs.getD i default).start, newEnd, (segs.getD i default).valno⟩
              :: segs.drop (i + 1))) ∨
    (∃ m, segs.drop (i + 1) = m :: segs.drop (i + 2) ∧
      ((m.start ≤ newEnd ∧ m.valno = (segs.getD i default).valno ∧
          extendSegmentEndTo segs i newEnd
            = .ok (segs.take i
                ++ ⟨(segs.getD i default).start, m.stop, (segs.getD i default).valno⟩
                  :: segs.drop (i + 2))) ∨
       (¬ (m.start ≤ newEnd ∧ m.valno = (segs.getD i default).valno) ∧
          extendSegmentEndTo segs i newEnd
            = .ok (segs.take i
                ++ ⟨(segs.getD i default).start, newEnd, (segs.getD i default).valno⟩
                  :: segs.drop (i + 1))))) := by
  have hnl : ¬ segs.length ≤ i := by omega
  cases hdrop : segs.drop (i + 1) with
  | nil =>
    left
    refine ⟨rfl, ?_⟩
    unfold extendSegmentEndTo
    rw [if_neg hnl]
    unfold extendEndCore
    rw [hdrop]
    simp only [List.takeWhile_nil, List.dropWhile_nil, List.any_nil,
      Bool.false_eq_true, if_false, List.getLastD_nil]
    rw [Nat.max_eq_left hs]
    simp
  | cons m rest2 =>
    have hlen1 : i + 1 < segs.length := by
      by_contra hcon
      rw [List.drop_eq_nil_of_le (by omega)] at hdrop
      exact absurd hdrop (by simp)
    have hdec := List.drop_eq_getElem_cons hlen1
    rw [hdrop] at hdec
    have hrest2 : rest2 = segs.drop (i + 2) := (List.cons.inj hdec).2
    have hm : ¬ m.stop ≤ newEnd := hafter m (by rw [hdrop]; simp)
    right
    refine ⟨m, by rw [hrest2], ?_⟩
    by_cases hcase : m.start ≤ newEnd ∧ m.valno = (segs.getD i default).valno
    · left
      refine ⟨hcase.1, hcase.2, ?_⟩
      unfold extendSegmentEndTo
      rw [if_neg hnl]
      unfold extendEndCore
      rw [hdrop]
      rw [List.takeWhile_cons_of_neg (by simpa using hm),
        List.dropWhile_cons_of_neg (by simpa using hm)]
      simp only [List.any_nil, Bool.false_eq_true, if_false, List.getLastD_nil]
      rw [if_pos (by rw [Nat.max_eq_left hs]; exact hcase)]
      rw [hrest2]
      simp
    · right
      refine ⟨hcase, ?_⟩
      unfold extendSegmentEndTo
      rw [if_neg hnl]
      unfold extendEndCore
      rw [hdrop]
      rw [List.takeWhile_cons_of_neg (by simpa using hm),
        List.dropWhile_cons_of_neg (by simpa using hm)]
      simp only [List.any_nil, Bool.false_eq_true, if_false, List.getLastD_nil]
      rw [if_neg (by rw [Nat.max_eq_left hs]; exact hcase)]
      rw [Nat.max_eq_left hs, ← hdrop]
      simp

/-- `extendInBlock` when a preceding segment exists and is live past the
block start: the returned value number is that segment's, and its end is
extended to at least `kill`, merging at most the touching same-VN
successor. -/
theorem extendInBlock_some (lr : LiveRangeS) (startIdx kill : Nat)
    (h1 : ∀ s ∈ lr.segments, s.start < s.stop) (hc : lr.segments.Chain' adjOK)
    {i : Nat} (hi : i < lr.segments.length)
    (hstart_i : (lr.segments.getD i default).start < kill)
    (hmax : ∀ j, j < lr.segments.length →
      (lr.segments.getD j default).start < kill → j ≤ i)
    (hlive : startIdx < (lr.segments.getD i default).stop) :
    ∃ segs',
      extendInBlock lr startIdx kill
        = .ok ({ lr with segments := segs' }, some (lr.segments.getD i default).valno) ∧
      ((segs' = lr.segments ∧ kill ≤ (lr.segments.getD i default).stop) ∨
       (segs' = lr.segments.take i
            ++ ⟨(lr.segments.getD i default).start, kill,
                (lr.segments.getD i default).valno⟩ :: lr.segments.drop (i + 1) ∧
          (lr.segments.getD i default).stop < kill ∧
          (∀ m ∈ lr.segments.drop (i + 1),
            m.start = kill → m.valno ≠ (lr.segments.getD i default).valno)) ∨
       (∃ m, lr.segments.drop (i + 1) = m :: lr.segments.drop (i + 2) ∧
          m.start = kill ∧ m.valno = (lr.segments.getD i default).valno ∧
          segs' = lr.segments.take i
            ++ ⟨(lr.segments.getD i default).start, m.stop,
                (lr.segments.getD i default).valno⟩ :: lr.segments.drop (i + 2) ∧
          (lr.segments.getD i default).stop < kill)) := by
  have hp := pairwise_adjOK lr.segments h1 hc
  have hkill : 0 < kill := by omega
  have hjge : ∀ j, i < j → j < lr.segments.length →
      kill ≤ (lr.segments.getD j default).start := by
    intro j hij hj
    by_contra hcon
    have := hmax j hj (by omega)
    omega
  obtain ⟨hub, hlow, hhigh⟩ := upperBoundIdx_spec (getPrevSlot kill) lr.segments
  have hgp : getPrevSlot kill = kill - 1 := rfl
  have hip : upperBoundIdx (getPrevSlot kill) lr.segments = i + 1 := by
    by_contra hne
    rcases Nat.lt_or_ge (upperBoundIdx (getPrevSlot kill) lr.segments) (i + 1) with hlt | hge
    · -- ub ≤ i: then kill ≤ start_ub contradicting order
      have hub_lt : upperBoundIdx (getPrevSlot kill) lr.segments < lr.segments.length := by
        omega
      have h2 := hhigh hub_lt
      by_cases heq : upperBoundIdx (getPrevSlot kill) lr.segments = i
      · rw [heq] at h2; omega
      · have hlti : upperBoundIdx (getPrevSlot kill) lr.segments < i := by omega
        have hord := (adjOK_getD lr.segments hp hlti hi).1
        have hss := startlt_getD lr.segments h1 hub_lt
        omega
    · -- ub ≥ i+2: then start_{i+1} ≤ kill-1 < kill, contradicting maximality
      have hge2 : i + 2 ≤ upperBoundIdx (getPrevSlot kill) lr.segments := by omega
      have hi1 : i + 1 < lr.segments.length := by omega
      have := hlow (i + 1) (by omega)
      have := hmax (i + 1) hi1 (by omega)
      omega
  unfold extendInBlock
  rw [if_neg (by simp only [List.isEmpty_iff]; intro hnil; rw [hnil] at hi; simp at hi)]
  have hfi : findInsertPos lr.segments ⟨getPrevSlot kill, kill, 0⟩
      = upperBoundIdx (getPrevSlot kill) lr.segments := rfl
  rw [hfi, hip]
  rw [if_neg (by omega)]
  rw [show i + 1 - 1 = i from rfl]
  rw [if_neg (by omega)]
  by_cases hstop : (lr.segments.getD i default).stop < kill
  · rw [if_pos hstop]
    have hafter : ∀ m ∈ lr.segments.drop (i + 1), ¬ m.stop ≤ kill := by
      intro m hm
      obtain ⟨j, hj1, hj2, hj3⟩ := mem_drop_getD lr.segments (i + 1) hm
      have hjs := hjge j (by omega) hj2
      have hss := startlt_getD lr.segments h1 hj2
      rw [hj3] at hjs hss
      omega
    rcases extendSegmentEndTo_clean lr.segments i kill hi (by omega) hafter with
      ⟨hnil, heq⟩ | ⟨m, hm1, ⟨hm2, hm3, heq⟩ | ⟨hm2, heq⟩⟩
    · refine ⟨_, by rw [heq], Or.inr (Or.inl ⟨rfl, hstop, ?_⟩)⟩
      rw [hnil]
      intro m hm
      simp at hm
    · -- touching same-VN successor absorbed
      have hmstart : m.start = kill := by
        have : m ∈ lr.segments.drop (i + 1) := by rw [hm1]; simp
        obtain ⟨j, hj1, hj2, hj3⟩ := mem_drop_getD lr.segments (i + 1) this
        have := hjge j (by omega) hj2
        rw [hj3] at this
        omega
      exact ⟨_, by rw [heq], Or.inr (Or.inr ⟨m, hm1, hmstart, hm3, rfl, hstop⟩)⟩
    · refine ⟨_, by rw [heq], Or.inr (Or.inl ⟨rfl, hstop, ?_⟩)⟩
      intro mm hmm hmmstart
      rcases List.mem_cons.mp (hm1 ▸ hmm) with rfl | hmm'
      · intro hv
        exact hm2 ⟨by omega, hv⟩
      · -- strictly later segments start after kill
        exfalso
        obtain ⟨j, hj1, hj2, hj3⟩ := mem_drop_getD lr.segments (i + 2) hmm'
        have hm1mem : m ∈ lr.segments.drop (i + 1) := by rw [hm1]; simp
        have hmidx : lr.segments.getD (i + 1) default = m := by
          have hi1 : i + 1 < lr.segments.length := by
            by_contra hcon
            rw [List.drop_eq_nil_of_le (by omega)] at hm1
            exact absurd hm1.symm (by simp)
          have hdec := List.drop_eq_getElem_cons hi1
          rw [hm1] at hdec
          have := (List.cons.inj hdec).1
          rw [getD_eq_getElem _ _ _ hi1]
          exact this.symm
        have hordm := (adjOK_getD lr.segments hp (j := i + 1) (k := j) (by omega) hj2).1
        have hmss : (lr.segments.getD (i + 1) default).start
            < (lr.segments.getD (i + 1) default).stop := by
          apply startlt_getD lr.segments h1
          by_contra hcon
          rw [List.drop_eq_nil_of_le (by omega)] at hm1
          exact absurd hm1.symm (by simp)
        have hkillm : kill ≤ (lr.segments.getD (i + 1) default).start :=
          hjge (i + 1) (by omega) (by
            by_contra hcon
            rw [List.drop_eq_nil_of_le (by omega)] at hm1
            exact absurd hm1.symm (by simp))
        have hjs := startlt_getD lr.segments h1 hj2
        rw [hj3] at hjs hordm
        rw [hmidx] at hordm hmss hkillm
        omega
  · rw [if_neg hstop]
    exact ⟨lr.segments, rfl, Or.inl ⟨rfl, by omega⟩⟩

/-! ## Claim C3 -/

/-- C3: `extendInBlock(block_start, use)` returns `none` exactly when no
segment starting strictly before `use` ends after `block_start`; otherwise,
with `s` the segment immediately preceding `use` (the last segment starting
before `use`), it returns `s.valno` and extends `s.end` to at least `use` —
leaving the range unchanged when `s.end ≥ use` already, setting `s.end := use`
otherwise, and absorbing the touching successor when it starts exactly at
`use` with the same value number.  On segments `[(10, 10.dead, v0)]`,
`extend_in_block(8, 20)` returns `v0` and leaves `[(10, 20, v0)]`. -/
theorem C3_extendInBlock (lr : LiveRangeS) (startIdx kill : Nat)
    (hinv : lrInvariant lr) (hkill : 0 < kill) :
    ((∀ s ∈ lr.segments, s.start < kill → s.stop ≤ startIdx) →
      extendInBlock lr startIdx kill = .ok (lr, none)) ∧
    (∀ i, i < lr.segments.length →
      (lr.segments.getD i default).start < kill →
      (∀ j, j < lr.segments.length →
        (lr.segments.getD j default).start < kill → j ≤ i) →
      startIdx < (lr.segments.getD i default).stop →
      ∃ segs',
        extendInBlock lr startIdx kill
          = .ok ({ lr with segments := segs' },
                 some (lr.segments.getD i default).valno) ∧
        ((segs' = lr.segments ∧ kill ≤ (lr.segments.getD i default).stop) ∨
         (segs' = lr.segments.take i
              ++ ⟨(lr.segments.getD i default).start, kill,
                  (lr.segments.getD i default).valno⟩ :: lr.segments.drop (i + 1) ∧
            (lr.segments.getD i default).stop < kill ∧
            (∀ m ∈ lr.segments.drop (i + 1),
              m.start = kill → m.valno ≠ (lr.segments.getD i default).valno)) ∨
         (∃ m, lr.segments.drop (i + 1) = m :: lr.segments.drop (i + 2) ∧
            m.start = kill ∧ m.valno = (lr.segments.getD i default).valno ∧
            segs' = lr.segments.take i
              ++ ⟨(lr.segments.getD i default).start, m.stop,
                  (lr.segments.getD i default).valno⟩ :: lr.segments.drop (i + 2) ∧
            (lr.segments.getD i default).stop < kill))) ∧
    extendInBlock ⟨[⟨0, 10, false, false⟩], [⟨10, 11, 0⟩], [0]⟩ 8 20
      = .ok (⟨[⟨0, 10, false, false⟩], [⟨10, 20, 0⟩], [0]⟩, some 0) := by
  obtain ⟨h1, hc, -⟩ := hinv
  exact ⟨extendInBlock_none lr startIdx kill hkill,
    fun i hi hs hmax hlive => extendInBlock_some lr startIdx kill h1 hc hi hs hmax hlive,
    by decide⟩

/-- Witness for C3 at the spec's S1 scenario. -/
theorem C3_extendInBlock_witness :
    extendInBlock ⟨[⟨0, 10, false, false⟩], [⟨10, 11, 0⟩], [0]⟩ 8 20
      = .ok (⟨[⟨0, 10, false, false⟩], [⟨10, 20, 0⟩], [0]⟩, some 0) :=
  (C3_extendInBlock ⟨[⟨0, 10, false, false⟩], [⟨10, 11, 0⟩], [0]⟩ 8 20
    (by decide) (by decide)).2.2

/-! ## Claim C4: addSegment -/

/-- C4 counterexample: inserting `(3,8,v0)` into `[(0,5,v0), (6,10,v1)]`
overlaps the differing-VN neighbour `(6,10,v1)`, yet `addSegment` does not
fail with `OverlapMismatch`: it merges into the same-VN predecessor first and
silently produces the overlapping `[(0,8,v0), (6,10,v1)]` (which even
violates the ordering invariant). -/
theorem C4_counterexample :
    lrInvariant ⟨[⟨0, 0, false, false⟩, ⟨1, 0, false, false⟩],
      [⟨0, 5, 0⟩, ⟨6, 10, 1⟩], [0, 1]⟩ ∧
    (∃ t ∈ ([⟨0, 5, 0⟩, ⟨6, 10, 1⟩] : List Segment),
      t.valno ≠ 0 ∧ t.start < 8 ∧ 3 < t.stop) ∧
    addSegment ⟨[⟨0, 0, false, false⟩, ⟨1, 0, false, false⟩],
        [⟨0, 5, 0⟩, ⟨6, 10, 1⟩], [0, 1]⟩ ⟨3, 8, 0⟩
      = .ok ⟨[⟨0, 0, false, false⟩, ⟨1, 0, false, false⟩],
          [⟨0, 8, 0⟩, ⟨6, 10, 1⟩], [0, 1]⟩ ∧
    ¬ lrInvariant ⟨[⟨0, 0, false, false⟩, ⟨1, 0, false, false⟩],
        [⟨0, 8, 0⟩, ⟨6, 10, 1⟩], [0, 1]⟩ := by
  decide

/-- C4 amended: `addSegment` merges the inserted segment with adjacent or
overlapping same-VN neighbours (the S2 scenario holds), and fails with
`OverlapMismatch` when the previous neighbour at the insert position carries
a different value number and ends after the inserted start, or when no merge
into the previous neighbour applies and the next neighbour carries a
different value number and starts before the inserted end; an overlap with a
differing-VN segment reached only by extending through a same-VN neighbour
is not detected. -/
theorem C4_addSegment_amended :
    ((do
        let lr1 ← addSegment ⟨[⟨0, 0, false, false⟩], [⟨10, 20, 0⟩], [0]⟩ ⟨20, 30, 0⟩
        let lr2 ← addSegment lr1 ⟨5, 10, 0⟩
        pure lr2.segments : Except AssertErr (List Segment)) = .ok [⟨5, 30, 0⟩]) ∧
    (∀ (lr : LiveRangeS) (S : Segment),
      findInsertPos lr.segments S ≠ 0 →
      S.valno ≠ (lr.segments.getD (findInsertPos lr.segments S - 1) default).valno →
      S.start < (lr.segments.getD (findInsertPos lr.segments S - 1) default).stop →
      addSegment lr S = .error .overlapMismatch) ∧
    (∀ (lr : LiveRangeS) (S : Segment),
      (findInsertPos lr.segments S ≠ 0 →
        (S.valno = (lr.segments.getD (findInsertPos lr.segments S - 1) default).valno →
          ¬ ((lr.segments.getD (findInsertPos lr.segments S - 1) default).start ≤ S.start ∧
             S.start ≤ (lr.segments.getD (findInsertPos lr.segments S - 1) default).stop)) ∧
        (S.valno ≠ (lr.segments.getD (findInsertPos lr.segments S - 1) default).valno →
          ¬ S.start < (lr.segments.getD (findInsertPos lr.segments S - 1) default).stop)) →
      findInsertPos lr.segments S < lr.segments.length →
      S.valno ≠ (lr.segments.getD (findInsertPos lr.segments S) default).valno →
      (lr.segments.getD (findInsertPos lr.segments S) default).start < S.stop →
      addSegment lr S = .error .overlapMismatch) := by
  refine ⟨by decide, ?_, ?_⟩
  · intro lr S h0 hvne hover
    unfold addSegment
    rw [if_neg h0, if_neg (by exact fun h => hvne h), if_pos hover]
  · intro lr S hB hlt hvne hover
    have htail : addSegmentTail lr S (findInsertPos lr.segments S)
        = .error .overlapMismatch := by
      unfold addSegmentTail
      rw [if_pos hlt, if_neg (by exact fun h => hvne h), if_pos hover]
    by_cases h0 : findInsertPos lr.segments S = 0
    · unfold addSegment
      rw [if_pos h0]
      exact htail
    · obtain ⟨hsame, hdiff⟩ := hB h0
      unfold addSegment
      rw [if_neg h0]
      by_cases hv : S.valno = (lr.segments.getD (findInsertPos lr.segments S - 1) default).valno
      · rw [if_pos hv, if_neg (hsame hv)]
        exact htail
      · rw [if_neg hv, if_neg (hdiff hv)]
        exact htail

/-- Witness for C4's failure clause at a concrete overlapping insertion. -/
theorem C4_addSegment_amended_witness :
    addSegment ⟨[⟨0, 0, false, false⟩, ⟨1, 0, false, false⟩],
        [⟨0, 5, 0⟩, ⟨6, 10, 1⟩], [0, 1]⟩ ⟨3, 8, 1⟩
      = .error .overlapMismatch :=
  C4_addSegment_amended.2.1
    ⟨[⟨0, 0, false, false⟩, ⟨1, 0, false, false⟩], [⟨0, 5, 0⟩, ⟨6, 10, 1⟩], [0, 1]⟩
    ⟨3, 8, 1⟩ (by decide) (by decide) (by decide)

/-! ## Claim C5: MergeValueNumberInto -/

theorem mergeV1Loop_nil (V1 V2 : Nat) (acc : List Segment) :
    mergeV1Loop V1 V2 acc [] = acc.reverse := by
  rw [mergeV1Loop.eq_def]

theorem mergeV1Loop_skip (V1 V2 : Nat) (acc : List Segment) (s : Segment)
    (l : List Segment) (h : s.valno ≠ V1) :
    mergeV1Loop V1 V2 acc (s :: l) = mergeV1Loop V1 V2 (s :: acc) l := by
  rw [mergeV1Loop.eq_def]
  simp [h]

theorem mergeV1Loop_v1 (V1 V2 : Nat) (acc : List Segment) (s : Segment)
    (l : List Segment) (h : s.valno = V1) (s1 : Segment) (acc1 : List Segment)
    (hs1 : s1 = (match acc with
      | p :: _ => if p.valno = V2 ∧ p.stop = s.start then ⟨p.start, s.stop, V2⟩
                  else ⟨s.start, s.stop, V2⟩
      | [] => (⟨s.start, s.stop, V2⟩ : Segment)))
    (hacc1 : acc1 = (match acc with
      | p :: acc' => if p.valno = V2 ∧ p.stop = s.start then acc' else acc
      | [] => ([] : List Segment))) :
    mergeV1Loop V1 V2 acc (s :: l) =
      (match l with
       | [] => (s1 :: acc1).reverse
       | i :: rest' =>
         if i.start = s1.stop ∧ i.valno = V2 then
           mergeV1Loop V1 V2 (⟨s1.start, i.stop, V2⟩ :: acc1) rest'
         else
           mergeV1Loop V1 V2 (s1 :: acc1) (i :: rest')) := by
  subst hs1 hacc1
  rw [mergeV1Loop.eq_def]
  simp only [h, ne_eq, not_true_eq_false, if_false, ite_not]
  rcases acc with _ | ⟨q, acc'⟩
  · rcases l with _ | ⟨i, rest'⟩ <;> rfl
  · by_cases hq : q.valno = V2 ∧ q.stop = s.start
    · rcases l with _ | ⟨i, rest'⟩ <;> simp [hq]
    · rcases l with _ | ⟨i, rest'⟩ <;> simp [hq]

theorem exists_mem_cons_seg {P : Segment → Prop} {a : Segment} {L : List Segment} :
    (∃ s ∈ a :: L, P s) ↔ P a ∨ ∃ s ∈ L, P s := by
  constructor
  · rintro ⟨s, hs, hP⟩
    rcases List.mem_cons.mp hs with rfl | hs'
    exacts [Or.inl hP, Or.inr ⟨s, hs', hP⟩]
  · rintro (h | ⟨s, hs, hP⟩)
    exacts [⟨a, by simp, h⟩, ⟨s, List.mem_cons_of_mem _ hs, hP⟩]

/-- After the merge loop, no segment carries the eliminated value number. -/
theorem mergeV1Loop_noV1 (V1 V2 : Nat) (hne : V1 ≠ V2) :
    ∀ n (l acc : List Segment), l.length ≤ n →
      (∀ u ∈ acc, u.valno ≠ V1) →
      ∀ s ∈ mergeV1Loop V1 V2 acc l, s.valno ≠ V1 := by
  intro n
  induction n with
  | zero =>
    intro l acc hl hacc s hs
    match l with
    | [] =>
      rw [mergeV1Loop_nil] at hs
      exact hacc s (List.mem_reverse.mp hs)
  | succ n ih =>
    intro l acc hl hacc s hs
    match l with
    | [] =>
      rw [mergeV1Loop_nil] at hs
      exact hacc s (List.mem_reverse.mp hs)
    | t :: rest =>
      by_cases hv : t.valno = V1
      case neg =>
        rw [mergeV1Loop_skip _ _ _ _ _ hv] at hs
        refine ih rest (t :: acc) (by simp at hl ⊢; omega) ?_ s hs
        intro u hu
        rcases List.mem_cons.mp hu with rfl | hu'
        exacts [hv, hacc u hu']
      case pos =>
        obtain ⟨s1, acc1, hs1v, hacc1sub, heq⟩ :
            ∃ s1 acc1, s1.valno = V2 ∧ (∀ u ∈ acc1, u.valno ≠ V1) ∧
              mergeV1Loop V1 V2 acc (t :: rest) =
                (match rest with
                 | [] => (s1 :: acc1).reverse
                 | i :: rest' =>
                   if i.start = s1.stop ∧ i.valno = V2 then
                     mergeV1Loop V1 V2 (⟨s1.start, i.stop, V2⟩ :: acc1) rest'
                   else mergeV1Loop V1 V2 (s1 :: acc1) (i :: rest')) := by
          rcases acc with _ | ⟨q, acc'⟩
          · exact ⟨⟨t.start, t.stop, V2⟩, [], rfl, by simp,
              mergeV1Loop_v1 _ _ _ _ _ hv _ _ rfl rfl⟩
          · by_cases hq : q.valno = V2 ∧ q.stop = t.start
            · refine ⟨⟨q.start, t.stop, V2⟩, acc', rfl, ?_,
                mergeV1Loop_v1 _ _ _ _ _ hv _ _ (by simp [hq]) (by simp [hq])⟩
              intro u hu
              exact hacc u (List.mem_cons_of_mem _ hu)
            · exact ⟨⟨t.start, t.stop, V2⟩, q :: acc', rfl, hacc,
                mergeV1Loop_v1 _ _ _ _ _ hv _ _ (by simp [hq]) (by simp [hq])⟩
        rw [heq] at hs
        have hs1ne : s1.valno ≠ V1 := by
          rw [hs1v]
          exact fun hh => hne hh.symm
        match rest with
        | [] =>
          rw [List.mem_reverse] at hs
          rcases List.mem_cons.mp hs with rfl | hs'
          exacts [hs1ne, hacc1sub s hs']
        | i :: rest' =>
          have hs : s ∈ (if i.start = s1.stop ∧ i.valno = V2 then
              mergeV1Loop V1 V2 (⟨s1.start, i.stop, V2⟩ :: acc1) rest'
            else mergeV1Loop V1 V2 (s1 :: acc1) (i :: rest')) := hs
          by_cases hf : i.start = s1.stop ∧ i.valno = V2
          · rw [if_pos hf] at hs
            refine ih rest' _ (by simp at hl ⊢; omega) ?_ s hs
            intro u hu
            rcases List.mem_cons.mp hu with rfl | hu'
            · exact fun hh => hne hh.symm
            · exact hacc1sub u hu'
          · rw [if_neg hf] at hs
            refine ih (i :: rest') _ (by simp at hl ⊢; omega) ?_ s hs
            intro u hu
            rcases List.mem_cons.mp hu with rfl | hu'
            exacts [hs1ne, hacc1sub u hu']

set_option maxHeartbeats 1000000 in
/-- The merge loop preserves program-point coverage up to relabelling `V1`
segments as `V2`: a point is covered with value number `w` in the result iff
it was covered in the accumulator with `w`, or in the unprocessed list with
`w` after the `V1 ↦ V2` substitution. -/
theorem mergeV1Loop_cov (V1 V2 : Nat) (hne : V1 ≠ V2) :
    ∀ n (l acc : List Segment), l.length ≤ n →
      (∀ u ∈ acc, u.start ≤ u.stop) → (∀ u ∈ l, u.start ≤ u.stop) →
      ∀ p w,
        ((∃ s ∈ mergeV1Loop V1 V2 acc l, s.start ≤ p ∧ p < s.stop ∧ s.valno = w) ↔
         ((∃ s ∈ acc, s.start ≤ p ∧ p < s.stop ∧ s.valno = w) ∨
          (∃ s ∈ l, s.start ≤ p ∧ p < s.stop ∧
            (if s.valno = V1 then V2 else s.valno) = w))) := by
  intro n
  induction n with
  | zero =>
    intro l acc hl hacc hll p w
    match l with
    | [] =>
      rw [mergeV1Loop_nil]
      constructor
      · rintro ⟨s, hs, h⟩
        exact Or.inl ⟨s, List.mem_reverse.mp hs, h⟩
      · rintro (⟨s, hs, h⟩ | ⟨s, hs, h⟩)
        · exact ⟨s, List.mem_reverse.mpr hs, h⟩
        · simp at hs
  | succ n ih =>
    intro l acc hl hacc hll p w
    match l with
    | [] =>
      rw [mergeV1Loop_nil]
      constructor
      · rintro ⟨s, hs, h⟩
        exact Or.inl ⟨s, List.mem_reverse.mp hs, h⟩
      · rintro (⟨s, hs, h⟩ | ⟨s, hs, h⟩)
        · exact ⟨s, List.mem_reverse.mpr hs, h⟩
        · simp at hs
    | t :: rest =>
      have htss : t.start ≤ t.stop := hll t (by simp)
      have hrestss : ∀ u ∈ rest, u.start ≤ u.stop :=
        fun u hu => hll u (List.mem_cons_of_mem _ hu)
      by_cases hv : t.valno = V1
      case neg =>
        rw [mergeV1Loop_skip _ _ _ _ _ hv]
        rw [ih rest (t :: acc) (by simp at hl ⊢; omega)
          (by intro u hu
              rcases List.mem_cons.mp hu with rfl | hu'
              exacts [htss, hacc u hu']) hrestss p w]
        rw [exists_mem_cons_seg, exists_mem_cons_seg]
        simp only [if_neg hv]
        constructor
        · rintro ((h | h) | h)
          exacts [Or.inr (Or.inl h), Or.inl h, Or.inr (Or.inr h)]
        · rintro (h | (h | h))
          exacts [Or.inl (Or.inr h), Or.inl (Or.inl h), Or.inr h]
      case pos =>
        obtain ⟨s1, acc1, heq, hs1v, hs1ss, hs1stop, hacc1ss, hcovsplit⟩ :
            ∃ s1 acc1,
              mergeV1Loop V1 V2 acc (t :: rest) =
                (match rest with
                 | [] => (s1 :: acc1).reverse
                 | i :: rest' =>
                   if i.start = s1.stop ∧ i.valno = V2 then
                     mergeV1Loop V1 V2 (⟨s1.start, i.stop, V2⟩ :: acc1) rest'
                   else mergeV1Loop V1 V2 (s1 :: acc1) (i :: rest')) ∧
              s1.valno = V2 ∧ s1.start ≤ s1.stop ∧ s1.stop = t.stop ∧
              (∀ u ∈ acc1, u.start ≤ u.stop) ∧
              (((s1.start ≤ p ∧ p < s1.stop ∧ V2 = w) ∨
                (∃ s ∈ acc1, s.start ≤ p ∧ p < s.stop ∧ s.valno = w)) ↔
               ((∃ s ∈ acc, s.start ≤ p ∧ p < s.stop ∧ s.valno = w) ∨
                (t.start ≤ p ∧ p < t.stop ∧ V2 = w))) := by
          rcases acc with _ | ⟨q, acc'⟩
          · refine ⟨⟨t.start, t.stop, V2⟩, [],
              mergeV1Loop_v1 _ _ _ _ _ hv _ _ rfl rfl, rfl, htss, rfl, by simp, ?_⟩
            constructor
            · rintro (h | ⟨s, hs, h⟩)
              · exact Or.inr h
              · simp at hs
            · rintro (⟨s, hs, h⟩ | h)
              · simp at hs
              · exact Or.inl h
          · by_cases hq : q.valno = V2 ∧ q.stop = t.start
            · have hqss : q.start ≤ q.stop := hacc q (by simp)
              refine ⟨⟨q.start, t.stop, V2⟩, acc',
                mergeV1Loop_v1 _ _ _ _ _ hv _ _ (by simp [hq]) (by simp [hq]),
                rfl, by simp only []; omega, rfl,
                fun u hu => hacc u (List.mem_cons_of_mem _ hu), ?_⟩
              rw [exists_mem_cons_seg]
              have harith : (q.start ≤ p ∧ p < t.stop) ↔
                  ((q.start ≤ p ∧ p < q.stop) ∨ (t.start ≤ p ∧ p < t.stop)) := by
                obtain ⟨hq1, hq2⟩ := hq
                omega
              have hqv : (q.start ≤ p ∧ p < q.stop ∧ q.valno = w) ↔
                  (q.start ≤ p ∧ p < q.stop ∧ V2 = w) := by
                rw [hq.1]
              constructor
              · rintro (⟨ha, hb, hc⟩ | h)
                · simp only [] at ha hb
                  rcases harith.mp ⟨ha, hb⟩ with hcov | hcov
                  · exact Or.inl (Or.inl (hqv.mpr ⟨hcov.1, hcov.2, hc⟩))
                  · exact Or.inr ⟨hcov.1, hcov.2, hc⟩
                · exact Or.inl (Or.inr h)
              · rintro ((hqc | h) | ⟨ha, hb, hc⟩)
                · obtain ⟨ha, hb, hc⟩ := hqv.mp hqc
                  exact Or.inl ⟨by simp only []; omega, by simp only []; omega, hc⟩
                · exact Or.inr h
                · exact Or.inl ⟨by simp only []; omega, by simp only []; omega, hc⟩
            · refine ⟨⟨t.start, t.stop, V2⟩, q :: acc',
                mergeV1Loop_v1 _ _ _ _ _ hv _ _ (by simp [hq]) (by simp [hq]),
                rfl, htss, rfl, hacc, ?_⟩
              constructor
              · rintro (h | h)
                exacts [Or.inr h, Or.inl h]
              · rintro (h | h)
                exacts [Or.inr h, Or.inl h]
        match rest with
        | [] =>
          have heq2 : mergeV1Loop V1 V2 acc [t] = (s1 :: acc1).reverse := heq
          rw [heq2]
          rw [exists_mem_cons_seg]
          simp only [if_pos hv]
          constructor
          · rintro ⟨s, hs, h⟩
            rw [List.mem_reverse] at hs
            rcases List.mem_cons.mp hs with rfl | hs'
            · rcases hcovsplit.mp (Or.inl ⟨h.1, h.2.1, hs1v.symm.trans h.2.2⟩) with ha | hb
              · exact Or.inl ha
              · exact Or.inr (Or.inl hb)
            · rcases hcovsplit.mp (Or.inr ⟨s, hs', h⟩) with ha | hb
              · exact Or.inl ha
              · exact Or.inr (Or.inl hb)
          · rintro (ha | (hb | ⟨s, hs, h⟩))
            · rcases hcovsplit.mpr (Or.inl ha) with hc | ⟨s, hs', h⟩
              · exact ⟨s1, by simp, hc.1, hc.2.1, hs1v.trans hc.2.2⟩
              · exact ⟨s, by simp [hs'], h⟩
            · rcases hcovsplit.mpr (Or.inr hb) with hc | ⟨s, hs', h⟩
              · exact ⟨s1, by simp, hc.1, hc.2.1, hs1v.trans hc.2.2⟩
              · exact ⟨s, by simp [hs'], h⟩
            · simp at hs
        | i :: rest' =>
          have hiss : i.start ≤ i.stop := hrestss i (by simp)
          have heq2 : mergeV1Loop V1 V2 acc (t :: i :: rest') =
              (if i.start = s1.stop ∧ i.valno = V2 then
                mergeV1Loop V1 V2 (⟨s1.start, i.stop, V2⟩ :: acc1) rest'
              else mergeV1Loop V1 V2 (s1 :: acc1) (i :: rest')) := heq
          rw [heq2]
          by_cases hf : i.start = s1.stop ∧ i.valno = V2
          · rw [if_pos hf]
            rw [ih rest' (⟨s1.start, i.stop, V2⟩ :: acc1) (by simp at hl ⊢; omega)
              (by intro u hu
                  rcases List.mem_cons.mp hu with rfl | hu'
                  · simp only []
                    omega
                  · exact hacc1ss u hu')
              (fun u hu => hrestss u (List.mem_cons_of_mem _ hu)) p w]
            rw [exists_mem_cons_seg, exists_mem_cons_seg, exists_mem_cons_seg]
            simp only [if_pos hv,
              if_neg (show ¬ i.valno = V1 by rw [hf.2]; exact fun hh => hne hh.symm)]
            have harith : (s1.start ≤ p ∧ p < i.stop) ↔
                ((s1.start ≤ p ∧ p < s1.stop) ∨ (i.start ≤ p ∧ p < i.stop)) := by
              obtain ⟨hf1, hf2⟩ := hf
              omega
            have hmerged : ((⟨s1.start, i.stop, V2⟩ : Segment).start ≤ p ∧
                p < (⟨s1.start, i.stop, V2⟩ : Segment).stop ∧
                (⟨s1.start, i.stop, V2⟩ : Segment).valno = w) ↔
                (((s1.start ≤ p ∧ p < s1.stop ∧ V2 = w)) ∨
                 (i.start ≤ p ∧ p < i.stop ∧ i.valno = w)) := by
              simp only []
              rw [hf.2]
              constructor
              · rintro ⟨ha, hb, hc⟩
                rcases harith.mp ⟨ha, hb⟩ with hcov | hcov
                · exact Or.inl ⟨hcov.1, hcov.2, hc⟩
                · exact Or.inr ⟨hcov.1, hcov.2, hc⟩
              · rintro (⟨ha, hb, hc⟩ | ⟨ha, hb, hc⟩)
                · exact ⟨ha, by omega, hc⟩
                · exact ⟨by omega, hb, hc⟩
            rw [hmerged]
            constructor
            · rintro (((h | h) | h) | h)
              · rcases hcovsplit.mp (Or.inl h) with ha | ht
                exacts [Or.inl ha, Or.inr (Or.inl ht)]
              · exact Or.inr (Or.inr (Or.inl h))
              · rcases hcovsplit.mp (Or.inr h) with ha | ht
                exacts [Or.inl ha, Or.inr (Or.inl ht)]
              · exact Or.inr (Or.inr (Or.inr h))
            · rintro (h | (h | (h | h)))
              · rcases hcovsplit.mpr (Or.inl h) with hs | ha
                exacts [Or.inl (Or.inl (Or.inl hs)), Or.inl (Or.inr ha)]
              · rcases hcovsplit.mpr (Or.inr h) with hs | ha
                exacts [Or.inl (Or.inl (Or.inl hs)), Or.inl (Or.inr ha)]
              · exact Or.inl (Or.inl (Or.inr h))
              · exact Or.inr h
          · rw [if_neg hf]
            rw [ih (i :: rest') (s1 :: acc1) (by simp at hl ⊢; omega)
              (by intro u hu
                  rcases List.mem_cons.mp hu with rfl | hu'
                  exacts [hs1ss, hacc1ss u hu'])
              (by intro u hu
                  rcases List.mem_cons.mp hu with rfl | hu'
                  exacts [hiss, hrestss u (List.mem_cons_of_mem _ hu')]) p w]
            rw [exists_mem_cons_seg, exists_mem_cons_seg, exists_mem_cons_seg,
              exists_mem_cons_seg]
            simp only [if_pos hv]
            have hP1 : (s1.start ≤ p ∧ p < s1.stop ∧ s1.valno = w) ↔
                (s1.start ≤ p ∧ p < s1.stop ∧ V2 = w) := by rw [hs1v]
            rw [hP1]
            constructor
            · rintro ((h | h) | h)
              · rcases hcovsplit.mp (Or.inl h) with ha | ht
                exacts [Or.inl ha, Or.inr (Or.inl ht)]
              · rcases hcovsplit.mp (Or.inr h) with ha | ht
                exacts [Or.inl ha, Or.inr (Or.inl ht)]
              · exact Or.inr (Or.inr h)
            · rintro (h | (h | h))
              · rcases hcovsplit.mpr (Or.inl h) with hs | ha
                exacts [Or.inl (Or.inl hs), Or.inl (Or.inr ha)]
              · rcases hcovsplit.mpr (Or.inr h) with hs | ha
                exacts [Or.inl (Or.inl hs), Or.inl (Or.inr ha)]
              · exact Or.inr h

theorem vn_setVN_ne (lr : LiveRangeS) (h j : Nat) (hj : h ≠ j) (f : VNInfo → VNInfo) :
    vn (setVN lr h f) j = vn lr j := by
  simp [vn, setVN, List.getD, List.getElem?_set_ne, hj]

theorem vn_setVN_self (lr : LiveRangeS) (h : Nat) (hh : h < lr.arena.length)
    (f : VNInfo → VNInfo) : vn (setVN lr h f) h = f (vn lr h) := by
  simp [vn, setVN, List.getD, List.getElem?_set_self, hh]

theorem segments_markValNoForDeletion (lr : LiveRangeS) (h : Nat) :
    (markValNoForDeletion lr h).segments = lr.segments := by
  unfold markValNoForDeletion
  split <;> rfl

theorem vn_markValNoForDeletion_ne (lr : LiveRangeS) (h j : Nat) (hj : h ≠ j) :
    vn (markValNoForDeletion lr h) j = vn lr j := by
  unfold markValNoForDeletion
  split
  · rfl
  · exact vn_setVN_ne lr h j hj _

theorem markValNoForDeletion_pop_shrinks (M : LiveRangeS) (W1 : Nat)
    (hg : (vn M W1).id + 1 = M.valnos.length) :
    (markValNoForDeletion M W1).valnos.length < M.valnos.length := by
  unfold markValNoForDeletion
  rw [if_pos hg]
  show (dropTrailingUnused M.arena M.valnos.dropLast).length < M.valnos.length
  have h1 : (dropTrailingUnused M.arena M.valnos.dropLast).length ≤
      M.valnos.dropLast.length := by
    unfold dropTrailingUnused
    rw [List.length_reverse]
    calc (List.dropWhile _ M.valnos.dropLast.reverse).length
        ≤ M.valnos.dropLast.reverse.length := (List.dropWhile_sublist _).length_le
      _ = M.valnos.dropLast.length := List.length_reverse _
  have h2 : M.valnos.dropLast.length = M.valnos.length - 1 := List.length_dropLast _
  omega

theorem markValNoForDeletion_marks_unused (M : LiveRangeS) (W1 : Nat)
    (hW : W1 < M.arena.length) (hg : ¬ (vn M W1).id + 1 = M.valnos.length) :
    (vn (markValNoForDeletion M W1) W1).unusedFlag = true := by
  unfold markValNoForDeletion
  rw [if_neg hg, vn_setVN_self M W1 hW]

/-- Shared core of `MergeValueNumberInto`: the effect of the merge loop plus
`markValNoForDeletion` on the already-swapped pair `(W1 := eliminated,
W2 := survivor)`. -/
theorem mergeCore (lr1 : LiveRangeS) (W1 W2 : Nat) (hne12 : W1 ≠ W2)
    (hW1 : W1 < lr1.arena.length)
    (hss : ∀ u ∈ lr1.segments, u.start ≤ u.stop) (lr' : LiveRangeS)
    (hlr' : lr' = markValNoForDeletion
      { lr1 with segments := mergeV1Loop W1 W2 [] lr1.segments } W1) :
    (∀ s ∈ lr'.segments, s.valno ≠ W1) ∧
    (∀ p w, (∃ s ∈ lr'.segments, s.start ≤ p ∧ p < s.stop ∧ s.valno = w) ↔
      (∃ s ∈ lr1.segments, s.start ≤ p ∧ p < s.stop ∧
        (if s.valno = W1 then W2 else s.valno) = w)) ∧
    vn lr' W2 = vn lr1 W2 ∧
    ((vn lr1 W1).id + 1 = lr1.valnos.length → lr'.valnos.length < lr1.valnos.length) ∧
    ((vn lr1 W1).id + 1 ≠ lr1.valnos.length → (vn lr' W1).unusedFlag = true) := by
  subst hlr'
  have hseg : (markValNoForDeletion
      { lr1 with segments := mergeV1Loop W1 W2 [] lr1.segments } W1).segments =
      mergeV1Loop W1 W2 [] lr1.segments :=
    segments_markValNoForDeletion _ _
  refine ⟨?_, ?_, ?_, ?_, ?_⟩
  · rw [hseg]
    exact mergeV1Loop_noV1 W1 W2 hne12 lr1.segments.length lr1.segments [] le_rfl
      (by intro u hu; simp at hu)
  · intro p w
    rw [hseg]
    rw [mergeV1Loop_cov W1 W2 hne12 lr1.segments.length lr1.segments [] le_rfl
      (by intro u hu; simp at hu) hss p w]
    simp
  · exact vn_markValNoForDeletion_ne _ W1 W2 hne12
  · intro hg
    exact markValNoForDeletion_pop_shrinks _ W1 hg
  · intro hg
    exact markValNoForDeletion_marks_unused _ W1 hW1 hg

set_option maxHeartbeats 800000 in
/-- **C5**: `MergeValueNumberInto(V1, V2)` with `V1 ≠ V2`, both handles in the
VN table, returns the survivor whose id is the smaller of the two ids; in the
result no segment carries the eliminated value number, program-point coverage
is exactly that of the original range with the eliminated value number
relabelled to the survivor, and the eliminated VN is deleted (popped from the
table when it holds the last id, marked unused otherwise); on
`[(10,20,v1),(20,30,v2)]` merging `v1` into `v2` collapses the segments to
`[(10,30,survivor)]` with the survivor the lower-id VN. -/
theorem C5_MergeValueNumberInto (lr : LiveRangeS) (V1 V2 S L : Nat)
    (hne : V1 ≠ V2) (hV1 : V1 < lr.arena.length) (hV2 : V2 < lr.arena.length)
    (hS : S = if (vn lr V1).id < (vn lr V2).id then V1 else V2)
    (hL : L = if (vn lr V1).id < (vn lr V2).id then V2 else V1)
    (hss : ∀ u ∈ lr.segments, u.start ≤ u.stop) :
    (∃ lr', MergeValueNumberInto lr V1 V2 = .ok (lr', S) ∧
      (vn lr' S).id = min (vn lr V1).id (vn lr V2).id ∧
      (∀ s ∈ lr'.segments, s.valno ≠ L) ∧
      (∀ p w, (∃ s ∈ lr'.segments, s.start ≤ p ∧ p < s.stop ∧ s.valno = w) ↔
        (∃ s ∈ lr.segments, s.start ≤ p ∧ p < s.stop ∧
          (if s.valno = L then S else s.valno) = w)) ∧
      ((vn lr L).id + 1 = lr.valnos.length → lr'.valnos.length < lr.valnos.length) ∧
      ((vn lr L).id + 1 ≠ lr.valnos.length → (vn lr' L).unusedFlag = true)) ∧
    MergeValueNumberInto
        ⟨[⟨0, 10, false, false⟩, ⟨1, 20, false, false⟩],
         [⟨10, 20, 0⟩, ⟨20, 30, 1⟩], [0, 1]⟩ 0 1 =
      .ok (⟨[⟨0, 20, false, false⟩, ⟨1, 20, false, false⟩], [⟨10, 30, 0⟩], [0]⟩, 0) := by
  constructor
  · by_cases hid : (vn lr V1).id < (vn lr V2).id
    · rw [if_pos hid] at hS hL
      rw [hS, hL]
      have hC := mergeCore
        (setVN lr V1 (fun a =>
          { a with vdef := (vn lr V2).vdef, unusedFlag := (vn lr V2).unusedFlag,
                   phiDef := (vn lr V2).phiDef }))
        V2 V1 (fun hh => hne hh.symm)
        (by simpa [setVN] using hV2)
        hss _ rfl
      refine ⟨_, ?_, ?_, hC.1, hC.2.1, ?_, ?_⟩
      · unfold MergeValueNumberInto
        rw [if_neg hne]
        simp only [if_pos hid]
      · rw [hC.2.2.1, vn_setVN_self lr V1 hV1]
        show (vn lr V1).id = _
        exact (Nat.min_eq_left (Nat.le_of_lt hid)).symm
      · have hd := hC.2.2.2.1
        rw [vn_setVN_ne lr V1 V2 hne] at hd
        exact hd
      · have hd := hC.2.2.2.2
        rw [vn_setVN_ne lr V1 V2 hne] at hd
        exact hd
    · rw [if_neg hid] at hS hL
      rw [hS, hL]
      have hC := mergeCore lr V1 V2 hne hV1 hss _ rfl
      refine ⟨_, ?_, ?_, hC.1, hC.2.1, hC.2.2.2.1, hC.2.2.2.2⟩
      · unfold MergeValueNumberInto
        rw [if_neg hne]
        simp only [if_neg hid]
      · rw [hC.2.2.1]
        exact (Nat.min_eq_right (Nat.le_of_not_lt hid)).symm
  · have hloop : mergeV1Loop 1 0 [] [⟨10, 20, 0⟩, ⟨20, 30, 1⟩] = [⟨10, 30, 0⟩] := by
      rw [mergeV1Loop_skip 1 0 [] ⟨10, 20, 0⟩ [⟨20, 30, 1⟩] (by decide)]
      rw [mergeV1Loop_v1 1 0 [⟨10, 20, 0⟩] ⟨20, 30, 1⟩ [] (by decide) ⟨10, 30, 0⟩ []
        (by decide) (by decide)]
      decide
    have hmv : MergeValueNumberInto
        ⟨[⟨0, 10, false, false⟩, ⟨1, 20, false, false⟩],
         [⟨10, 20, 0⟩, ⟨20, 30, 1⟩], [0, 1]⟩ 0 1 =
        .ok (markValNoForDeletion
          ⟨[⟨0, 20, false, false⟩, ⟨1, 20, false, false⟩],
           mergeV1Loop 1 0 [] [⟨10, 20, 0⟩, ⟨20, 30, 1⟩], [0, 1]⟩ 1, 0) := rfl
    rw [hmv, hloop]
    decide

/-- Witness for C5: the hypotheses are satisfied by the concrete range
`[(10,20,v0),(20,30,v1)]` with handles `0` and `1`. -/
theorem C5_MergeValueNumberInto_witness :
    (∃ lr', MergeValueNumberInto
        ⟨[⟨0, 10, false, false⟩, ⟨1, 20, false, false⟩],
         [⟨10, 20, 0⟩, ⟨20, 30, 1⟩], [0, 1]⟩ 0 1 = .ok (lr', 0) ∧
      (vn lr' 0).id =
        min (vn (⟨[⟨0, 10, false, false⟩, ⟨1, 20, false, false⟩],
          [⟨10, 20, 0⟩, ⟨20, 30, 1⟩], [0, 1]⟩ : LiveRangeS) 0).id
          (vn (⟨[⟨0, 10, false, false⟩, ⟨1, 20, false, false⟩],
          [⟨10, 20, 0⟩, ⟨20, 30, 1⟩], [0, 1]⟩ : LiveRangeS) 1).id ∧
      (∀ s ∈ lr'.segments, s.valno ≠ 1) ∧
      (∀ p w, (∃ s ∈ lr'.segments, s.start ≤ p ∧ p < s.stop ∧ s.valno = w) ↔
        (∃ s ∈ ([⟨10, 20, 0⟩, ⟨20, 30, 1⟩] : List Segment),
          s.start ≤ p ∧ p < s.stop ∧ (if s.valno = 1 then 0 else s.valno) = w)) ∧
      ((vn (⟨[⟨0, 10, false, false⟩, ⟨1, 20, false, false⟩],
          [⟨10, 20, 0⟩, ⟨20, 30, 1⟩], [0, 1]⟩ : LiveRangeS) 1).id + 1 = 2 →
        lr'.valnos.length < 2) ∧
      ((vn (⟨[⟨0, 10, false, false⟩, ⟨1, 20, false, false⟩],
          [⟨10, 20, 0⟩, ⟨20, 30, 1⟩], [0, 1]⟩ : LiveRangeS) 1).id + 1 ≠ 2 →
        (vn lr' 1).unusedFlag = true)) ∧
    MergeValueNumberInto
        ⟨[⟨0, 10, false, false⟩, ⟨1, 20, false, false⟩],
         [⟨10, 20, 0⟩, ⟨20, 30, 1⟩], [0, 1]⟩ 0 1 =
      .ok (⟨[⟨0, 20, false, false⟩, ⟨1, 20, false, false⟩], [⟨10, 30, 0⟩], [0]⟩, 0) :=
  C5_MergeValueNumberInto
    ⟨[⟨0, 10, false, false⟩, ⟨1, 20, false, false⟩],
     [⟨10, 20, 0⟩, ⟨20, 30, 1⟩], [0, 1]⟩ 0 1 0 1
    (by decide) (by decide) (by decide) (by decide) (by decide) (by decide)

theorem getD_mem {α : Type} (l : List α) (d : α) (p : Nat) (h : p < l.length) :
    l.getD p d ∈ l := by
  rw [List.getD, List.get?_eq_getElem?, List.getElem?_eq_getElem h]
  exact List.getElem_mem _

theorem getD_append_left {α : Type} (a b : List α) (d : α) (p : Nat)
    (h : p < a.length) : (a ++ b).getD p d = a.getD p d := by
  simp [List.getD, List.getElem?_append, h]

theorem getD_append_right {α : Type} (a b : List α) (d : α) (p : Nat)
    (h : a.length ≤ p) : (a ++ b).getD p d = b.getD (p - a.length) d := by
  simp [List.getD, List.getElem?_append_right h]

/-- The `find` bounds needed by mutation proofs: all segments before the
found index end at or before `pos`, the found segment (if any) ends after
`pos`, and the index is at most the length. -/
theorem find_bounds (segs : List Segment) (pos : Nat)
    (h1 : ∀ s ∈ segs, s.start < s.stop) (h2 : segs.Chain' adjOK) :
    (∀ j, j < find segs pos → (segs.getD j default).stop ≤ pos) ∧
    (find segs pos < segs.length → pos < (segs.getD (find segs pos) default).stop) ∧
    find segs pos ≤ segs.length := by
  have hp := pairwise_adjOK segs h1 h2
  by_cases hend : segs.isEmpty = true || decide (endIndex segs ≤ pos) = true
  · have hfind : find segs pos = segs.length := by
      unfold find
      rw [if_pos (by simpa using hend)]
    refine ⟨?_, ?_, by rw [hfind]⟩
    · intro j hj
      rw [hfind] at hj
      rcases (by simpa using hend : segs = [] ∨ endIndex segs ≤ pos) with rfl | hle
      · simp at hj
      · have hjlen : j < segs.length := hj
        have hlast : (segs.getD (segs.length - 1) default).stop = endIndex segs := by
          cases segs with
          | nil => simp at hjlen
          | cons a t =>
            unfold endIndex
            rw [List.getLastD_eq_getLast?, List.getLast?_eq_getElem?]
            rw [getD_eq_getElem _ _ _ (by simp)]
            simp [List.getElem?_eq_getElem]
        by_cases hl : j = segs.length - 1
        · subst hl; omega
        · have hlt : j < segs.length - 1 := by omega
          have := (adjOK_getD segs hp hlt (by omega)).1
          have hs : (segs.getD (segs.length - 1) default).start
              < (segs.getD (segs.length - 1) default).stop := by
            rw [getD_eq_getElem _ _ _ (by omega)]
            exact h1 _ (List.getElem_mem _)
          omega
    · intro hlt; rw [hfind] at hlt; omega
  · have hcond : ¬(segs.isEmpty || decide (endIndex segs ≤ pos)) = true := by
      simpa using hend
    have hfind : find segs pos = findLoop segs pos segs.length 0 segs.length := by
      unfold find
      rw [if_neg hcond]
    have hrec := findLoop_correct segs pos h1 h2 segs.length 0 segs.length
      (Nat.le_refl _) (by omega) (by omega) (by omega)
    rw [← hfind] at hrec
    obtain ⟨hlow, hhigh, -, hub⟩ := hrec
    exact ⟨hlow, fun hlt => hhigh _ (Nat.le_refl _) hlt, by omega⟩

/-- `vnConsistent` only looks at the arena and the VN table. -/
theorem vnConsistent_seg_update (lr : LiveRangeS) (E : List Segment) (s : Segment) :
    vnConsistent { lr with segments := E } s ↔ vnConsistent lr s := Iff.rfl

/-- `dropTrailingUnused` keeps a prefix, and every position whose entry is
not flagged unused is inside the kept prefix. -/
theorem dropTrailingUnused_take (arena : List VNInfo) (l : List Nat) :
    ∃ m, m ≤ l.length ∧ dropTrailingUnused arena l = l.take m ∧
      (∀ p, p < l.length →
        (arena.getD (l.getD p 0) default).unusedFlag = false → p < m) := by
  set q : Nat → Bool := fun h => (arena.getD h default).unusedFlag with hq
  have hsplit : l.reverse.takeWhile q ++ l.reverse.dropWhile q = l.reverse :=
    List.takeWhile_append_dropWhile q l.reverse
  set A := l.reverse.takeWhile q with hA
  set B := l.reverse.dropWhile q with hB
  have hl : l = B.reverse ++ A.reverse := by
    have := congrArg List.reverse hsplit
    simpa using this.symm
  refine ⟨B.length, ?_, ?_, ?_⟩
  · have := congrArg List.length hl
    simp at this
    omega
  · show (l.reverse.dropWhile q).reverse = l.take B.length
    rw [← hB]
    conv_rhs => rw [hl]
    rw [show B.length = B.reverse.length from (List.length_reverse _).symm]
    rw [List.take_left]
  · intro p hp hflag
    by_contra hge
    push_neg at hge
    have hplen : p < l.length := hp
    have hlen : l.length = B.length + A.length := by
      have := congrArg List.length hl
      simp at this
      omega
    have hentry : l.getD p 0 = A.reverse.getD (p - B.length) 0 := by
      conv_lhs => rw [hl]
      rw [getD_append_right _ _ _ _ (by simpa using hge)]
      congr 1
      simp
    have hmem : A.reverse.getD (p - B.length) 0 ∈ A.reverse := by
      apply getD_mem
      simp only [List.length_reverse]
      omega
    have : q (l.getD p 0) = true := by
      rw [hentry]
      exact List.mem_takeWhile_imp (List.mem_reverse.mp hmem)
    rw [hq] at this
    simp only [this] at hflag
    cases hflag

/-- `markValNoForDeletion` preserves the `verify` invariants provided no
unused VN is referenced, the marked handle is referenced by no segment, and
the marked handle's table entry round-trips. -/
theorem markValNo_preserves (lr : LiveRangeS) (h : Nat)
    (hinv : lrInvariant lr)
    (hunused : unusedNotReferenced lr)
    (hnotref : ∀ s ∈ lr.segments, s.valno ≠ h)
    (hrt : lr.valnos.getD (vn lr h).id 0 = h) :
    lrInvariant (markValNoForDeletion lr h) := by
  obtain ⟨h1, h2, h3⟩ := hinv
  unfold markValNoForDeletion
  split
  case isTrue hg =>
    refine ⟨h1, h2, ?_⟩
    intro s hs
    obtain ⟨hc1, hc2, hc3⟩ := h3 s hs
    obtain ⟨m, hm, hdrop, hkeep⟩ := dropTrailingUnused_take lr.arena lr.valnos.dropLast
    have hlenD : lr.valnos.dropLast.length = lr.valnos.length - 1 :=
      List.length_dropLast _
    have hslt : (vn lr s.valno).id < lr.valnos.length - 1 := by
      rcases Nat.lt_or_ge (vn lr s.valno).id (lr.valnos.length - 1) with hlt | hge
      · exact hlt
      · exfalso
        have hid : (vn lr s.valno).id = lr.valnos.length - 1 := by omega
        have hidh : (vn lr h).id = lr.valnos.length - 1 := by omega
        have : s.valno = h := by
          conv_lhs => rw [← hc3, hid]
          conv_rhs => rw [← hrt, hidh]
        exact hnotref s hs this
    have hgetD : lr.valnos.dropLast.getD (vn lr s.valno).id 0 = s.valno := by
      have hb : lr.valnos.dropLast.getD (vn lr s.valno).id 0
          = lr.valnos.getD (vn lr s.valno).id 0 := by
        rw [List.getD, List.getD, List.get?_eq_getElem?, List.get?_eq_getElem?]
        rw [List.getElem?_eq_getElem (by omega), List.getElem?_eq_getElem (by omega)]
        simp [List.getElem_dropLast]
      rw [hb, hc3]
    have hkp : (vn lr s.valno).id < m := by
      apply hkeep _ (by omega)
      rw [hgetD]
      exact hunused s hs
    refine ⟨hc1, ?_, ?_⟩
    · show (vn lr s.valno).id < (dropTrailingUnused lr.arena lr.valnos.dropLast).length
      rw [hdrop, List.length_take]
      exact Nat.lt_min.mpr ⟨hkp, by omega⟩
    · show (dropTrailingUnused lr.arena lr.valnos.dropLast).getD (vn lr s.valno).id 0
        = s.valno
      rw [hdrop]
      have ht : (List.take m lr.valnos.dropLast).getD (vn lr s.valno).id 0
          = lr.valnos.dropLast.getD (vn lr s.valno).id 0 := by
        rw [List.getD, List.getD, List.get?_eq_getElem?, List.get?_eq_getElem?]
        rw [List.getElem?_eq_getElem
            (by simp only [List.length_take]; exact Nat.lt_min.mpr ⟨hkp, by omega⟩),
          List.getElem?_eq_getElem (by omega)]
        simp [List.getElem_take]
      rw [ht, hgetD]
  case isFalse hg =>
    refine ⟨h1, h2, ?_⟩
    intro s hs
    obtain ⟨hc1, hc2, hc3⟩ := h3 s hs
    have hvn : ∀ x, vn (setVN lr h (fun v => { v with unusedFlag := true })) x
        = if x = h ∧ h < lr.arena.length
          then { vn lr x with unusedFlag := true } else vn lr x := by
      intro x
      by_cases hx : x = h
      · subst hx
        by_cases hxl : x < lr.arena.length
        · rw [vn_setVN_self lr x hxl, if_pos ⟨rfl, hxl⟩]
        · rw [if_neg (fun hc => hxl hc.2)]
          show (lr.arena.set x _).getD x default = vn lr x
          rw [List.set_eq_of_length_le (by omega)]
          rfl
      · rw [vn_setVN_ne lr h x (fun hc => hx hc.symm), if_neg (fun hc => hx hc.1)]
    refine ⟨by simpa [setVN] using hc1, ?_, ?_⟩
    · show (vn (setVN lr h _) s.valno).id < (setVN lr h _).valnos.length
      rw [hvn]
      split <;> simpa using hc2
    · show (setVN lr h _).valnos.getD (vn (setVN lr h _) s.valno).id 0 = s.valno
      rw [hvn]
      split <;> simpa using hc3

/-- The chain invariant restricts to sublists (via pairwise ordering). -/
theorem chain_of_sublist (l l' : List Segment) (hsub : List.Sublist l' l)
    (h1 : ∀ s ∈ l, s.start < s.stop) (h2 : l.Chain' adjOK) : l'.Chain' adjOK :=
  ((pairwise_adjOK l h1 h2).sublist hsub).chain'

theorem set_decomp (segs : List Segment) {i : Nat} (hi : i < segs.length)
    (x : Segment) : segs.set i x = segs.take i ++ [x] ++ segs.drop (i + 1) := by
  rw [List.set_eq_take_append_cons_drop]
  simp [hi]

theorem take_getLast (segs : List Segment) (i : Nat) (h0 : 0 < i)
    (h : i ≤ segs.length) :
    (segs.take i).getLast? = some (segs.getD (i - 1) default) := by
  rw [List.getLast?_eq_getElem?]
  simp only [List.length_take, Nat.min_eq_left h]
  rw [List.getElem?_take]
  simp [List.getElem?_eq_getElem (by omega : i - 1 < segs.length), List.getD, h0,
    Nat.sub_lt]

theorem drop_head (segs : List Segment) (k : Nat) (h : k < segs.length) :
    (segs.drop k).head? = some (segs.getD k default) := by
  rw [List.head?_eq_getElem?, List.getElem?_drop]
  simp [List.getElem?_eq_getElem h, List.getD]

/-- Replace the middle `[I]` of a chain-invariant decomposition by a block
`mid`, given the appropriate boundary conditions. -/
theorem chain_surgery (pre post mid : List Segment) (I : Segment)
    (h2 : (pre ++ [I] ++ post).Chain' adjOK)
    (hmid : mid.Chain' adjOK)
    (hpm : ∀ p ∈ pre.getLast?, ∀ m ∈ mid.head?, adjOK p m)
    (hmp : ∀ m ∈ mid.getLast?, ∀ q ∈ post.head?, adjOK m q)
    (he : mid = [] → ∀ p ∈ pre.getLast?, ∀ q ∈ post.head?, adjOK p q) :
    (pre ++ mid ++ post).Chain' adjOK := by
  rw [List.append_assoc, List.chain'_append]
  rw [List.append_assoc, List.chain'_append, List.chain'_append] at h2
  obtain ⟨hcpre, ⟨-, hcpost, hIp⟩, hpI⟩ := h2
  refine ⟨hcpre, ?_, ?_⟩
  · rw [List.chain'_append]
    exact ⟨hmid, hcpost, hmp⟩
  · intro p hp y hy
    cases hmide : mid with
    | nil =>
      subst hmide
      exact he rfl p hp y (by simpa using hy)
    | cons m rest =>
      subst hmide
      have hym : m = y := by simpa using hy
      subst hym
      exact hpm p hp m (by simp)

/-- `markValNoForDeletion` commutes with replacing the segment list (it never
reads the segments). -/
theorem markValNo_segments_comm (lr : LiveRangeS) (E : List Segment) (h : Nat) :
    { markValNoForDeletion lr h with segments := E }
      = markValNoForDeletion { lr with segments := E } h := by
  unfold markValNoForDeletion setVN
  by_cases hc : (vn lr h).id + 1 = lr.valnos.length
  · rw [if_pos hc, if_pos (show (vn { lr with segments := E } h).id + 1
        = ({ lr with segments := E } : LiveRangeS).valnos.length from hc)]
  · rw [if_neg hc, if_neg (show ¬ ((vn { lr with segments := E } h).id + 1
        = ({ lr with segments := E } : LiveRangeS).valnos.length) from hc)]

/-- `removeValNo` preserves the `verify` invariants provided no unused VN is
referenced and the removed handle's table entry round-trips. -/
theorem removeValNo_preserves (lr : LiveRangeS) (h : Nat)
    (hinv : lrInvariant lr) (hunused : unusedNotReferenced lr)
    (hrt : lr.valnos.getD (vn lr h).id 0 = h) :
    lrInvariant (removeValNo lr h) := by
  obtain ⟨h1, h2, h3⟩ := hinv
  unfold removeValNo
  split
  · exact ⟨h1, h2, h3⟩
  · apply markValNo_preserves
    · refine ⟨?_, ?_, ?_⟩
      · intro s hs
        exact h1 s (List.mem_of_mem_filter hs)
      · exact chain_of_sublist _ _ (List.filter_sublist _) h1 h2
      · intro s hs
        exact h3 s (List.mem_of_mem_filter hs)
    · intro s hs
      exact hunused s (List.mem_of_mem_filter hs)
    · intro s hs
      have := List.of_mem_filter hs
      simpa using this
    · exact hrt

/-- `removeSegment` preserves the `verify` invariants provided no unused VN
is referenced. -/
theorem removeSegment_preserves (lr : LiveRangeS) (a b : Nat) (rdv : Bool)
    (lr' : LiveRangeS) (hinv : lrInvariant lr) (hunused : unusedNotReferenced lr)
    (hok : removeSegment lr a b rdv = .ok lr') : lrInvariant lr' := by
  obtain ⟨h1, h2, h3⟩ := hinv
  obtain ⟨hlow, hhigh, hle⟩ := find_bounds lr.segments a h1 h2
  simp only [removeSegment] at hok
  split at hok
  · exact absurd hok (by simp)
  case isFalse hlen =>
  have hilen : find lr.segments a < lr.segments.length := by omega
  set i := find lr.segments a with hi
  set I := lr.segments.getD i default with hI
  have hImem : I ∈ lr.segments := getD_mem _ _ _ hilen
  have hIc := h3 I hImem
  have hdec : lr.segments = lr.segments.take i ++ [I] ++ lr.segments.drop (i + 1) := by
    rw [List.append_assoc, List.singleton_append]
    exact segs_decomp lr.segments hilen
  have h2dec : (lr.segments.take i ++ [I] ++ lr.segments.drop (i + 1)).Chain' adjOK := by
    rw [← hdec]; exact h2
  have hpre_last : ∀ p ∈ (lr.segments.take i).getLast?, p.stop ≤ a := by
    intro p hp
    cases hip : i with
    | zero => rw [hip] at hp; simp at hp
    | succ n =>
      rw [take_getLast _ _ (by omega) (by omega)] at hp
      have hpeq : p = lr.segments.getD (i - 1) default := by
        rw [hip] at hp ⊢
        simpa using hp.symm
      rw [hpeq]
      exact hlow (i - 1) (by omega)
  have hpost_first : ∀ q ∈ (lr.segments.drop (i + 1)).head?, adjOK I q := by
    intro q hq
    cases hql : Nat.lt_or_ge (i + 1) lr.segments.length with
    | inl hlt =>
      rw [drop_head _ _ hlt] at hq
      have hqe : q = lr.segments.getD (i + 1) default := by simpa using hq.symm
      rw [hqe]
      exact adjOK_getD lr.segments (pairwise_adjOK _ h1 h2) (by omega) hlt
    | inr hge =>
      rw [List.drop_eq_nil_of_le (by omega)] at hq
      simp at hq
  split at hok
  · exact absurd hok (by simp)
  case isFalse hba =>
  split at hok
  · exact absurd hok (by simp)
  case isFalse hcont =>
  have hcontain : I.start ≤ a ∧ b ≤ I.stop := by
    by_contra hc
    exact hcont hc
  have hablt : a < b := by omega
  split at hok
  case isTrue hsa =>
    split at hok
    case isTrue hsb =>
      -- exact removal: erase the segment, possibly marking a dead VN
      split at hok
      case isTrue hdead =>
        injection hok with hok'
        rw [← hok', markValNo_segments_comm]
        apply markValNo_preserves
        · refine ⟨?_, ?_, ?_⟩
          · intro s hs
            exact h1 s ((List.eraseIdx_sublist _ _).subset hs)
          · exact chain_of_sublist _ _ (List.eraseIdx_sublist _ _) h1 h2
          · intro s hs
            exact h3 s ((List.eraseIdx_sublist _ _).subset hs)
        · intro s hs
          exact hunused s ((List.eraseIdx_sublist _ _).subset hs)
        · intro s hs
          have hall := (Bool.and_eq_true _ _).mp hdead |>.2
          rw [List.all_eq_true] at hall
          simpa using hall s hs
        · exact hIc.2.2
      case isFalse =>
        injection hok with hok'
        rw [← hok']
        refine ⟨?_, ?_, ?_⟩
        · intro s hs
          exact h1 s ((List.eraseIdx_sublist _ _).subset hs)
        · exact chain_of_sublist _ _ (List.eraseIdx_sublist _ _) h1 h2
        · intro s hs
          exact h3 s ((List.eraseIdx_sublist _ _).subset hs)
    case isFalse hsb =>
      -- shrink from the left: start := b
      injection hok with hok'
      rw [← hok']
      have hbstop : b < I.stop := by
        rcases Nat.lt_or_ge b I.stop with hx | hx
        · exact hx
        · exact absurd (by omega : I.stop = b) hsb
      refine ⟨?_, ?_, ?_⟩
      · intro s hs
        rcases List.mem_or_eq_of_mem_set hs with hmem | rfl
        · exact h1 s hmem
        · show b < I.stop
          exact hbstop
      · show (lr.segments.set i { I with start := b }).Chain' adjOK
        rw [set_decomp lr.segments hilen]
        apply chain_surgery _ _ _ I h2dec
        · simp
        · intro p hp m hm
          have hm' : { I with start := b } = m := by simpa using hm
          subst hm'
          have hpa := hpre_last p hp
          constructor
          · show p.stop ≤ b
            omega
          · intro htouch
            exfalso
            have htouch' : p.stop = b := htouch
            omega
        · intro m hm q hq
          have hm' : { I with start := b } = m := by simpa using hm
          subst hm'
          have hIq := hpost_first q hq
          exact ⟨hIq.1, hIq.2⟩
        · intro hnil
          simp at hnil
      · intro s hs
        rcases List.mem_or_eq_of_mem_set hs with hmem | rfl
        · exact h3 s hmem
        · exact hIc
  case isFalse hsa =>
    split at hok
    case isTrue hsb =>
      -- shrink from the right: stop := a
      injection hok with hok'
      rw [← hok']
      have hastart : I.start < a := by
        rcases Nat.lt_or_ge I.start a with hx | hx
        · exact hx
        · exact absurd (by omega : I.start = a) hsa
      refine ⟨?_, ?_, ?_⟩
      · intro s hs
        rcases List.mem_or_eq_of_mem_set hs with hmem | rfl
        · exact h1 s hmem
        · show I.start < a
          exact hastart
      · show (lr.segments.set i { I with stop := a }).Chain' adjOK
        rw [set_decomp lr.segments hilen]
        apply chain_surgery _ _ _ I h2dec
        · simp
        · intro p hp m hm
          have hm' : { I with stop := a } = m := by simpa using hm
          subst hm'
          have hpa := hpre_last p hp
          -- p.stop ≤ a and original adjOK p I gives the touch condition
          have hpI : adjOK p I := by
            rw [hdec, List.append_assoc, List.chain'_append] at h2
            have := h2.2.2 p hp I (by simp)
            exact this
          exact ⟨hpI.1, fun ht => hpI.2 ht⟩
        · intro m hm q hq
          have hm' : { I with stop := a } = m := by simpa using hm
          subst hm'
          have hIq := hpost_first q hq
          constructor
          · show a ≤ q.start
            have := hIq.1
            omega
          · intro htouch
            exfalso
            have htouch' : a = q.start := htouch
            have := hIq.1
            omega
        · intro hnil
          simp at hnil
      · intro s hs
        rcases List.mem_or_eq_of_mem_set hs with hmem | rfl
        · exact h3 s hmem
        · exact hIc
    case isFalse hsb =>
      -- interior removal: split into two segments
      injection hok with hok'
      rw [← hok']
      have hastart : I.start < a := by
        rcases Nat.lt_or_ge I.start a with hx | hx
        · exact hx
        · exact absurd (by omega : I.start = a) hsa
      have hbstop : b < I.stop := by
        rcases Nat.lt_or_ge b I.stop with hx | hx
        · exact hx
        · exact absurd (by omega : I.stop = b) hsb
      refine ⟨?_, ?_, ?_⟩
      · intro s hs
        rcases List.mem_append.mp hs with hs' | hpost
        · rcases List.mem_append.mp hs' with hpre | hmid
          · exact h1 s (List.mem_of_mem_take hpre)
          · rcases List.mem_cons.mp hmid with rfl | hmid'
            · show I.start < a
              exact hastart
            · have : s = (⟨b, I.stop, I.valno⟩ : Segment) := by simpa using hmid'
              subst this
              show b < I.stop
              exact hbstop
        · exact h1 s (List.mem_of_mem_drop hpost)
      · show (lr.segments.take i ++ [{ I with stop := a }, ⟨b, I.stop, I.valno⟩]
            ++ lr.segments.drop (i + 1)).Chain' adjOK
        apply chain_surgery _ _ _ I h2dec
        · refine List.chain'_cons.mpr ⟨?_, by simp⟩
          constructor
          · show a ≤ b
            omega
          · intro htouch
            exfalso
            have htouch' : a = b := htouch
            omega
        · intro p hp m hm
          have hm' : { I with stop := a } = m := by simpa using hm
          subst hm'
          have hpI : adjOK p I := by
            rw [hdec, List.append_assoc, List.chain'_append] at h2
            exact h2.2.2 p hp I (by simp)
          exact ⟨hpI.1, fun ht => hpI.2 ht⟩
        · intro m hm q hq
          have hm' : (⟨b, I.stop, I.valno⟩ : Segment) = m := by simpa using hm
          subst hm'
          have hIq := hpost_first q hq
          exact ⟨hIq.1, fun ht => hIq.2 ht⟩
        · intro hnil
          simp at hnil
      · intro s hs
        rcases List.mem_append.mp hs with hs' | hpost
        · rcases List.mem_append.mp hs' with hpre | hmid
          · exact h3 s (List.mem_of_mem_take hpre)
          · rcases List.mem_cons.mp hmid with rfl | hmid'
            · exact hIc
            · have : s = (⟨b, I.stop, I.valno⟩ : Segment) := by simpa using hmid'
              subst this
              exact hIc
        · exact h3 s (List.mem_of_mem_drop hpost)

/-- Insert a single segment between a decomposition's halves. -/
theorem chain_insert (pre post : List Segment) (x : Segment)
    (h2 : (pre ++ post).Chain' adjOK)
    (hpx : ∀ p ∈ pre.getLast?, adjOK p x)
    (hxq : ∀ q ∈ post.head?, adjOK x q) :
    (pre ++ [x] ++ post).Chain' adjOK := by
  rw [List.append_assoc, List.chain'_append]
  rw [List.chain'_append] at h2
  obtain ⟨hcpre, hcpost, hpq⟩ := h2
  refine ⟨hcpre, ?_, ?_⟩
  · rw [List.chain'_append]
    refine ⟨by simp, hcpost, ?_⟩
    intro m hm q hq
    have hxm : x = m := by simpa using hm
    subst hxm
    exact hxq q hq
  · intro p hp y hy
    have hxy : x = y := by simpa using hy
    subst hxy
    exact hpx p hp

/-- `vnConsistent` survives extending the arena and the VN table. -/
theorem vnConsistent_extend (lr : LiveRangeS) (vni : VNInfo) (hnew : Nat)
    (E : List Segment) (s : Segment) (hc : vnConsistent lr s) :
    vnConsistent ⟨lr.arena ++ [vni], E, lr.valnos ++ [hnew]⟩ s := by
  obtain ⟨hc1, hc2, hc3⟩ := hc
  have hvn : vn (⟨lr.arena ++ [vni], E, lr.valnos ++ [hnew]⟩ : LiveRangeS) s.valno
      = vn lr s.valno := by
    show (lr.arena ++ [vni]).getD s.valno default = lr.arena.getD s.valno default
    exact getD_append_left _ _ _ _ hc1
  refine ⟨?_, ?_, ?_⟩
  · show s.valno < (lr.arena ++ [vni]).length
    simp only [List.length_append]
    omega
  · show (vn _ s.valno).id < (lr.valnos ++ [hnew]).length
    rw [hvn]
    simp only [List.length_append]
    omega
  · show (lr.valnos ++ [hnew]).getD (vn _ s.valno).id 0 = s.valno
    rw [hvn, getD_append_left _ _ _ _ hc2]
    exact hc3

/-- `vnConsistent` survives an arena rewrite that never changes ids. -/
theorem vnConsistent_setVN (lr : LiveRangeS) (h : Nat) (f : VNInfo → VNInfo)
    (hf : ∀ v, (f v).id = v.id) (s : Segment) (hc : vnConsistent lr s) :
    vnConsistent (setVN lr h f) s := by
  obtain ⟨hc1, hc2, hc3⟩ := hc
  have hvn : (vn (setVN lr h f) s.valno).id = (vn lr s.valno).id := by
    by_cases hx : s.valno = h
    · subst hx
      by_cases hxl : s.valno < lr.arena.length
      · rw [vn_setVN_self lr _ hxl, hf]
      · show ((lr.arena.set _ _).getD _ default).id = _
        rw [List.set_eq_of_length_le (by omega)]
        rfl
    · rw [vn_setVN_ne lr h s.valno (fun hcc => hx hcc.symm)]
  refine ⟨by simpa [setVN] using hc1, ?_, ?_⟩
  · show (vn (setVN lr h f) s.valno).id < (setVN lr h f).valnos.length
    rw [hvn]
    exact hc2
  · show (setVN lr h f).valnos.getD (vn (setVN lr h f) s.valno).id 0 = s.valno
    rw [hvn]
    exact hc3

theorem getLast?_getD (segs : List Segment) (p : Segment)
    (hp : segs.getLast? = some p) :
    0 < segs.length ∧ p = segs.getD (segs.length - 1) default := by
  cases segs with
  | nil => cases hp
  | cons a t =>
    refine ⟨by simp, ?_⟩
    rw [List.getLast?_eq_getElem?] at hp
    rw [getD_eq_getElem _ _ _ (by simp)]
    rw [List.getElem?_eq_getElem (by simp)] at hp
    exact (Option.some.inj hp).symm

/-- A freshly allocated VN handle is consistent in the extended range. -/
theorem vnConsistent_fresh (lr : LiveRangeS) (d : Nat) (E : List Segment)
    (s : Segment) (hsv : s.valno = lr.arena.length) :
    vnConsistent ⟨lr.arena ++ [⟨lr.valnos.length, d, false, false⟩], E,
      lr.valnos ++ [lr.arena.length]⟩ s := by
  have hvn : vn (⟨lr.arena ++ [⟨lr.valnos.length, d, false, false⟩], E,
      lr.valnos ++ [lr.arena.length]⟩ : LiveRangeS) lr.arena.length
      = ⟨lr.valnos.length, d, false, false⟩ := by
    show (lr.arena ++ [(⟨lr.valnos.length, d, false, false⟩ : VNInfo)]).getD
      lr.arena.length default = _
    rw [getD_append_right _ _ _ _ (Nat.le_refl _)]
    simp
  refine ⟨?_, ?_, ?_⟩
  · show s.valno < (lr.arena ++ [(⟨lr.valnos.length, d, false, false⟩ : VNInfo)]).length
    rw [hsv]
    simp
  · show (vn _ s.valno).id < (lr.valnos ++ [lr.arena.length]).length
    rw [hsv, hvn]
    simp
  · show (lr.valnos ++ [lr.arena.length]).getD (vn _ s.valno).id 0 = s.valno
    rw [hsv, hvn]
    show (lr.valnos ++ [lr.arena.length]).getD lr.valnos.length 0 = lr.arena.length
    rw [getD_append_right _ _ _ _ (Nat.le_refl _)]
    simp

/-- `createDeadDef` preserves the `verify` invariants provided that, when the
definition is promoted into the found segment, a touching predecessor carries
a different value number. -/
theorem createDeadDef_preserves (lr : LiveRangeS) (d : Nat) (lr' : LiveRangeS)
    (hv : Nat) (hinv : lrInvariant lr)
    (hguard : 0 < find lr.segments d → find lr.segments d < lr.segments.length →
      (lr.segments.getD (find lr.segments d - 1) default).stop = d →
      (lr.segments.getD (find lr.segments d - 1) default).valno
        ≠ (lr.segments.getD (find lr.segments d) default).valno)
    (hok : createDeadDef lr d = .ok (lr', hv)) : lrInvariant lr' := by
  obtain ⟨h1, h2, h3⟩ := hinv
  obtain ⟨hlow, hhigh, hle⟩ := find_bounds lr.segments d h1 h2
  simp only [createDeadDef, getNextValue] at hok
  split at hok
  · exact absurd hok (by simp)
  case isFalse hdead =>
  have hdead' : d % 4 ≠ 3 := by simpa [slotIsDead] using hdead
  have hdlt : d < getDeadSlot d := by
    unfold getDeadSlot
    omega
  split at hok
  case isTrue hieq =>
    -- append a fresh value number and segment at the end
    injection hok with hok'
    injection hok' with hok1 hok2
    rw [← hok1]
    refine ⟨?_, ?_, ?_⟩
    · intro s hs
      rcases List.mem_append.mp hs with hmem | hnew
      · exact h1 s hmem
      · have : s = (⟨d, getDeadSlot d, lr.arena.length⟩ : Segment) := by
          simpa using hnew
        subst this
        exact hdlt
    · show (lr.segments ++ [(⟨d, getDeadSlot d, lr.arena.length⟩ : Segment)]).Chain' adjOK
      rw [List.chain'_append]
      refine ⟨h2, by simp, ?_⟩
      intro p hp y hy
      have hxy : (⟨d, getDeadSlot d, lr.arena.length⟩ : Segment) = y := by simpa using hy
      subst hxy
      obtain ⟨hplen, hpeq⟩ := getLast?_getD lr.segments p hp
      constructor
      · show p.stop ≤ d
        rw [hpeq]
        exact hlow (lr.segments.length - 1) (by omega)
      · intro htouch
        show p.valno ≠ lr.arena.length
        have hpc := h3 p (by rw [hpeq]; exact getD_mem _ _ _ (by omega))
        exact Nat.ne_of_lt hpc.1
    · intro s hs
      rcases List.mem_append.mp hs with hmem | hnew
      · exact vnConsistent_extend lr _ _ _ s (h3 s hmem)
      · have : s = (⟨d, getDeadSlot d, lr.arena.length⟩ : Segment) := by simpa using hnew
        subst this
        exact vnConsistent_fresh lr d _ _ rfl
  case isFalse hine =>
  have hilen : find lr.segments d < lr.segments.length := by omega
  set i := find lr.segments d with hi
  set I := lr.segments.getD i default with hI
  have hImem : I ∈ lr.segments := getD_mem _ _ _ hilen
  have hIc := h3 I hImem
  have hIss : I.start < I.stop := h1 I hImem
  have hpre_last : ∀ p ∈ (lr.segments.take i).getLast?,
      0 < i ∧ p = lr.segments.getD (i - 1) default ∧ p.stop ≤ d := by
    intro p hp
    by_cases h0 : i = 0
    · rw [h0] at hp
      simp at hp
    · rw [take_getLast _ _ (by omega) (by omega)] at hp
      have hpeq : p = lr.segments.getD (i - 1) default := by simpa using hp.symm
      exact ⟨by omega, hpeq, by rw [hpeq]; exact hlow (i - 1) (by omega)⟩
  have hdec : lr.segments = lr.segments.take i ++ [I] ++ lr.segments.drop (i + 1) := by
    rw [List.append_assoc, List.singleton_append]
    exact segs_decomp lr.segments hilen
  have h2dec : (lr.segments.take i ++ [I] ++ lr.segments.drop (i + 1)).Chain' adjOK := by
    rw [← hdec]; exact h2
  have hpost_first : ∀ q ∈ (lr.segments.drop (i + 1)).head?, adjOK I q := by
    intro q hq
    cases hql : Nat.lt_or_ge (i + 1) lr.segments.length with
    | inl hlt =>
      rw [drop_head _ _ hlt] at hq
      have hqe : q = lr.segments.getD (i + 1) default := by simpa using hq.symm
      rw [hqe]
      exact adjOK_getD lr.segments (pairwise_adjOK _ h1 h2) (by omega) hlt
    | inr hge =>
      rw [List.drop_eq_nil_of_le (by omega)] at hq
      simp at hq
  split at hok
  case isTrue hsame =>
    split at hok
    · exact absurd hok (by simp)
    case isFalse hvdef =>
    split at hok
    case isTrue hmin =>
      -- promotion: move the segment start (and the VN def) to min d I.start
      injection hok with hok'
      injection hok' with hok1 hok2
      rw [← hok1]
      have hdint : min d I.start = d ∧ d < I.start := by
        rcases Nat.lt_or_ge d I.start with hx | hx
        · exact ⟨by omega, hx⟩
        · exact absurd (by omega : min d I.start = I.start) hmin
      refine ⟨?_, ?_, ?_⟩
      · intro s hs
        rcases List.mem_or_eq_of_mem_set hs with hmem | rfl
        · exact h1 s hmem
        · show min d I.start < I.stop
          omega
      · show (lr.segments.set i { I with start := min d I.start }).Chain' adjOK
        rw [set_decomp lr.segments hilen]
        apply chain_surgery _ _ _ I h2dec
        · simp
        · intro p hp m hm
          have hm' : { I with start := min d I.start } = m := by simpa using hm
          subst hm'
          obtain ⟨hig, hpeq, hpd⟩ := hpre_last p hp
          constructor
          · show p.stop ≤ min d I.start
            omega
          · intro htouch
            have htouch' : p.stop = min d I.start := htouch
            show p.valno ≠ I.valno
            rw [hpeq]
            exact hguard hig hilen (by rw [← hpeq]; omega)
        · intro m hm q hq
          have hm' : { I with start := min d I.start } = m := by simpa using hm
          subst hm'
          have hIq := hpost_first q hq
          exact ⟨hIq.1, fun ht => hIq.2 ht⟩
        · intro hnil
          simp at hnil
      · intro s hs
        rcases List.mem_or_eq_of_mem_set hs with hmem | rfl
        · refine vnConsistent_setVN _ I.valno
            (fun v => { v with vdef := min d I.start }) (fun v => rfl) s ?_
          exact h3 s hmem
        · refine vnConsistent_setVN _ I.valno
            (fun v => { v with vdef := min d I.start }) (fun v => rfl) _ ?_
          exact hIc
    case isFalse hmin =>
      injection hok with hok'
      injection hok' with hok1 hok2
      rw [← hok1]
      exact ⟨h1, h2, h3⟩
  case isFalse hsame =>
  split at hok
  · exact absurd hok (by simp)
  case isFalse hearly =>
  -- insert a fresh dead-def segment before the found one
  injection hok with hok'
  injection hok' with hok1 hok2
  rw [← hok1]
  have hearly' : isEarlierInstr d I.start = true := by
    rcases Bool.eq_false_or_eq_true (isEarlierInstr d I.start) with hx | hx
    · exact hx
    · exact absurd (by simpa using hx) hearly
  have hdiv : d / 4 < I.start / 4 := by simpa [isEarlierInstr] using hearly'
  have hdeadlt : getDeadSlot d < I.start := by
    unfold getDeadSlot
    omega
  refine ⟨?_, ?_, ?_⟩
  · intro s hs
    rcases List.mem_append.mp hs with hs' | hpost
    · rcases List.mem_append.mp hs' with hpre | hmid
      · exact h1 s (List.mem_of_mem_take hpre)
      · have : s = (⟨d, getDeadSlot d, lr.arena.length⟩ : Segment) := by simpa using hmid
        subst this
        exact hdlt
    · exact h1 s (List.mem_of_mem_drop hpost)
  · show (lr.segments.take i ++ [(⟨d, getDeadSlot d, lr.arena.length⟩ : Segment)]
        ++ lr.segments.drop i).Chain' adjOK
    apply chain_insert
    · rw [List.take_append_drop]
      exact h2
    · intro p hp
      obtain ⟨hig, hpeq, hpd⟩ := hpre_last p hp
      constructor
      · show p.stop ≤ d
        exact hpd
      · intro htouch
        show p.valno ≠ lr.arena.length
        have hpc := h3 p (by rw [hpeq]; exact getD_mem _ _ _ (by omega))
        exact Nat.ne_of_lt hpc.1
    · intro q hq
      rw [drop_head _ _ hilen] at hq
      have hqe : q = I := by rw [hI]; simpa using hq.symm
      subst hqe
      constructor
      · show getDeadSlot d ≤ I.start
        omega
      · intro htouch
        exfalso
        have htouch' : getDeadSlot d = I.start := htouch
        omega
  · intro s hs
    rcases List.mem_append.mp hs with hs' | hpost
    · rcases List.mem_append.mp hs' with hpre | hmid
      · exact vnConsistent_extend lr _ _ _ s (h3 s (List.mem_of_mem_take hpre))
      · have : s = (⟨d, getDeadSlot d, lr.arena.length⟩ : Segment) := by simpa using hmid
        subst this
        exact vnConsistent_fresh lr d _ _ rfl
    · exact vnConsistent_extend lr _ _ _ s (h3 s (List.mem_of_mem_drop hpost))

/-- Invariant of the `RenumberValues` loop: every handle already renumbered
(`seen`) or still to be processed ends up consistent in the final table. -/
theorem renumberGo_ok : ∀ (l : List Segment) (lr0 : LiveRangeS) (seen : List Nat)
    (lr' : LiveRangeS), renumberGo lr0 seen l = .ok lr' →
    (∀ s ∈ l, s.valno < lr0.arena.length) →
    (∀ x ∈ seen, x < lr0.arena.length ∧ (vn lr0 x).id < lr0.valnos.length ∧
      lr0.valnos.getD (vn lr0 x).id 0 = x) →
    lr'.segments = lr0.segments ∧ lr'.arena.length = lr0.arena.length ∧
    ∀ x, (x ∈ seen ∨ ∃ s ∈ l, s.valno = x) →
      x < lr'.arena.length ∧ (vn lr' x).id < lr'.valnos.length ∧
        lr'.valnos.getD (vn lr' x).id 0 = x := by
  intro l
  induction l with
  | nil =>
    intro lr0 seen lr' hok hl hseen
    simp only [renumberGo] at hok
    injection hok with hok'
    subst hok'
    refine ⟨rfl, rfl, ?_⟩
    intro x hx
    rcases hx with hx | ⟨s, hs, _⟩
    · exact hseen x hx
    · simp at hs
  | cons s rest ih =>
    intro lr0 seen lr' hok hl hseen
    simp only [renumberGo] at hok
    split at hok
    case isTrue hmem =>
      obtain ⟨hseg, hlen, hgood⟩ := ih lr0 seen lr' hok
        (fun t ht => hl t (List.mem_cons_of_mem _ ht)) hseen
      refine ⟨hseg, hlen, ?_⟩
      intro x hx
      apply hgood
      rcases hx with hx | ⟨t, ht, hxv⟩
      · exact Or.inl hx
      · rcases List.mem_cons.mp ht with rfl | ht'
        · exact Or.inl (hxv ▸ hmem)
        · exact Or.inr ⟨t, ht', hxv⟩
    case isFalse hmem =>
      split at hok
      · exact absurd hok (by simp)
      case isFalse hunused =>
      have hsv : s.valno < lr0.arena.length := hl s (by simp)
      set lr1 := setVN { lr0 with valnos := lr0.valnos ++ [s.valno] } s.valno
        (fun v => { v with id := lr0.valnos.length }) with hlr1
      have hvn1self : vn lr1 s.valno
          = { vn lr0 s.valno with id := lr0.valnos.length } := by
        rw [hlr1, vn_setVN_self _ _ (by simpa using hsv)]
        rfl
      have hvn1ne : ∀ x, x ≠ s.valno → vn lr1 x = vn lr0 x := by
        intro x hx
        rw [hlr1, vn_setVN_ne _ _ _ (fun hc => hx hc.symm)]
        rfl
      have hlen1 : lr1.valnos.length = lr0.valnos.length + 1 := by
        rw [hlr1]
        simp [setVN]
      have hl1 : ∀ t ∈ rest, t.valno < lr1.arena.length := by
        intro t ht
        have := hl t (List.mem_cons_of_mem _ ht)
        rw [hlr1]
        simpa [setVN] using this
      have hseen1 : ∀ x ∈ s.valno :: seen,
          x < lr1.arena.length ∧ (vn lr1 x).id < lr1.valnos.length ∧
            lr1.valnos.getD (vn lr1 x).id 0 = x := by
        intro x hx
        rcases List.mem_cons.mp hx with rfl | hx'
        · refine ⟨by rw [hlr1]; simpa [setVN] using hsv, ?_, ?_⟩
          · rw [hvn1self]
            show lr0.valnos.length < lr1.valnos.length
            omega
          · rw [hvn1self]
            show lr1.valnos.getD lr0.valnos.length 0 = s.valno
            rw [hlr1]
            show (lr0.valnos ++ [s.valno]).getD lr0.valnos.length 0 = s.valno
            rw [getD_append_right _ _ _ _ (Nat.le_refl _)]
            simp
        · obtain ⟨hg1, hg2, hg3⟩ := hseen x hx'
          have hxne : x ≠ s.valno := fun hc => hmem (hc ▸ hx')
          refine ⟨by rw [hlr1]; simpa [setVN] using hg1, ?_, ?_⟩
          · rw [hvn1ne x hxne]
            omega
          · rw [hvn1ne x hxne]
            show lr1.valnos.getD (vn lr0 x).id 0 = x
            rw [hlr1]
            show (lr0.valnos ++ [s.valno]).getD (vn lr0 x).id 0 = x
            rw [getD_append_left _ _ _ _ hg2]
            exact hg3
      obtain ⟨hseg, hlen, hgood⟩ := ih lr1 (s.valno :: seen) lr' hok hl1 hseen1
      refine ⟨by rw [hseg, hlr1]; rfl, by rw [hlen, hlr1]; simp [setVN], ?_⟩
      intro x hx
      apply hgood
      rcases hx with hx | ⟨t, ht, hxv⟩
      · exact Or.inl (List.mem_cons_of_mem _ hx)
      · rcases List.mem_cons.mp ht with rfl | ht'
        · exact Or.inl (by rw [← hxv]; exact List.mem_cons_self _ _)
        · exact Or.inr ⟨t, ht', hxv⟩

/-- `RenumberValues` preserves the `verify` invariants. -/
theorem RenumberValues_preserves (lr lr' : LiveRangeS) (hinv : lrInvariant lr)
    (hok : RenumberValues lr = .ok lr') : lrInvariant lr' := by
  obtain ⟨h1, h2, h3⟩ := hinv
  unfold RenumberValues at hok
  obtain ⟨hseg, hlen, hgood⟩ := renumberGo_ok lr.segments { lr with valnos := [] }
    [] lr' hok (fun s hs => (h3 s hs).1) (by intro x hx; simp at hx)
  refine ⟨?_, ?_, ?_⟩
  · intro s hs
    rw [hseg] at hs
    exact h1 s hs
  · rw [hseg]
    exact h2
  · intro s hs
    rw [hseg] at hs
    exact hgood s.valno (Or.inr ⟨s, hs, rfl⟩)

theorem dropWhile_head_false {α : Type} (p : α → Bool) :
    ∀ (l : List α) (m : α) (rest' : List α),
      l.dropWhile p = m :: rest' → p m = false := by
  intro l
  induction l with
  | nil =>
    intro m r h
    simp at h
  | cons a t ih =>
    intro m r h
    rw [List.dropWhile_cons] at h
    split at h
    · exact ih m r h
    case isFalse hpa =>
      injection h with h1 h2
      rw [← h1]
      simpa using hpa

theorem getLastD_mem_of_ne {α : Type} (l : List α) (d : α) (h : l ≠ []) :
    l.getLastD d ∈ l := by
  rw [List.getLastD_eq_getLast?, List.getLast?_eq_getLast l h]
  exact List.getLast_mem h

/-- `extendSegmentEndTo` preserves the ordering invariants provided any
later segment with a different value number that ends after `newEnd` also
starts at or after `newEnd`, and result value numbers come from the input. -/
theorem extendSegmentEndTo_preserves (segs : List Segment) (i newEnd : Nat)
    (segs' : List Segment)
    (h1 : ∀ s ∈ segs, s.start < s.stop) (h2 : segs.Chain' adjOK)
    (hsafe : ∀ t ∈ segs.drop (i + 1), t.valno ≠ (segs.getD i default).valno →
      newEnd < t.stop → newEnd ≤ t.start)
    (hok : extendSegmentEndTo segs i newEnd = .ok segs') :
    (∀ s ∈ segs', s.start < s.stop) ∧ segs'.Chain' adjOK ∧
    (∀ s ∈ segs', ∃ u ∈ segs, u.valno = s.valno) := by
  have hp := pairwise_adjOK segs h1 h2
  simp only [extendSegmentEndTo] at hok
  split at hok
  · exact absurd hok (by simp)
  case isFalse hlen =>
  have hilen : i < segs.length := by omega
  have hsmem : segs.getD i default ∈ segs := getD_mem _ _ _ hilen
  have hsss : (segs.getD i default).start < (segs.getD i default).stop := h1 _ hsmem
  have hdecomp : segs = segs.take i ++ [segs.getD i default] ++ segs.drop (i + 1) := by
    rw [List.append_assoc, List.singleton_append]
    exact segs_decomp segs hilen
  have hs_adj : ∀ t ∈ segs.drop (i + 1), adjOK (segs.getD i default) t := by
    intro t ht
    have hp2 := hp
    rw [hdecomp, List.pairwise_append] at hp2
    exact hp2.2.2 (segs.getD i default) (by simp) t ht
  have hpre_adj : ∀ p ∈ (segs.take i).getLast?, adjOK p (segs.getD i default) := by
    intro p hping
    have hp2 := hp
    rw [hdecomp, List.append_assoc, List.pairwise_append] at hp2
    exact hp2.2.2 p (List.mem_of_mem_getLast? hping) (segs.getD i default) (by simp)
  have hsplitTD : (segs.drop (i + 1)).takeWhile (fun m => decide (m.stop ≤ newEnd))
      ++ (segs.drop (i + 1)).dropWhile (fun m => decide (m.stop ≤ newEnd))
      = segs.drop (i + 1) :=
    List.takeWhile_append_dropWhile _ _
  have htw_mem : ∀ t ∈ (segs.drop (i + 1)).takeWhile (fun m => decide (m.stop ≤ newEnd)),
      t ∈ segs.drop (i + 1) :=
    fun t ht => (List.takeWhile_sublist _).subset ht
  have hdw_mem : ∀ t ∈ (segs.drop (i + 1)).dropWhile (fun m => decide (m.stop ≤ newEnd)),
      t ∈ segs.drop (i + 1) :=
    fun t ht => (List.dropWhile_sublist _).subset ht
  have htw_stop : ∀ t ∈ (segs.drop (i + 1)).takeWhile (fun m => decide (m.stop ≤ newEnd)),
      t.stop ≤ newEnd := by
    intro t ht
    have := List.mem_takeWhile_imp ht
    simpa using this
  -- the start of the rewritten segment is below the merged endpoint
  have hse1 : (segs.getD i default).start
      < max newEnd (((segs.drop (i + 1)).takeWhile
          (fun m => decide (m.stop ≤ newEnd))).getLastD
            ⟨0, (segs.getD i default).stop, (segs.getD i default).valno⟩).stop := by
    cases htw : (segs.drop (i + 1)).takeWhile (fun m => decide (m.stop ≤ newEnd)) with
    | nil =>
      show (segs.getD i default).start < max newEnd (segs.getD i default).stop
      have := Nat.le_max_right newEnd (segs.getD i default).stop
      omega
    | cons a t =>
      have hlastmem : (a :: t).getLastD
          ⟨0, (segs.getD i default).stop, (segs.getD i default).valno⟩ ∈ a :: t :=
        getLastD_mem_of_ne _ _ (by simp)
      have hlp : (a :: t).getLastD
          ⟨0, (segs.getD i default).stop, (segs.getD i default).valno⟩
          ∈ segs.drop (i + 1) := by
        apply htw_mem
        rw [htw]
        exact hlastmem
      have hadj := hs_adj _ hlp
      have hlss := h1 _ (List.mem_of_mem_drop hlp)
      have h4 := Nat.le_max_right newEnd ((a :: t).getLastD
          ⟨0, (segs.getD i default).stop, (segs.getD i default).valno⟩).stop
      have h5 := hadj.1
      omega
  -- the merged endpoint's second component stays before any kept segment
  have hlast_before : ∀ y ∈ (segs.drop (i + 1)).dropWhile
        (fun m => decide (m.stop ≤ newEnd)),
      (((segs.drop (i + 1)).takeWhile (fun m => decide (m.stop ≤ newEnd))).getLastD
        ⟨0, (segs.getD i default).stop, (segs.getD i default).valno⟩).stop ≤ y.start := by
    intro y hy
    cases htw : (segs.drop (i + 1)).takeWhile (fun m => decide (m.stop ≤ newEnd)) with
    | nil =>
      show (segs.getD i default).stop ≤ y.start
      exact (hs_adj y (hdw_mem y hy)).1
    | cons a t =>
      have hlastmem : (a :: t).getLastD
          ⟨0, (segs.getD i default).stop, (segs.getD i default).valno⟩ ∈ a :: t :=
        getLastD_mem_of_ne _ _ (by simp)
      have hpd : (segs.drop (i + 1)).Pairwise adjOK :=
        hp.sublist (List.drop_sublist _ _)
      rw [← hsplitTD, List.pairwise_append] at hpd
      have := hpd.2.2 _ (by rw [htw]; exact hlastmem) y hy
      exact this.1
  cases hcore : extendEndCore (segs.getD i default).valno newEnd
      (segs.getD i default).stop (segs.drop (i + 1)) with
  | error e =>
    rw [hcore] at hok
    exact absurd hok (by simp)
  | ok pr =>
    obtain ⟨e', rest⟩ := pr
    rw [hcore] at hok
    have hok2 : (Except.ok (segs.take i ++ [{ segs.getD i default with stop := e' }]
        ++ rest) : Except AssertErr (List Segment)) = .ok segs' := hok
    injection hok2 with hok3
    subst hok3
    simp only [extendEndCore] at hcore
    split at hcore
    · exact absurd hcore (by simp)
    case isFalse hmm =>
    have hmerged_v : ∀ t ∈ (segs.drop (i + 1)).takeWhile
        (fun m => decide (m.stop ≤ newEnd)), t.valno = (segs.getD i default).valno := by
      intro t ht
      by_contra hc
      exact hmm (by
        rw [List.any_eq_true]
        exact ⟨t, ht, by simpa using hc⟩)
    cases hdw : (segs.drop (i + 1)).dropWhile (fun m => decide (m.stop ≤ newEnd)) with
    | nil =>
      rw [hdw] at hcore
      have hcore2 : (Except.ok (max newEnd (((segs.drop (i + 1)).takeWhile
          (fun m => decide (m.stop ≤ newEnd))).getLastD
            ⟨0, (segs.getD i default).stop, (segs.getD i default).valno⟩).stop,
          ([] : List Segment)) : Except AssertErr (Nat × List Segment))
          = .ok (e', rest) := hcore
      injection hcore2 with hcore3
      injection hcore3 with hc1 hc2
      subst hc1
      subst hc2
      refine ⟨?_, ?_, ?_⟩
      · intro t ht
        rcases List.mem_append.mp ht with ht' | hpost
        · rcases List.mem_append.mp ht' with hpre | hmid
          · exact h1 t (List.mem_of_mem_take hpre)
          · have hmid' : ({ segs.getD i default with stop := (max newEnd
                (((segs.drop (i + 1)).takeWhile
                  (fun m => decide (m.stop ≤ newEnd))).getLastD
                    ⟨0, (segs.getD i default).stop,
                      (segs.getD i default).valno⟩).stop) } : Segment) = t := by
              symm
              simpa using hmid
            rw [← hmid']
            exact hse1
        · simp at hpost
      · apply chain_surgery _ _ _ (segs.getD i default)
        · apply chain_of_sublist segs _ _ h1 h2
          rw [List.append_nil]
          conv_rhs => rw [hdecomp]
          exact List.sublist_append_left _ _
        · simp
        · intro p hping y hy
          have hyv : ({ segs.getD i default with stop := (max newEnd
              (((segs.drop (i + 1)).takeWhile
                (fun m => decide (m.stop ≤ newEnd))).getLastD
                  ⟨0, (segs.getD i default).stop,
                    (segs.getD i default).valno⟩).stop) } : Segment) = y := by
            simpa using hy
          have hpI := hpre_adj p hping
          rw [← hyv]
          exact ⟨hpI.1, fun ht => hpI.2 ht⟩
        · intro m hm q hq
          simp at hq
        · intro hnil
          simp at hnil
      · intro t ht
        rcases List.mem_append.mp ht with ht' | hpost
        · rcases List.mem_append.mp ht' with hpre | hmid
          · exact ⟨t, List.mem_of_mem_take hpre, rfl⟩
          · have hmid' : ({ segs.getD i default with stop := (max newEnd
                (((segs.drop (i + 1)).takeWhile
                  (fun m => decide (m.stop ≤ newEnd))).getLastD
                    ⟨0, (segs.getD i default).stop,
                      (segs.getD i default).valno⟩).stop) } : Segment) = t := by
              symm
              simpa using hmid
            exact ⟨segs.getD i default, hsmem, by rw [← hmid']⟩
        · simp at hpost
    | cons m rest' =>
      rw [hdw] at hcore
      have hmmem : m ∈ segs.drop (i + 1) := by
        apply hdw_mem
        rw [hdw]
        simp
      have hmstop : newEnd < m.stop := by
        have := dropWhile_head_false _ _ _ _ hdw
        simpa using this
      have hrest'_sub : List.Sublist rest' (segs.drop (i + 1)) := by
        have h1s : List.Sublist rest' (m :: rest') := List.sublist_cons_self m rest'
        rw [← hdw] at h1s
        exact h1s.trans (List.dropWhile_sublist _)
      have hadj_sm : adjOK (segs.getD i default) m := hs_adj m hmmem
      have hmss : m.start < m.stop := h1 m (List.mem_of_mem_drop hmmem)
      have hpdw : (m :: rest').Pairwise adjOK := by
        rw [← hdw]
        exact (hp.sublist (List.drop_sublist _ _)).sublist (List.dropWhile_sublist _)
      have hcore2 : (if m.start ≤ max newEnd (((segs.drop (i + 1)).takeWhile
            (fun mm => decide (mm.stop ≤ newEnd))).getLastD
              ⟨0, (segs.getD i default).stop, (segs.getD i default).valno⟩).stop
            ∧ m.valno = (segs.getD i default).valno then
          (Except.ok (m.stop, rest') : Except AssertErr (Nat × List Segment))
        else .ok (max newEnd (((segs.drop (i + 1)).takeWhile
            (fun mm => decide (mm.stop ≤ newEnd))).getLastD
              ⟨0, (segs.getD i default).stop, (segs.getD i default).valno⟩).stop,
          m :: rest')) = .ok (e', rest) := hcore
      split at hcore2
      case isTrue habs =>
        injection hcore2 with hcore3
        injection hcore3 with hc1 hc2
        subst hc1
        subst hc2
        refine ⟨?_, ?_, ?_⟩
        · intro t ht
          rcases List.mem_append.mp ht with ht' | hpost
          · rcases List.mem_append.mp ht' with hpre | hmid
            · exact h1 t (List.mem_of_mem_take hpre)
            · have hmid' : ({ segs.getD i default with stop := m.stop } : Segment)
                  = t := by symm; simpa using hmid
              rw [← hmid']
              show (segs.getD i default).start < m.stop
              have := hadj_sm.1
              omega
          · exact h1 t (List.mem_of_mem_drop (hrest'_sub.subset hpost))
        · apply chain_surgery _ _ _ (segs.getD i default)
          · apply chain_of_sublist segs _ _ h1 h2
            conv_rhs => rw [hdecomp]
            exact hrest'_sub.append_left _
          · simp
          · intro p hping y hy
            have hyv : ({ segs.getD i default with stop := m.stop } : Segment) = y := by
              simpa using hy
            have hpI := hpre_adj p hping
            rw [← hyv]
            exact ⟨hpI.1, fun ht => hpI.2 ht⟩
          · intro mm hmm2 q hq
            have hmv : ({ segs.getD i default with stop := m.stop } : Segment) = mm := by
              simpa using hmm2
            have hqmem : q ∈ rest' := List.mem_of_mem_head? hq
            have hmq := (List.pairwise_cons.mp hpdw).1 q hqmem
            rw [← hmv]
            constructor
            · show m.stop ≤ q.start
              exact hmq.1
            · intro ht
              have ht' : m.stop = q.start := ht
              show (segs.getD i default).valno ≠ q.valno
              rw [← habs.2]
              exact hmq.2 ht'
          · intro hnil
            simp at hnil
        · intro t ht
          rcases List.mem_append.mp ht with ht' | hpost
          · rcases List.mem_append.mp ht' with hpre | hmid
            · exact ⟨t, List.mem_of_mem_take hpre, rfl⟩
            · have hmid' : ({ segs.getD i default with stop := m.stop } : Segment)
                  = t := by symm; simpa using hmid
              exact ⟨segs.getD i default, hsmem, by rw [← hmid']⟩
          · exact ⟨t, List.mem_of_mem_drop (hrest'_sub.subset hpost), rfl⟩
      case isFalse habs =>
        injection hcore2 with hcore3
        injection hcore3 with hc1 hc2
        subst hc1
        subst hc2
        have hdwsub : List.Sublist (m :: rest') (segs.drop (i + 1)) := by
          rw [← hdw]
          exact List.dropWhile_sublist _
        have he1m : max newEnd (((segs.drop (i + 1)).takeWhile
            (fun mm => decide (mm.stop ≤ newEnd))).getLastD
              ⟨0, (segs.getD i default).stop, (segs.getD i default).valno⟩).stop
            ≤ m.start ∧
            (max newEnd (((segs.drop (i + 1)).takeWhile
              (fun mm => decide (mm.stop ≤ newEnd))).getLastD
                ⟨0, (segs.getD i default).stop, (segs.getD i default).valno⟩).stop
              = m.start → (segs.getD i default).valno ≠ m.valno) := by
          by_cases hmv : m.valno = (segs.getD i default).valno
          · have hlt : ¬ (m.start ≤ max newEnd (((segs.drop (i + 1)).takeWhile
                (fun mm => decide (mm.stop ≤ newEnd))).getLastD
                  ⟨0, (segs.getD i default).stop,
                    (segs.getD i default).valno⟩).stop) := by
              intro hc
              exact habs ⟨hc, hmv⟩
            constructor
            · omega
            · intro ht
              omega
          · have hsafe' : newEnd ≤ m.start := hsafe m hmmem hmv hmstop
            have hlast' : (((segs.drop (i + 1)).takeWhile
                (fun mm => decide (mm.stop ≤ newEnd))).getLastD
                  ⟨0, (segs.getD i default).stop,
                    (segs.getD i default).valno⟩).stop ≤ m.start := by
              apply hlast_before
              rw [hdw]
              simp
            constructor
            · exact Nat.max_le.mpr ⟨hsafe', hlast'⟩
            · intro ht
              exact fun hc => hmv hc.symm
        refine ⟨?_, ?_, ?_⟩
        · intro t ht
          rcases List.mem_append.mp ht with ht' | hpost
          · rcases List.mem_append.mp ht' with hpre | hmid
            · exact h1 t (List.mem_of_mem_take hpre)
            · have hmid' : ({ segs.getD i default with stop := (max newEnd
                  (((segs.drop (i + 1)).takeWhile
                    (fun mm => decide (mm.stop ≤ newEnd))).getLastD
                      ⟨0, (segs.getD i default).stop,
                        (segs.getD i default).valno⟩).stop) } : Segment) = t := by
                symm
                simpa using hmid
              rw [← hmid']
              exact hse1
          · exact h1 t (List.mem_of_mem_drop (hdwsub.subset hpost))
        · apply chain_surgery _ _ _ (segs.getD i default)
          · apply chain_of_sublist segs _ _ h1 h2
            conv_rhs => rw [hdecomp]
            exact hdwsub.append_left _
          · simp
          · intro p hping y hy
            have hyv : ({ segs.getD i default with stop := (max newEnd
                (((segs.drop (i + 1)).takeWhile
                  (fun mm => decide (mm.stop ≤ newEnd))).getLastD
                    ⟨0, (segs.getD i default).stop,
                      (segs.getD i default).valno⟩).stop) } : Segment) = y := by
              simpa using hy
            have hpI := hpre_adj p hping
            rw [← hyv]
            exact ⟨hpI.1, fun ht => hpI.2 ht⟩
          · intro mm hmm2 q hq
            have hmv : ({ segs.getD i default with stop := (max newEnd
                (((segs.drop (i + 1)).takeWhile
                  (fun mm => decide (mm.stop ≤ newEnd))).getLastD
                    ⟨0, (segs.getD i default).stop,
                      (segs.getD i default).valno⟩).stop) } : Segment) = mm := by
              simpa using hmm2
            have hqm : m = q := by simpa using hq
            subst hqm
            rw [← hmv]
            exact ⟨he1m.1, fun ht => he1m.2 ht⟩
          · intro hnil
            simp at hnil
        · intro t ht
          rcases List.mem_append.mp ht with ht' | hpost
          · rcases List.mem_append.mp ht' with hpre | hmid
            · exact ⟨t, List.mem_of_mem_take hpre, rfl⟩
            · have hmid' : ({ segs.getD i default with stop := (max newEnd
                  (((segs.drop (i + 1)).takeWhile
                    (fun mm => decide (mm.stop ≤ newEnd))).getLastD
                      ⟨0, (segs.getD i default).stop,
                        (segs.getD i default).valno⟩).stop) } : Segment) = t := by
                symm
                simpa using hmid
              exact ⟨segs.getD i default, hsmem, by rw [← hmid']⟩
          · exact ⟨t, List.mem_of_mem_drop (hdwsub.subset hpost), rfl⟩

/-- `extendInBlock` preserves the `verify` invariants. -/
theorem extendInBlock_preserves (lr : LiveRangeS) (startIdx kill : Nat)
    (lr' : LiveRangeS) (res : Option Nat) (hinv : lrInvariant lr)
    (hok : extendInBlock lr startIdx kill = .ok (lr', res)) : lrInvariant lr' := by
  obtain ⟨h1, h2, h3⟩ := hinv
  have hp := pairwise_adjOK lr.segments h1 h2
  simp only [extendInBlock, findInsertPos] at hok
  split at hok
  · injection hok with hok'
    injection hok' with ha hb
    rw [← ha]
    exact ⟨h1, h2, h3⟩
  case isFalse hne =>
  split at hok
  · injection hok with hok'
    injection hok' with ha hb
    rw [← ha]
    exact ⟨h1, h2, h3⟩
  case isFalse hip0 =>
  split at hok
  · injection hok with hok'
    injection hok' with ha hb
    rw [← ha]
    exact ⟨h1, h2, h3⟩
  case isFalse hlive =>
  split at hok
  case isTrue hstoplt =>
    cases hext : extendSegmentEndTo lr.segments
        (upperBoundIdx (getPrevSlot kill) lr.segments - 1) kill with
    | error e =>
      rw [hext] at hok
      exact absurd hok (by simp)
    | ok segs' =>
      rw [hext] at hok
      have hok2 : (Except.ok ({ lr with segments := segs' },
          some (lr.segments.getD (upperBoundIdx (getPrevSlot kill) lr.segments - 1)
            default).valno) : Except AssertErr (LiveRangeS × Option Nat))
          = .ok (lr', res) := hok
      injection hok2 with hok3
      injection hok3 with ha hb
      rw [← ha]
      have hsafe : ∀ t ∈ lr.segments.drop
          ((upperBoundIdx (getPrevSlot kill) lr.segments - 1) + 1),
          t.valno ≠ (lr.segments.getD
            (upperBoundIdx (getPrevSlot kill) lr.segments - 1) default).valno →
          kill < t.stop → kill ≤ t.start := by
        intro t ht hv hk
        obtain ⟨j, hj1, hj2, hj3⟩ := mem_drop_getD lr.segments _ ht
        obtain ⟨hub1, hub2, hub3⟩ := upperBoundIdx_spec (getPrevSlot kill) lr.segments
        set ip := upperBoundIdx (getPrevSlot kill) lr.segments with hipd
        have hiplt : ip ≤ j := by omega
        have hjlen := hj2
        have hkey : getPrevSlot kill
            < (lr.segments.getD ip default).start := hub3 (by omega)
        have hstart : getPrevSlot kill < (lr.segments.getD j default).start := by
          rcases Nat.eq_or_lt_of_le hiplt with rfl | hlt
          · exact hkey
          · have hadj := adjOK_getD lr.segments hp hlt hj2
            have hss := startlt_getD lr.segments h1 (show ip < lr.segments.length by omega)
            have := hadj.1
            omega
        rw [hj3] at hstart
        show kill ≤ t.start
        unfold getPrevSlot at hstart
        omega
      obtain ⟨g1, g2, g3⟩ := extendSegmentEndTo_preserves lr.segments
        (upperBoundIdx (getPrevSlot kill) lr.segments - 1) kill segs' h1 h2 hsafe hext
      refine ⟨g1, g2, ?_⟩
      intro s hs
      obtain ⟨u, hu, huv⟩ := g3 s hs
      show vnConsistent { lr with segments := segs' } s
      have hc := h3 u hu
      rw [vnConsistent_seg_update]
      unfold vnConsistent
      rw [← huv]
      exact hc
  case isFalse hstoplt =>
    injection hok with hok'
    injection hok' with ha hb
    rw [← ha]
    exact ⟨h1, h2, h3⟩

/-- The backward walk of `extendSegmentStartTo`: the kept prefix is a suffix
of the input (in reversed order), the merged segment carries the extended
segment's value number and end, and it is adjacent-compatible with the first
kept segment. -/
theorem extendStartWalk_preserves (v newStart sStop : Nat) (hns : newStart < sStop) :
    ∀ (revPre keptRev : List Segment) (merged : Segment),
    extendStartWalk v newStart sStop revPre = .ok (keptRev, merged) →
    (∀ t ∈ revPre, t.start < t.stop) →
    (∀ t ∈ revPre, t.valno ≠ v → t.stop ≤ newStart) →
    revPre.Chain' (fun a b => adjOK b a) →
    (∃ n, keptRev = revPre.drop n) ∧
    merged.valno = v ∧ merged.start < merged.stop ∧ merged.stop = sStop ∧
    merged.start ≤ newStart ∧
    (∀ p ∈ keptRev.head?, adjOK p merged) := by
  intro revPre
  induction revPre with
  | nil =>
    intro keptRev merged hok hss hsafe hchain
    simp only [extendStartWalk] at hok
    injection hok with hok'
    injection hok' with hk hm
    subst hk
    subst hm
    exact ⟨⟨0, rfl⟩, rfl, hns, rfl, Nat.le_refl _, by intro p hp; simp at hp⟩
  | cons b revPre ih =>
    intro keptRev merged hok hss hsafe hchain
    simp only [extendStartWalk] at hok
    split at hok
    case isTrue hcov =>
      cases hrp : revPre with
      | nil =>
        rw [hrp] at hok
        have hok2 : (Except.ok (([] : List Segment),
            (⟨newStart, sStop, v⟩ : Segment)) : Except AssertErr (List Segment × Segment))
            = .ok (keptRev, merged) := hok
        injection hok2 with hok'
        injection hok' with hk hm
        subst hk
        subst hm
        exact ⟨⟨1, rfl⟩, rfl, hns, rfl, Nat.le_refl _, by intro p hp; simp at hp⟩
      | cons c revPre' =>
        rw [hrp] at hok
        have hok2 : (if b.valno ≠ v then
            (Except.error .mergeMismatch : Except AssertErr (List Segment × Segment))
            else extendStartWalk v newStart sStop (c :: revPre'))
            = .ok (keptRev, merged) := hok
        split at hok2
        · exact absurd hok2 (by simp)
        case isFalse hbv =>
        rw [← hrp] at hok2
        obtain ⟨⟨n, hkept⟩, hmv, hmss, hmstop, hmle, hhead⟩ := ih keptRev merged hok2
          (fun t ht => hss t (List.mem_cons_of_mem _ ht))
          (fun t ht hv => hsafe t (List.mem_cons_of_mem _ ht) hv)
          ((List.chain'_cons'.mp hchain).2)
        exact ⟨⟨n + 1, by rw [hkept, hrp, List.drop_succ_cons]⟩, hmv, hmss, hmstop, hmle, hhead⟩
    case isFalse hcov =>
      split at hok
      case isTrue hmerge =>
        injection hok with hok'
        injection hok' with hk hm
        subst hk
        subst hm
        refine ⟨⟨1, rfl⟩, hmerge.2, ?_, rfl, (by show b.start ≤ newStart; omega), ?_⟩
        · show b.start < sStop
          omega
        · intro p hp
          have hpadj : adjOK p b := by
            have := (List.chain'_cons'.mp hchain).1 p hp
            exact this
          constructor
          · show p.stop ≤ b.start
            exact hpadj.1
          · intro ht
            have ht' : p.stop = b.start := ht
            show p.valno ≠ b.valno
            exact hpadj.2 ht'
      case isFalse hmerge =>
        injection hok with hok'
        injection hok' with hk hm
        subst hk
        subst hm
        refine ⟨⟨0, rfl⟩, rfl, hns, rfl, Nat.le_refl _, ?_⟩
        intro p hp
        have hpb : b = p := by simpa using hp
        subst hpb
        have hbstop : b.stop ≤ newStart := by
          by_cases hbv : b.valno = v
          · have : ¬ (newStart ≤ b.stop) := fun hc => hmerge ⟨hc, hbv⟩
            omega
          · exact hsafe b (by simp) hbv
        constructor
        · show b.stop ≤ newStart
          exact hbstop
        · intro ht
          have ht' : b.stop = newStart := ht
          show b.valno ≠ v
          intro hbv
          exact hmerge ⟨by omega, hbv⟩

/-- `extendSegmentStartTo` preserves the ordering invariants provided every
earlier segment with a different value number ends at or before `newStart`;
the returned index points at the merged segment, which keeps the original
segment's end and value number, and the tail after it is unchanged. -/
theorem extendSegmentStartTo_preserves (segs : List Segment) (i newStart : Nat)
    (segs' : List Segment) (j : Nat)
    (h1 : ∀ s ∈ segs, s.start < s.stop) (h2 : segs.Chain' adjOK)
    (hsafe : ∀ t ∈ segs.take i, t.valno ≠ (segs.getD i default).valno →
      t.stop ≤ newStart)
    (hns : newStart < (segs.getD i default).stop)
    (hok : extendSegmentStartTo segs i newStart = .ok (segs', j)) :
    (∀ s ∈ segs', s.start < s.stop) ∧ segs'.Chain' adjOK ∧
    (∀ s ∈ segs', ∃ u ∈ segs, u.valno = s.valno) ∧
    j < segs'.length ∧
    segs'.getD j default ∈ segs' ∧
    (segs'.getD j default).valno = (segs.getD i default).valno ∧
    (segs'.getD j default).stop = (segs.getD i default).stop ∧
    segs'.drop (j + 1) = segs.drop (i + 1) := by
  have hp := pairwise_adjOK segs h1 h2
  simp only [extendSegmentStartTo] at hok
  split at hok
  · exact absurd hok (by simp)
  case isFalse hlen =>
  have hilen : i < segs.length := by omega
  have hsmem : segs.getD i default ∈ segs := getD_mem _ _ _ hilen
  have hdecomp : segs = segs.take i ++ [segs.getD i default] ++ segs.drop (i + 1) := by
    rw [List.append_assoc, List.singleton_append]
    exact segs_decomp segs hilen
  have hs_adj : ∀ t ∈ segs.drop (i + 1), adjOK (segs.getD i default) t := by
    intro t ht
    have hp2 := hp
    rw [hdecomp, List.pairwise_append] at hp2
    exact hp2.2.2 (segs.getD i default) (by simp) t ht
  cases hwalk : extendStartWalk (segs.getD i default).valno newStart
      (segs.getD i default).stop (segs.take i).reverse with
  | error e =>
    rw [hwalk] at hok
    exact absurd hok (by simp)
  | ok pr =>
    obtain ⟨keptRev, merged⟩ := pr
    rw [hwalk] at hok
    have hok2 : (Except.ok (keptRev.reverse ++ [merged] ++ segs.drop (i + 1),
        keptRev.length) : Except AssertErr (List Segment × Nat))
        = .ok (segs', j) := hok
    injection hok2 with hok3
    injection hok3 with ha hb
    subst ha
    subst hb
    obtain ⟨⟨n, hkept⟩, hmv, hmss, hmstop, hmle, hhead⟩ :=
      extendStartWalk_preserves _ _ _ hns _ _ _ hwalk
        (by
          intro t ht
          exact h1 t (List.mem_of_mem_take (List.mem_reverse.mp ht)))
        (by
          intro t ht hv
          exact hsafe t (List.mem_reverse.mp ht) hv)
        (List.chain'_reverse.mpr
          (chain_of_sublist segs _ (by
            conv_rhs => rw [hdecomp, List.append_assoc]
            exact List.sublist_append_left _ _) h1 h2))
    have hkrev : keptRev.reverse = (segs.take i).take ((segs.take i).length - n) := by
      rw [hkept, List.drop_reverse, List.reverse_reverse]
    have hkrev_sub : List.Sublist keptRev.reverse (segs.take i) := by
      rw [hkrev]
      exact List.take_sublist _ _
    have hkrev_mem : ∀ t ∈ keptRev.reverse, t ∈ segs := by
      intro t ht
      exact List.mem_of_mem_take (hkrev_sub.subset ht)
    have hchain' : (keptRev.reverse ++ [merged] ++ segs.drop (i + 1)).Chain' adjOK := by
      apply chain_surgery _ _ _ (segs.getD i default)
      · apply chain_of_sublist segs _ _ h1 h2
        conv_rhs => rw [hdecomp]
        exact (hkrev_sub.append_right _).append_right _
      · simp
      · intro p hping y hy
        have hym : merged = y := by simpa using hy
        subst hym
        apply hhead
        rw [← List.getLast?_reverse]
        exact hping
      · intro m hm q hq
        have hmm : merged = m := by simpa using hm
        subst hmm
        have hqmem : q ∈ segs.drop (i + 1) := List.mem_of_mem_head? hq
        have hadj := hs_adj q hqmem
        constructor
        · show merged.stop ≤ q.start
          rw [hmstop]
          exact hadj.1
        · intro ht
          have ht2 : (segs.getD i default).stop = q.start := by
            rw [← hmstop]
            exact ht
          show merged.valno ≠ q.valno
          rw [hmv]
          exact hadj.2 ht2
      · intro hnil
        simp at hnil
    have hgetj : (keptRev.reverse ++ [merged] ++ segs.drop (i + 1)).getD
        keptRev.length default = merged := by
      rw [getD_append_left _ _ _ _
        (by simp only [List.length_append, List.length_reverse]; simp)]
      rw [getD_append_right _ _ _ _ (by simp [List.length_reverse])]
      simp [List.length_reverse]
    refine ⟨?_, hchain', ?_, ?_, ?_, ?_, ?_, ?_⟩
    · intro t ht
      rcases List.mem_append.mp ht with ht' | hpost
      · rcases List.mem_append.mp ht' with hpre | hmid
        · exact h1 t (hkrev_mem t hpre)
        · have : merged = t := by symm; simpa using hmid
          rw [← this]
          exact hmss
      · exact h1 t (List.mem_of_mem_drop hpost)
    · intro t ht
      rcases List.mem_append.mp ht with ht' | hpost
      · rcases List.mem_append.mp ht' with hpre | hmid
        · exact ⟨t, hkrev_mem t hpre, rfl⟩
        · have : merged = t := by symm; simpa using hmid
          exact ⟨segs.getD i default, hsmem, by rw [← this, hmv]⟩
      · exact ⟨t, List.mem_of_mem_drop hpost, rfl⟩
    · simp only [List.length_append, List.length_reverse, List.length_singleton]
      omega
    · rw [hgetj]
      simp
    · rw [hgetj]
      exact hmv
    · rw [hgetj]
      exact hmstop
    · show (keptRev.reverse ++ [merged] ++ segs.drop (i + 1)).drop
        (keptRev.length + 1) = segs.drop (i + 1)
      have hlen2 : (keptRev.reverse ++ [merged]).length = keptRev.length + 1 := by
        simp
      rw [← hlen2, List.drop_left]

/-- `addSegmentTail` preserves the `verify` invariants under the amended
no-foreign-overlap hypothesis and the insert-position facts. -/
theorem addSegmentTail_preserves (lr : LiveRangeS) (S : Segment) (i0 : Nat)
    (lr' : LiveRangeS)
    (hinv : lrInvariant lr) (hS : S.start < S.stop) (hSc : vnConsistent lr S)
    (Hno : ∀ t ∈ lr.segments, t.valno ≠ S.valno → t.stop ≤ S.start ∨ S.stop ≤ t.start)
    (hlow : ∀ j, j < i0 → (lr.segments.getD j default).start ≤ S.start)
    (hhigh : i0 < lr.segments.length → S.start < (lr.segments.getD i0 default).start)
    (hpre : ∀ p ∈ (lr.segments.take i0).getLast?, adjOK p S)
    (hok : addSegmentTail lr S i0 = .ok lr') : lrInvariant lr' := by
  obtain ⟨h1, h2, h3⟩ := hinv
  have hplainInv : (∀ q ∈ (lr.segments.drop i0).head?, adjOK S q) →
      lrInvariant { lr with
        segments := lr.segments.take i0 ++ [S] ++ lr.segments.drop i0 } := by
    intro hnext
    refine ⟨?_, ?_, ?_⟩
    · intro t ht
      rcases List.mem_append.mp ht with ht' | hpost
      · rcases List.mem_append.mp ht' with hpret | hmid
        · exact h1 t (List.mem_of_mem_take hpret)
        · have : S = t := by symm; simpa using hmid
          rw [← this]
          exact hS
      · exact h1 t (List.mem_of_mem_drop hpost)
    · show (lr.segments.take i0 ++ [S] ++ lr.segments.drop i0).Chain' adjOK
      apply chain_insert
      · rw [List.take_append_drop]
        exact h2
      · exact hpre
      · exact hnext
    · intro t ht
      rcases List.mem_append.mp ht with ht' | hpost
      · rcases List.mem_append.mp ht' with hpret | hmid
        · exact h3 t (List.mem_of_mem_take hpret)
        · have : S = t := by symm; simpa using hmid
          rw [← this]
          exact hSc
      · exact h3 t (List.mem_of_mem_drop hpost)
  simp only [addSegmentTail] at hok
  split at hok
  case isTrue hi0len =>
    split at hok
    case isTrue hvI =>
      split at hok
      case isTrue hIS =>
        cases hst : extendSegmentStartTo lr.segments i0 S.start with
        | error e =>
          rw [hst] at hok
          exact absurd hok (by simp)
        | ok pr =>
          obtain ⟨segs1, j⟩ := pr
          rw [hst] at hok
          have hsafe1 : ∀ t ∈ lr.segments.take i0,
              t.valno ≠ (lr.segments.getD i0 default).valno → t.stop ≤ S.start := by
            intro t ht hv
            obtain ⟨jj, hjj1, hjj2, hjj3⟩ := mem_take_getD lr.segments i0 ht
            have hv' : t.valno ≠ S.valno := by
              rw [hvI]
              exact hv
            rcases Hno t (List.mem_of_mem_take ht) hv' with hc | hc
            · exact hc
            · exfalso
              have hts : t.start ≤ S.start := by
                rw [← hjj3]
                exact hlow jj hjj1
              omega
          have hns1 : S.start < (lr.segments.getD i0 default).stop := by
            have := hhigh hi0len
            have := startlt_getD lr.segments h1 hi0len
            omega
          obtain ⟨g1, g2, g3, hjlen, hjmem, hjv, hjstop, hjdrop⟩ :=
            extendSegmentStartTo_preserves lr.segments i0 S.start segs1 j
              h1 h2 hsafe1 hns1 hst
          have hok2 : (if (segs1.getD j default).stop < S.stop then
              (match extendSegmentEndTo segs1 j S.stop with
               | .error e => .error e
               | .ok segs'' => .ok { lr with segments := segs'' })
              else (.ok { lr with segments := segs1 } :
                Except AssertErr LiveRangeS)) = .ok lr' := hok
          clear hok
          split at hok2
          case isTrue hlt =>
            cases hext : extendSegmentEndTo segs1 j S.stop with
            | error e =>
              rw [hext] at hok2
              exact absurd hok2 (by simp)
            | ok segs2 =>
              rw [hext] at hok2
              have hok4 : (Except.ok { lr with segments := segs2 } :
                  Except AssertErr LiveRangeS) = .ok lr' := hok2
              injection hok4 with hok'
              rw [← hok']
              have hsafe2 : ∀ t ∈ segs1.drop (j + 1),
                  t.valno ≠ (segs1.getD j default).valno →
                  S.stop < t.stop → S.stop ≤ t.start := by
                intro t ht hv hlt2
                rw [hjdrop] at ht
                have hv' : t.valno ≠ S.valno := by
                  rw [hjv, ← hvI] at hv
                  exact hv
                rcases Hno t (List.mem_of_mem_drop ht) hv' with hc | hc
                · omega
                · exact hc
              obtain ⟨k1, k2, k3⟩ := extendSegmentEndTo_preserves segs1 j S.stop
                segs2 g1 g2 hsafe2 hext
              refine ⟨k1, k2, ?_⟩
              intro t ht
              obtain ⟨u, hu, huv⟩ := k3 t ht
              obtain ⟨w, hw, hwv⟩ := g3 u hu
              have hc := h3 w hw
              show vnConsistent { lr with segments := segs2 } t
              rw [vnConsistent_seg_update]
              unfold vnConsistent
              rw [← huv, ← hwv]
              exact hc
          case isFalse hlt =>
            injection hok2 with hok'
            rw [← hok']
            refine ⟨g1, g2, ?_⟩
            intro t ht
            obtain ⟨w, hw, hwv⟩ := g3 t ht
            have hc := h3 w hw
            show vnConsistent { lr with segments := segs1 } t
            rw [vnConsistent_seg_update]
            unfold vnConsistent
            rw [← hwv]
            exact hc
      case isFalse hIS =>
        injection hok with hok'
        rw [← hok']
        apply hplainInv
        intro q hq
        rw [drop_head _ _ hi0len] at hq
        have hqe : q = lr.segments.getD i0 default := by simpa using hq.symm
        subst hqe
        constructor
        · show S.stop ≤ (lr.segments.getD i0 default).start
          omega
        · intro ht
          exfalso
          have ht' : S.stop = (lr.segments.getD i0 default).start := ht
          omega
    case isFalse hvI =>
      split at hok
      · exact absurd hok (by simp)
      case isFalse hover =>
        injection hok with hok'
        rw [← hok']
        apply hplainInv
        intro q hq
        rw [drop_head _ _ hi0len] at hq
        have hqe : q = lr.segments.getD i0 default := by simpa using hq.symm
        subst hqe
        constructor
        · show S.stop ≤ (lr.segments.getD i0 default).start
          omega
        · intro ht
          show S.valno ≠ (lr.segments.getD i0 default).valno
          exact hvI
  case isFalse hi0len =>
    injection hok with hok'
    rw [← hok']
    apply hplainInv
    intro q hq
    rw [List.drop_eq_nil_of_le (by omega)] at hq
    simp at hq

/-- `addSegment` preserves the `verify` invariants provided the inserted
segment is a proper interval with a table-consistent value number and does
not overlap any segment carrying a different value number. -/
theorem addSegment_preserves (lr : LiveRangeS) (S : Segment) (lr' : LiveRangeS)
    (hinv : lrInvariant lr) (hS : S.start < S.stop) (hSc : vnConsistent lr S)
    (Hno : ∀ t ∈ lr.segments, t.valno ≠ S.valno → t.stop ≤ S.start ∨ S.stop ≤ t.start)
    (hok : addSegment lr S = .ok lr') : lrInvariant lr' := by
  obtain ⟨hub1, hub2, hub3⟩ := upperBoundIdx_spec S.start lr.segments
  obtain ⟨h1, h2, h3⟩ := hinv
  simp only [addSegment, findInsertPos] at hok
  split at hok
  case isTrue hi0 =>
    apply addSegmentTail_preserves lr S _ lr' ⟨h1, h2, h3⟩ hS hSc Hno
      (by intro j hj; rw [hi0] at hj; omega)
      (by intro hlen; exact hub3 hlen)
      (by intro p hp; rw [hi0] at hp; simp at hp)
      hok
  case isFalse hi0 =>
  have hblast : ∀ p ∈ (lr.segments.take (upperBoundIdx S.start lr.segments)).getLast?,
      0 < upperBoundIdx S.start lr.segments ∧
      p = lr.segments.getD (upperBoundIdx S.start lr.segments - 1) default := by
    intro p hp
    by_cases h0 : upperBoundIdx S.start lr.segments = 0
    · rw [h0] at hp
      simp at hp
    · rw [take_getLast _ _ (by omega) (by omega)] at hp
      exact ⟨by omega, by simpa using hp.symm⟩
  split at hok
  case isTrue hvB =>
    split at hok
    case isTrue hBin =>
      cases hext : extendSegmentEndTo lr.segments
          (upperBoundIdx S.start lr.segments - 1) S.stop with
      | error e =>
        rw [hext] at hok
        exact absurd hok (by simp)
      | ok segs' =>
        rw [hext] at hok
        injection hok with hok'
        rw [← hok']
        have hsafe : ∀ t ∈ lr.segments.drop
            ((upperBoundIdx S.start lr.segments - 1) + 1),
            t.valno ≠ (lr.segments.getD
              (upperBoundIdx S.start lr.segments - 1) default).valno →
            S.stop < t.stop → S.stop ≤ t.start := by
          intro t ht hv hlt2
          have hv' : t.valno ≠ S.valno := by
            rw [← hvB] at hv
            exact hv
          rcases Hno t (List.mem_of_mem_drop ht) hv' with hc | hc
          · omega
          · exact hc
        obtain ⟨k1, k2, k3⟩ := extendSegmentEndTo_preserves lr.segments
          (upperBoundIdx S.start lr.segments - 1) S.stop segs' h1 h2 hsafe hext
        refine ⟨k1, k2, ?_⟩
        intro t ht
        obtain ⟨u, hu, huv⟩ := k3 t ht
        have hc := h3 u hu
        show vnConsistent { lr with segments := segs' } t
        rw [vnConsistent_seg_update]
        unfold vnConsistent
        rw [← huv]
        exact hc
    case isFalse hBin =>
      apply addSegmentTail_preserves lr S _ lr' ⟨h1, h2, h3⟩ hS hSc Hno
        (fun j hj => hub2 j hj) (fun hlen => hub3 hlen) ?_ hok
      intro p hp
      obtain ⟨hpos, hpeq⟩ := hblast p hp
      have hBstart : (lr.segments.getD
          (upperBoundIdx S.start lr.segments - 1) default).start ≤ S.start :=
        hub2 _ (by omega)
      have hBstop : (lr.segments.getD
          (upperBoundIdx S.start lr.segments - 1) default).stop < S.start := by
        rcases Nat.lt_or_ge (lr.segments.getD
            (upperBoundIdx S.start lr.segments - 1) default).stop S.start with hc | hc
        · exact hc
        · exact absurd ⟨hBstart, by omega⟩ hBin
      rw [hpeq]
      constructor
      · show (lr.segments.getD
            (upperBoundIdx S.start lr.segments - 1) default).stop ≤ S.start
        omega
      · intro ht
        exfalso
        have ht' : (lr.segments.getD
            (upperBoundIdx S.start lr.segments - 1) default).stop = S.start := ht
        omega
  case isFalse hvB =>
  split at hok
  · exact absurd hok (by simp)
  case isFalse hover =>
    apply addSegmentTail_preserves lr S _ lr' ⟨h1, h2, h3⟩ hS hSc Hno
      (fun j hj => hub2 j hj) (fun hlen => hub3 hlen) ?_ hok
    intro p hp
    obtain ⟨hpos, hpeq⟩ := hblast p hp
    rw [hpeq]
    constructor
    · show (lr.segments.getD
          (upperBoundIdx S.start lr.segments - 1) default).stop ≤ S.start
      omega
    · intro ht
      show (lr.segments.getD
          (upperBoundIdx S.start lr.segments - 1) default).valno ≠ S.valno
      intro hc
      exact hvB hc.symm

/-- Value numbers in the merge loop's output come from the input or are `V2`. -/
theorem mergeV1Loop_valnos (V1 V2 : Nat) (P : Nat → Prop) (hPV2 : P V2) :
    ∀ n (l acc : List Segment), l.length ≤ n →
      (∀ u ∈ acc, P u.valno) → (∀ u ∈ l, P u.valno) →
      ∀ s ∈ mergeV1Loop V1 V2 acc l, P s.valno := by
  intro n
  induction n with
  | zero =>
    intro l acc hl hacc hll s hs
    match l with
    | [] =>
      rw [mergeV1Loop_nil] at hs
      exact hacc s (List.mem_reverse.mp hs)
  | succ n ih =>
    intro l acc hl hacc hll s hs
    match l with
    | [] =>
      rw [mergeV1Loop_nil] at hs
      exact hacc s (List.mem_reverse.mp hs)
    | t :: rest =>
      by_cases hv : t.valno = V1
      case neg =>
        rw [mergeV1Loop_skip _ _ _ _ _ hv] at hs
        refine ih rest (t :: acc) (by simp at hl ⊢; omega) ?_
          (fun u hu => hll u (List.mem_cons_of_mem _ hu)) s hs
        intro u hu
        rcases List.mem_cons.mp hu with rfl | hu'
        exacts [hll u (by simp), hacc u hu']
      case pos =>
        obtain ⟨s1, acc1, hs1v, hacc1sub, heq⟩ :
            ∃ s1 acc1, s1.valno = V2 ∧ (∀ u ∈ acc1, P u.valno) ∧
              mergeV1Loop V1 V2 acc (t :: rest) =
                (match rest with
                 | [] => (s1 :: acc1).reverse
                 | i :: rest' =>
                   if i.start = s1.stop ∧ i.valno = V2 then
                     mergeV1Loop V1 V2 (⟨s1.start, i.stop, V2⟩ :: acc1) rest'
                   else mergeV1Loop V1 V2 (s1 :: acc1) (i :: rest')) := by
          rcases acc with _ | ⟨q, acc'⟩
          · exact ⟨⟨t.start, t.stop, V2⟩, [], rfl, by simp,
              mergeV1Loop_v1 _ _ _ _ _ hv _ _ rfl rfl⟩
          · by_cases hq : q.valno = V2 ∧ q.stop = t.start
            · refine ⟨⟨q.start, t.stop, V2⟩, acc', rfl, ?_,
                mergeV1Loop_v1 _ _ _ _ _ hv _ _ (by simp [hq]) (by simp [hq])⟩
              intro u hu
              exact hacc u (List.mem_cons_of_mem _ hu)
            · exact ⟨⟨t.start, t.stop, V2⟩, q :: acc', rfl, hacc,
                mergeV1Loop_v1 _ _ _ _ _ hv _ _ (by simp [hq]) (by simp [hq])⟩
        rw [heq] at hs
        have hs1P : P s1.valno := by
          rw [hs1v]
          exact hPV2
        match rest with
        | [] =>
          rw [List.mem_reverse] at hs
          rcases List.mem_cons.mp hs with rfl | hs'
          exacts [hs1P, hacc1sub s hs']
        | i :: rest' =>
          have hs : s ∈ (if i.start = s1.stop ∧ i.valno = V2 then
              mergeV1Loop V1 V2 (⟨s1.start, i.stop, V2⟩ :: acc1) rest'
            else mergeV1Loop V1 V2 (s1 :: acc1) (i :: rest')) := hs
          by_cases hf : i.start = s1.stop ∧ i.valno = V2
          · rw [if_pos hf] at hs
            refine ih rest' _ (by simp at hl ⊢; omega) ?_
              (fun u hu => hll u (List.mem_cons_of_mem _ (List.mem_cons_of_mem _ hu)))
              s hs
            intro u hu
            rcases List.mem_cons.mp hu with rfl | hu'
            · exact hPV2
            · exact hacc1sub u hu'
          · rw [if_neg hf] at hs
            refine ih (i :: rest') _ (by simp at hl ⊢; omega) ?_
              (fun u hu => hll u (List.mem_cons_of_mem _ hu)) s hs
            intro u hu
            rcases List.mem_cons.mp hu with rfl | hu'
            exacts [hs1P, hacc1sub u hu']

set_option maxHeartbeats 1000000 in
/-- The merge loop preserves the ordering invariants. -/
theorem mergeV1Loop_chain (V1 V2 : Nat) :
    ∀ n (l acc : List Segment), l.length ≤ n →
      (∀ u ∈ acc, u.start < u.stop) →
      (∀ u ∈ l, u.start < u.stop) →
      acc.Chain' (fun a b => adjOK b a) →
      l.Chain' adjOK →
      (∀ p ∈ acc.head?, ∀ t ∈ l.head?, adjOK p t) →
      ((mergeV1Loop V1 V2 acc l).Chain' adjOK ∧
       ∀ u ∈ mergeV1Loop V1 V2 acc l, u.start < u.stop) := by
  intro n
  induction n with
  | zero =>
    intro l acc hl haccss hlss haccch hlch hbd
    match l with
    | [] =>
      rw [mergeV1Loop_nil]
      exact ⟨List.chain'_reverse.mpr haccch,
        fun u hu => haccss u (List.mem_reverse.mp hu)⟩
  | succ n ih =>
    intro l acc hl haccss hlss haccch hlch hbd
    match l with
    | [] =>
      rw [mergeV1Loop_nil]
      exact ⟨List.chain'_reverse.mpr haccch,
        fun u hu => haccss u (List.mem_reverse.mp hu)⟩
    | t :: rest =>
      have htss : t.start < t.stop := hlss t (by simp)
      have hrestss : ∀ u ∈ rest, u.start < u.stop :=
        fun u hu => hlss u (List.mem_cons_of_mem _ hu)
      have hrestch : rest.Chain' adjOK := (List.chain'_cons'.mp hlch).2
      have htrest : ∀ r ∈ rest.head?, adjOK t r := (List.chain'_cons'.mp hlch).1
      by_cases hv : t.valno = V1
      case neg =>
        rw [mergeV1Loop_skip _ _ _ _ _ hv]
        refine ih rest (t :: acc) (by simp at hl ⊢; omega) ?_ hrestss ?_ hrestch ?_
        · intro u hu
          rcases List.mem_cons.mp hu with rfl | hu'
          exacts [htss, haccss u hu']
        · refine List.chain'_cons'.mpr ⟨?_, haccch⟩
          intro p hp
          exact hbd p hp t rfl
        · intro p hp r hr
          have hpt : t = p := by simpa using hp
          subst hpt
          exact htrest r hr
      case pos =>
        obtain ⟨s1, acc1, heq, hs1v, hs1ss, hs1stop, hs1start, hacc1ss, hacc1ch,
            hacc1hd⟩ :
            ∃ s1 acc1,
              mergeV1Loop V1 V2 acc (t :: rest) =
                (match rest with
                 | [] => (s1 :: acc1).reverse
                 | i :: rest' =>
                   if i.start = s1.stop ∧ i.valno = V2 then
                     mergeV1Loop V1 V2 (⟨s1.start, i.stop, V2⟩ :: acc1) rest'
                   else mergeV1Loop V1 V2 (s1 :: acc1) (i :: rest')) ∧
              s1.valno = V2 ∧ s1.start < s1.stop ∧ s1.stop = t.stop ∧
              s1.start ≤ t.start ∧
              (∀ u ∈ acc1, u.start < u.stop) ∧
              acc1.Chain' (fun a b => adjOK b a) ∧
              (∀ p ∈ acc1.head?, adjOK p s1) := by
          rcases acc with _ | ⟨q, acc'⟩
          · refine ⟨⟨t.start, t.stop, V2⟩, [],
              mergeV1Loop_v1 _ _ _ _ _ hv _ _ rfl rfl, rfl, htss, rfl,
              Nat.le_refl _, by simp, by simp, ?_⟩
            intro p hp
            simp at hp
          · have hqss : q.start < q.stop := haccss q (by simp)
            have hqt : adjOK q t := hbd q rfl t rfl
            by_cases hq : q.valno = V2 ∧ q.stop = t.start
            · refine ⟨⟨q.start, t.stop, V2⟩, acc',
                mergeV1Loop_v1 _ _ _ _ _ hv _ _ (by simp [hq]) (by simp [hq]),
                rfl, by show q.start < t.stop; omega, rfl,
                by show q.start ≤ t.start; omega,
                fun u hu => haccss u (List.mem_cons_of_mem _ hu),
                (List.chain'_cons'.mp haccch).2, ?_⟩
              intro p hp
              have hpq := (List.chain'_cons'.mp haccch).1 p hp
              constructor
              · show p.stop ≤ q.start
                exact hpq.1
              · intro ht
                have ht' : p.stop = q.start := ht
                show p.valno ≠ V2
                rw [← hq.1]
                exact hpq.2 ht'
            · refine ⟨⟨t.start, t.stop, V2⟩, q :: acc',
                mergeV1Loop_v1 _ _ _ _ _ hv _ _ (by simp [hq]) (by simp [hq]),
                rfl, htss, rfl, Nat.le_refl _, haccss, haccch, ?_⟩
              intro p hp
              have hpq : q = p := by simpa using hp
              subst hpq
              constructor
              · show q.stop ≤ t.start
                exact hqt.1
              · intro ht
                have ht' : q.stop = t.start := ht
                show q.valno ≠ V2
                intro hc
                exact hq ⟨hc, ht'⟩
        match rest with
        | [] =>
          have heq2 : mergeV1Loop V1 V2 acc [t] = (s1 :: acc1).reverse := heq
          rw [heq2]
          refine ⟨?_, ?_⟩
          · apply List.chain'_reverse.mpr
            refine List.chain'_cons'.mpr ⟨?_, hacc1ch⟩
            intro p hp
            exact hacc1hd p hp
          · intro u hu
            rw [List.mem_reverse] at hu
            rcases List.mem_cons.mp hu with rfl | hu'
            exacts [hs1ss, hacc1ss u hu']
        | i :: rest' =>
          have hiss : i.start < i.stop := hrestss i (by simp)
          have hti : adjOK t i := htrest i rfl
          have hirest : ∀ r ∈ rest'.head?, adjOK i r :=
            (List.chain'_cons'.mp hrestch).1
          have hrest'ch : rest'.Chain' adjOK := (List.chain'_cons'.mp hrestch).2
          have hrest'ss : ∀ u ∈ rest', u.start < u.stop :=
            fun u hu => hrestss u (List.mem_cons_of_mem _ hu)
          have heq2 : mergeV1Loop V1 V2 acc (t :: i :: rest') =
              (if i.start = s1.stop ∧ i.valno = V2 then
                mergeV1Loop V1 V2 (⟨s1.start, i.stop, V2⟩ :: acc1) rest'
              else mergeV1Loop V1 V2 (s1 :: acc1) (i :: rest')) := heq
          rw [heq2]
          by_cases hf : i.start = s1.stop ∧ i.valno = V2
          · rw [if_pos hf]
            refine ih rest' (⟨s1.start, i.stop, V2⟩ :: acc1)
              (by simp at hl ⊢; omega) ?_ hrest'ss ?_ hrest'ch ?_
            · intro u hu
              rcases List.mem_cons.mp hu with rfl | hu'
              · show s1.start < i.stop
                omega
              · exact hacc1ss u hu'
            · refine List.chain'_cons'.mpr ⟨?_, hacc1ch⟩
              intro p hp
              have hps1 := hacc1hd p hp
              constructor
              · show p.stop ≤ s1.start
                exact hps1.1
              · intro ht
                have ht' : p.stop = s1.start := ht
                show p.valno ≠ V2
                rw [← hs1v]
                exact hps1.2 ht'
            · intro p hp r hr
              have hpm : (⟨s1.start, i.stop, V2⟩ : Segment) = p := by simpa using hp
              subst hpm
              have hir := hirest r hr
              constructor
              · show i.stop ≤ r.start
                exact hir.1
              · intro ht
                have ht' : i.stop = r.start := ht
                show V2 ≠ r.valno
                rw [← hf.2]
                exact hir.2 ht'
          · rw [if_neg hf]
            refine ih (i :: rest') (s1 :: acc1) (by simp at hl ⊢; omega) ?_ hrestss ?_
              hrestch ?_
            · intro u hu
              rcases List.mem_cons.mp hu with rfl | hu'
              exacts [hs1ss, hacc1ss u hu']
            · refine List.chain'_cons'.mpr ⟨?_, hacc1ch⟩
              intro p hp
              exact hacc1hd p hp
            · intro p hp r hr
              have hps : s1 = p := by simpa using hp
              subst hps
              have hri : i = r := by simpa using hr
              subst hri
              constructor
              · show s1.stop ≤ i.start
                rw [hs1stop]
                exact hti.1
              · intro ht
                have ht' : s1.stop = i.start := ht
                show s1.valno ≠ i.valno
                rw [hs1v]
                intro hc
                exact hf ⟨ht'.symm, hc.symm⟩

/-- Invariant preservation for the merge-then-delete core shared by both
swap branches of `MergeValueNumberInto`. -/
theorem mergeFull_preserves (lr1 : LiveRangeS) (W1 W2 : Nat) (hne12 : W1 ≠ W2)
    (h1 : ∀ s ∈ lr1.segments, s.start < s.stop)
    (h2 : lr1.segments.Chain' adjOK)
    (h3 : ∀ s ∈ lr1.segments, vnConsistent lr1 s)
    (hW2c : vnConsistent lr1 ⟨0, 0, W2⟩)
    (hW2u : (vn lr1 W2).unusedFlag = false)
    (hflags : ∀ s ∈ lr1.segments, (vn lr1 s.valno).unusedFlag = false)
    (hW1rt : lr1.valnos.getD (vn lr1 W1).id 0 = W1) :
    lrInvariant (markValNoForDeletion
      { lr1 with segments := mergeV1Loop W1 W2 [] lr1.segments } W1) := by
  have hch := mergeV1Loop_chain W1 W2 lr1.segments.length lr1.segments [] le_rfl
    (by intro u hu; simp at hu) h1 (by simp) h2
    (by intro p hp; simp at hp)
  apply markValNo_preserves
  · refine ⟨hch.2, hch.1, ?_⟩
    intro s hs
    exact mergeV1Loop_valnos W1 W2 (fun x => vnConsistent lr1 ⟨0, 0, x⟩) hW2c
      lr1.segments.length lr1.segments [] le_rfl (by intro u hu; simp at hu)
      (fun u hu => h3 u hu) s hs
  · intro s hs
    exact mergeV1Loop_valnos W1 W2 (fun x => (vn lr1 x).unusedFlag = false) hW2u
      lr1.segments.length lr1.segments [] le_rfl (by intro u hu; simp at hu)
      hflags s hs
  · exact mergeV1Loop_noV1 W1 W2 hne12 lr1.segments.length lr1.segments [] le_rfl
      (by intro u hu; simp at hu)
  · exact hW1rt

/-- `MergeValueNumberInto` preserves the `verify` invariants provided both
handles are live table entries and the target value number is not flagged
unused. -/
theorem MergeValueNumberInto_preserves (lr : LiveRangeS) (V1 V2 : Nat)
    (lr' : LiveRangeS) (W : Nat)
    (hinv : lrInvariant lr) (hunused : unusedNotReferenced lr)
    (hV1lt : V1 < lr.arena.length) (hV2lt : V2 < lr.arena.length)
    (hV1id : (vn lr V1).id < lr.valnos.length)
    (hV2id : (vn lr V2).id < lr.valnos.length)
    (hV1rt : lr.valnos.getD (vn lr V1).id 0 = V1)
    (hV2rt : lr.valnos.getD (vn lr V2).id 0 = V2)
    (hV2u : (vn lr V2).unusedFlag = false)
    (hok : MergeValueNumberInto lr V1 V2 = .ok (lr', W)) : lrInvariant lr' := by
  obtain ⟨h1, h2, h3⟩ := hinv
  simp only [MergeValueNumberInto] at hok
  split at hok
  · exact absurd hok (by simp)
  case isFalse hne =>
  by_cases hid : (vn lr V1).id < (vn lr V2).id
  · rw [if_pos hid] at hok
    have hok2 : (Except.ok (markValNoForDeletion
        { setVN lr V1 (fun a =>
            { a with vdef := (vn lr V2).vdef, unusedFlag := (vn lr V2).unusedFlag,
                     phiDef := (vn lr V2).phiDef }) with
          segments := mergeV1Loop V2 V1 [] lr.segments } V2, V1)
        : Except AssertErr (LiveRangeS × Nat)) = .ok (lr', W) := hok
    injection hok2 with hok3
    injection hok3 with ha hb
    rw [← ha]
    apply mergeFull_preserves
    · exact fun hc => hne hc.symm
    · exact h1
    · exact h2
    · intro s hs
      refine vnConsistent_setVN lr V1 (fun a =>
        { a with vdef := (vn lr V2).vdef, unusedFlag := (vn lr V2).unusedFlag,
                 phiDef := (vn lr V2).phiDef }) (fun v => rfl) s ?_
      exact h3 s hs
    · refine vnConsistent_setVN lr V1 (fun a =>
        { a with vdef := (vn lr V2).vdef, unusedFlag := (vn lr V2).unusedFlag,
                 phiDef := (vn lr V2).phiDef }) (fun v => rfl) _ ?_
      exact ⟨hV1lt, hV1id, hV1rt⟩
    · show (vn (setVN lr V1 _) V1).unusedFlag = false
      rw [vn_setVN_self lr V1 hV1lt]
      exact hV2u
    · intro s hs
      by_cases hsv : s.valno = V1
      · rw [hsv, vn_setVN_self lr V1 hV1lt]
        exact hV2u
      · rw [vn_setVN_ne lr V1 s.valno (fun hc => hsv hc.symm)]
        exact hunused s hs
    · show (setVN lr V1 _).valnos.getD (vn (setVN lr V1 _) V2).id 0 = V2
      rw [vn_setVN_ne lr V1 V2 hne]
      exact hV2rt
  · rw [if_neg hid] at hok
    have hok2 : (Except.ok (markValNoForDeletion
        { lr with segments := mergeV1Loop V1 V2 [] lr.segments } V1, V2)
        : Except AssertErr (LiveRangeS × Nat)) = .ok (lr', W) := hok
    injection hok2 with hok3
    injection hok3 with ha hb
    rw [← ha]
    apply mergeFull_preserves
    · exact hne
    · exact h1
    · exact h2
    · exact h3
    · exact ⟨hV2lt, hV2id, hV2rt⟩
    · exact hV2u
    · exact hunused
    · exact hV1rt

/-! ## Invariant preservation of `join` -/

/-- The spill-coalescing and insertion tail of `LiveRangeUpdater::add`
(lines 1058-1077), factored out for the dirty-marker bookkeeping proofs. -/
def updAddFinish (seg1 : Segment) (u : LiveRangeUpdater) :
    Except AssertErr LiveRangeUpdater := do
  let (seg, u) ←
    match u.spills.getLast? with
    | some sb => do
      let c ← coalescable sb seg1
      if c then
        pure ({ seg1 with start := sb.start, stop := max sb.stop seg1.stop },
              { u with spills := u.spills.dropLast })
      else pure (seg1, u)
    | none => pure (seg1, u)
  if u.writeI ≠ 0 then
    let wm1 := u.lr.segments.getD (u.writeI - 1) default
    let c ← coalescable wm1 seg
    if c then
      return { u with lr := { u.lr with
        segments := u.lr.segments.set (u.writeI - 1) { wm1 with stop := max wm1.stop seg.stop } } }
  if u.writeI ≠ u.readI then
    return { u with lr := { u.lr with segments := u.lr.segments.set u.writeI seg },
                    writeI := u.writeI + 1 }
  if u.writeI = u.lr.segments.length then
    let segs' := u.lr.segments ++ [seg]
    return { u with lr := { u.lr with segments := segs' },
                    writeI := segs'.length, readI := segs'.length }
  else
    return { u with spills := u.spills ++ [seg] }

/-- `LiveRangeUpdater::add` from the ReadI-consistency assert on
(lines 1043-1077), with the updater state after the ReadI advance as an
explicit argument. -/
def updAddTail2 (seg0 : Segment) (u : LiveRangeUpdater) :
    Except AssertErr LiveRangeUpdater := do
  if u.readI < u.lr.segments.length ∧
      (u.lr.segments.getD u.readI default).stop ≤ seg0.start then
    throw .updaterInternal
  let (seg, u) ←
    if u.readI < u.lr.segments.length ∧
        (u.lr.segments.getD u.readI default).start ≤ seg0.start then do
      let rseg := u.lr.segments.getD u.readI default
      if rseg.valno ≠ seg0.valno then throw .overlapDifferentValues
      if seg0.stop ≤ rseg.stop then return u
      pure ({ seg0 with start := rseg.start }, { u with readI := u.readI + 1 })
    else pure (seg0, u)
  let (seg, r') ← updCoalesceLoop (u.lr.segments.length - u.readI) u.lr seg u.readI
  let u : LiveRangeUpdater := { u with readI := r' }
  updAddFinish seg u

set_option maxHeartbeats 1000000 in
theorem updAddFinish_lastStart {seg1 : Segment} {u u1 : LiveRangeUpdater}
    (hok : updAddFinish seg1 u = .ok u1) : u1.lastStart = u.lastStart := by
  unfold updAddFinish at hok
  simp only [bind, Except.bind, pure, Except.pure] at hok
  repeat' split at hok
  all_goals try exact Except.noConfusion hok
  all_goals (injection hok with h; rw [← h])

set_option maxHeartbeats 1000000 in
theorem updAddTail2_lastStart {seg0 : Segment} {u u1 : LiveRangeUpdater}
    (hok : updAddTail2 seg0 u = .ok u1) : u1.lastStart = u.lastStart := by
  unfold updAddTail2 at hok
  simp only [bind, Except.bind, pure, Except.pure] at hok
  repeat' split at hok
  all_goals try exact Except.noConfusion hok
  all_goals try (injection hok with h; rw [← h])
  all_goals rw [updAddFinish_lastStart hok]


set_option maxHeartbeats 1000000 in
theorem updAdd_lastStart {u0 : LiveRangeUpdater} {seg0 : Segment}
    {u1 : LiveRangeUpdater} (hok : updAdd u0 seg0 = .ok u1) :
    u1.lastStart = some seg0.start := by
  unfold updAdd at hok
  simp only [bind, Except.bind, pure, Except.pure] at hok
  split at hok
  case _ heq =>
    by_cases h1 : 0 < u0.lr.segments.length ∧ (u0.lr.segments.getD 0 default).stop ≤ seg0.start
    · rw [if_pos h1, if_neg (by decide), if_pos trivial] at hok
      have hok2 : updAddTail2 seg0 ⟨u0.lr, some seg0.start,
          find u0.lr.segments seg0.start, find u0.lr.segments seg0.start, u0.spills⟩
          = .ok u1 := hok
      rw [updAddTail2_lastStart hok2]
    · rw [if_neg h1] at hok
      have hok2 : updAddTail2 seg0 ⟨u0.lr, some seg0.start, 0, 0, u0.spills⟩
          = .ok u1 := hok
      rw [updAddTail2_lastStart hok2]
  case _ ls heq =>
    by_cases hls : seg0.start < ls
    · rw [if_pos hls] at hok
      cases hF : updFlush u0 with
      | error e => rw [hF] at hok; exact Except.noConfusion hok
      | ok v =>
        rw [hF] at hok
        simp only [] at hok
        by_cases hsp : v.spills.isEmpty = true
        case neg => rw [if_pos (by simpa using hsp)] at hok; exact Except.noConfusion hok
        case pos =>
        rw [if_neg (by simpa using hsp)] at hok
        by_cases h1 : 0 < v.lr.segments.length ∧ (v.lr.segments.getD 0 default).stop ≤ seg0.start
        · rw [if_pos h1, if_neg (by decide), if_pos trivial] at hok
          have hok2 : updAddTail2 seg0 ⟨v.lr, some seg0.start,
              find v.lr.segments seg0.start, find v.lr.segments seg0.start, v.spills⟩
              = .ok u1 := hok
          rw [updAddTail2_lastStart hok2]
        · rw [if_neg h1] at hok
          have hok2 : updAddTail2 seg0 ⟨v.lr, some seg0.start, 0, 0, v.spills⟩
              = .ok u1 := hok
          rw [updAddTail2_lastStart hok2]
    · rw [if_neg hls] at hok
      by_cases h1 : u0.readI < u0.lr.segments.length ∧
          (u0.lr.segments.getD u0.readI default).stop ≤ seg0.start
      case neg =>
        rw [if_neg h1] at hok
        have hok2 : updAddTail2 seg0 ⟨u0.lr, some seg0.start, u0.writeI, u0.readI, u0.spills⟩
            = .ok u1 := hok
        rw [updAddTail2_lastStart hok2]
      case pos =>
      rw [if_pos h1] at hok
      by_cases hrw : u0.readI = u0.writeI
      case pos =>
        rw [if_neg (not_not_intro hrw), if_pos hrw] at hok
        have hok2 : updAddTail2 seg0 ⟨u0.lr, some seg0.start,
            find u0.lr.segments seg0.start, find u0.lr.segments seg0.start, u0.spills⟩
            = .ok u1 := hok
        rw [updAddTail2_lastStart hok2]
      case neg =>
      rw [if_pos hrw] at hok
      cases hms : mergeSpills ⟨u0.lr, some seg0.start, u0.writeI, u0.readI, u0.spills⟩ with
      | error e => rw [hms] at hok; exact Except.noConfusion hok
      | ok v =>
        rw [hms] at hok
        simp only [] at hok
        have hvls : v.lastStart = some seg0.start := mergeSpills_lastStart hms
        by_cases hv : v.readI = v.writeI
        case pos =>
          rw [if_pos hv] at hok
          have hok2 : updAddTail2 seg0 ⟨v.lr, v.lastStart,
              find v.lr.segments seg0.start, find v.lr.segments seg0.start, v.spills⟩
              = .ok u1 := hok
          rw [updAddTail2_lastStart hok2]
          exact hvls
        case neg =>
          rw [if_neg hv] at hok
          rcases hAL : updAdvanceLoop (v.lr.segments.length - v.readI) v.lr v.writeI v.readI
              seg0.start with ⟨lr2, w2, r2⟩
          rw [hAL] at hok
          simp only [] at hok
          have hok2 : updAddTail2 seg0 ⟨lr2, v.lastStart, w2, r2, v.spills⟩ = .ok u1 := hok
          rw [updAddTail2_lastStart hok2]
          exact hvls


theorem getD_some_mem {α : Type} (l : List (Option α)) (n : Nat) (v : α)
    (h : l.getD n none = some v) : some v ∈ l := by
  by_cases hn : n < l.length
  · rw [getD_eq_getElem l none n hn] at h
    rw [← h]
    exact List.getElem_mem hn
  · rw [List.getD_eq_default l none (by omega)] at h
    exact absurd h (by simp)

theorem rewriteOtherSegs_ne_nil {f : Nat → Option Nat} {s : Segment}
    {rest l : List Segment} (h : rewriteOtherSegs f (s :: rest) = .ok l) :
    l ≠ [] := by
  simp only [rewriteOtherSegs] at h
  cases hf : f s.valno with
  | none => rw [hf] at h; exact Except.noConfusion h
  | some v =>
    rw [hf] at h
    simp only [] at h
    cases hr : rewriteOtherSegs f rest with
    | error e => rw [hr] at h; exact Except.noConfusion h
    | ok l2 =>
      rw [hr] at h
      have h2 : Except.ok ({ s with valno := v } :: l2) = Except.ok l := h
      injection h2 with h3
      rw [← h3]
      simp

theorem streamAdds_lastStart : ∀ (l : List Segment) (u u1 : LiveRangeUpdater),
    streamAdds u l = .ok u1 → l ≠ [] → u1.lastStart.isSome = true := by
  intro l
  induction l with
  | nil => intro u u1 h hne; exact absurd rfl hne
  | cons s rest ih =>
    intro u u1 h hne
    simp only [streamAdds, bind, Except.bind] at h
    cases hA : updAdd u s with
    | error e => rw [hA] at h; exact Except.noConfusion h
    | ok u2 =>
      rw [hA] at h
      cases rest with
      | nil =>
        have h2 : Except.ok u2 = Except.ok u1 := h
        injection h2 with h3
        rw [← h3, updAdd_lastStart hA]
        rfl
      | cons t ts => exact ih u2 u1 h (by simp)

/-- A `flush` of a dirty updater that returns `ok` has verified the resulting
range. -/
theorem updFlush_dirty_verified {u u1 : LiveRangeUpdater}
    (hd : u.lastStart.isSome = true) (hok : updFlush u = .ok u1) :
    lrInvariant u1.lr := by
  unfold updFlush at hok
  split at hok
  · rename_i hclean
    rw [show u.isDirty = true from hd] at hclean
    exact absurd rfl hclean
  · split at hok
    · split at hok
      · rename_i hver
        injection hok with h2
        rw [← h2]
        exact (verifyLR_iff _).mp hver
      · exact Except.noConfusion hok
    · split at hok
      · exact Except.noConfusion hok
      · rename_i u4 heq
        split at hok
        · rename_i hver
          injection hok with h2
          rw [← h2]
          exact (verifyLR_iff _).mp hver
        · exact Except.noConfusion hok


/-- The rewrite loop of `join` preserves proper intervals, the adjacency
invariant and membership of the mapped value numbers in any predicate closed
under the mapping, and its output starts where the accumulator starts. -/
theorem joinRewriteGo_ok (f : Nat → Option Nat) (P : Nat → Prop) :
    ∀ (l : List Segment) (cur : Segment) (out : List Segment),
    joinRewriteGo f cur l = .ok out →
    cur.start < cur.stop → P cur.valno →
    (∀ s ∈ l, s.start < s.stop) → l.Chain' adjOK →
    (∀ s ∈ l, ∀ v, f s.valno = some v → P v) →
    (∀ i ∈ l.head?, cur.stop ≤ i.start) →
    (∀ t ∈ out, t.start < t.stop) ∧ out.Chain' adjOK ∧ (∀ t ∈ out, P t.valno) ∧
    ∃ hd tl, out = hd :: tl ∧ hd.start = cur.start ∧ hd.valno = cur.valno := by
  intro l
  induction l with
  | nil =>
    intro cur out hok h1 h2 h3 h4 h5 h6
    have h7 : Except.ok [cur] = Except.ok out := hok
    injection h7 with h8
    rw [← h8]
    exact ⟨by simpa using h1, by simp, by simpa using h2, cur, [], rfl, rfl, rfl⟩
  | cons i rest ih =>
    intro cur out hok h1 h2 h3 h4 h5 h6
    simp only [joinRewriteGo] at hok
    cases hf : f i.valno with
    | none => rw [hf] at hok; exact Except.noConfusion hok
    | some v =>
      rw [hf] at hok
      simp only [] at hok
      have histp : i.start < i.stop := h3 i (List.mem_cons_self _ _)
      have hcs : cur.stop ≤ i.start := h6 i rfl
      by_cases hm : cur.valno = v ∧ cur.stop = i.start
      · rw [if_pos hm] at hok
        have hrec := ih { cur with stop := i.stop } out hok
          (by show cur.start < i.stop; omega) h2
          (fun s hs => h3 s (List.mem_cons_of_mem _ hs))
          (List.chain'_cons'.mp h4).2
          (fun s hs v' hv' => h5 s (List.mem_cons_of_mem _ hs) v' hv')
          (by
            intro r hr
            show i.stop ≤ r.start
            exact ((List.chain'_cons'.mp h4).1 r hr).1)
        obtain ⟨ha, hb, hc, hd, tl, hout, hhd, hhv⟩ := hrec
        exact ⟨ha, hb, hc, hd, tl, hout, hhd, hhv⟩
      · rw [if_neg hm] at hok
        cases hr : joinRewriteGo f ⟨i.start, i.stop, v⟩ rest with
        | error e => rw [hr] at hok; exact Except.noConfusion hok
        | ok l2 =>
          rw [hr] at hok
          have hok2 : Except.ok (cur :: l2) = Except.ok out := hok
          injection hok2 with h8
          have hrec := ih ⟨i.start, i.stop, v⟩ l2 hr histp
            (h5 i (List.mem_cons_self _ _) v hf)
            (fun s hs => h3 s (List.mem_cons_of_mem _ hs))
            (List.chain'_cons'.mp h4).2
            (fun s hs v' hv' => h5 s (List.mem_cons_of_mem _ hs) v' hv')
            (by
              intro r hr2
              show i.stop ≤ r.start
              exact ((List.chain'_cons'.mp h4).1 r hr2).1)
          obtain ⟨ha, hb, hc, hd, tl, hout, hhd, hhv⟩ := hrec
          rw [← h8]
          refine ⟨?_, ?_, ?_, cur, l2, rfl, rfl, rfl⟩
          · intro t ht
            rcases List.mem_cons.mp ht with h | h
            · rw [h]; exact h1
            · exact ha t h
          · rw [List.chain'_cons']
            refine ⟨?_, hb⟩
            intro y hy
            rw [hout] at hy
            have hy2 : y = hd := by symm; simpa using hy
            rw [hy2]
            constructor
            · rw [hhd]; exact hcs
            · intro htouch
              rw [hhv]
              intro hcv
              show False
              have : cur.stop = i.start := by rw [← hhd]; exact htouch
              exact hm ⟨hcv, this⟩
          · intro t ht
            rcases List.mem_cons.mp ht with h | h
            · rw [h]; exact h2
            · exact hc t h

/-- Entry of the rewrite loop: the output satisfies the ordering invariants
and every output value number is in the image of the mapping. -/
theorem joinRewrite_ok (f : Nat → Option Nat) (l out : List Segment)
    (hok : joinRewrite f l = .ok out)
    (h1 : ∀ s ∈ l, s.start < s.stop) (h2 : l.Chain' adjOK) :
    (∀ t ∈ out, t.start < t.stop) ∧ out.Chain' adjOK ∧
    ∀ t ∈ out, ∃ x, f x = some t.valno := by
  cases l with
  | nil =>
    have h3 : Except.ok ([] : List Segment) = Except.ok out := hok
    injection h3 with h4
    rw [← h4]
    exact ⟨by simp, by simp, by simp⟩
  | cons s rest =>
    simp only [joinRewrite] at hok
    cases hf : f s.valno with
    | none => rw [hf] at hok; exact Except.noConfusion hok
    | some v =>
      rw [hf] at hok
      simp only [] at hok
      have hrec := joinRewriteGo_ok f (fun w => ∃ x, f x = some w) rest
        ⟨s.start, s.stop, v⟩ out hok (h1 s (List.mem_cons_self _ _))
        ⟨s.valno, hf⟩
        (fun t ht => h1 t (List.mem_cons_of_mem _ ht))
        (List.chain'_cons'.mp h2).2
        (fun t ht v' hv' => ⟨t.valno, hv'⟩)
        (by
          intro r hr2
          show s.stop ≤ r.start
          exact ((List.chain'_cons'.mp h2).1 r hr2).1)
      exact ⟨hrec.1, hrec.2.1, hrec.2.2.1⟩


theorem writeOrPush_length (l : List Nat) (k x : Nat) (hk : k ≤ l.length) :
    k + 1 ≤ (writeOrPush l k x).length ∧ l.length ≤ (writeOrPush l k x).length := by
  unfold writeOrPush
  by_cases h : k < l.length
  · rw [if_pos h]; simp; omega
  · rw [if_neg h]; simp; omega

theorem writeOrPush_getD_self (l : List Nat) (k x : Nat) (hk : k ≤ l.length) :
    (writeOrPush l k x).getD k 0 = x := by
  unfold writeOrPush
  by_cases h : k < l.length
  · rw [if_pos h]
    rw [getD_eq_getElem _ 0 k (by simpa using h)]
    simp [List.getElem_set_self]
  · rw [if_neg h]
    have hkl : k = l.length := by omega
    rw [getD_eq_getElem _ 0 k (by simp; omega)]
    simp [hkl]

theorem writeOrPush_getD_lt (l : List Nat) (k x i : Nat) (hi : i < k)
    (hk : k ≤ l.length) : (writeOrPush l k x).getD i 0 = l.getD i 0 := by
  unfold writeOrPush
  by_cases h : k < l.length
  · rw [if_pos h]
    rw [getD_eq_getElem _ 0 i (by simp; omega), getD_eq_getElem l 0 i (by omega)]
    rw [List.getElem_set_ne (by omega)]
  · rw [if_neg h]
    exact getD_append_left l [x] 0 i (by omega)


/-- The VN-table rebuild loop: segments and arena size are untouched, the
table grows to cover the written prefix, and every handle that is either a
non-null entry of the remaining `NewVNInfo` or was already written below `k`
round-trips through the rebuilt table. -/
theorem joinRebuildGo_spec : ∀ (nv : List (Option Nat)) (lr : LiveRangeS) (k : Nat),
    (∀ o ∈ nv, ∀ h, o = some h → h < lr.arena.length) →
    k ≤ lr.valnos.length →
    (joinRebuildGo nv lr k).segments = lr.segments ∧
    (joinRebuildGo nv lr k).arena.length = lr.arena.length ∧
    k + (nv.filterMap id).length ≤ (joinRebuildGo nv lr k).valnos.length ∧
    ∀ x : Nat,
      (some x ∈ nv ∨
        ((vn lr x).id < k ∧ lr.valnos.getD (vn lr x).id 0 = x ∧ x < lr.arena.length)) →
      ((vn (joinRebuildGo nv lr k) x).id < k + (nv.filterMap id).length ∧
       (joinRebuildGo nv lr k).valnos.getD (vn (joinRebuildGo nv lr k) x).id 0 = x ∧
       x < (joinRebuildGo nv lr k).arena.length) := by
  intro nv
  induction nv with
  | nil =>
    intro lr k _ hk
    refine ⟨rfl, rfl, by simpa using hk, ?_⟩
    intro x hx
    rcases hx with hx | hx
    · exact absurd hx (by simp)
    · exact ⟨by simpa using hx.1, hx.2.1, hx.2.2⟩
  | cons o rest ih =>
    intro lr k Harena hk
    cases o with
    | none =>
      have ih2 := ih lr k (fun o ho h hh => Harena o (List.mem_cons_of_mem _ ho) h hh) hk
      refine ⟨ih2.1, ih2.2.1, by simpa using ih2.2.2.1, ?_⟩
      intro x hx
      have hx2 : some x ∈ rest ∨
          ((vn lr x).id < k ∧ lr.valnos.getD (vn lr x).id 0 = x ∧ x < lr.arena.length) := by
        rcases hx with hx | hx
        · rcases List.mem_cons.mp hx with h | h
          · exact absurd h (by simp)
          · exact Or.inl h
        · exact Or.inr hx
      have := ih2.2.2.2 x hx2
      refine ⟨by simpa using this.1, this.2.1, this.2.2⟩
    | some h =>
      have hlen : h < lr.arena.length := Harena (some h) (List.mem_cons_self _ _) h rfl
      set lr2 := setVN { lr with valnos := writeOrPush lr.valnos k h } h
        (fun v => { v with id := k }) with hlr2
      have harena2 : lr2.arena.length = lr.arena.length := by
        simp [hlr2, setVN]
      have hseg2 : lr2.segments = lr.segments := rfl
      have hval2 : lr2.valnos = writeOrPush lr.valnos k h := rfl
      have hk2 : k + 1 ≤ lr2.valnos.length := by
        rw [hval2]
        exact (writeOrPush_length lr.valnos k h hk).1
      have hgo : joinRebuildGo (some h :: rest) lr k = joinRebuildGo rest lr2 (k + 1) := rfl
      have hvn_self : vn lr2 h = { vn lr h with id := k } := by
        rw [hlr2, vn_setVN_self { lr with valnos := writeOrPush lr.valnos k h } h
          (by simpa using hlen)]
        rfl
      have hvn_ne : ∀ y, y ≠ h → vn lr2 y = vn lr y := by
        intro y hy
        rw [hlr2, vn_setVN_ne { lr with valnos := writeOrPush lr.valnos k h } h y
          (fun hc => hy hc.symm)]
        rfl
      have hwritten2 : ∀ x : Nat,
          ((vn lr x).id < k ∧ lr.valnos.getD (vn lr x).id 0 = x ∧ x < lr.arena.length) ∨ x = h →
          ((vn lr2 x).id < k + 1 ∧ lr2.valnos.getD (vn lr2 x).id 0 = x ∧
           x < lr2.arena.length) := by
        intro x hx
        by_cases hxh : x = h
        · rw [hxh, hvn_self]
          refine ⟨by simp, ?_, by rw [harena2]; exact hlen⟩
          show (writeOrPush lr.valnos k h).getD k 0 = h
          exact writeOrPush_getD_self lr.valnos k h hk
        · rcases hx with hx | hx
          · rw [hvn_ne x hxh]
            refine ⟨by omega, ?_, by rw [harena2]; exact hx.2.2⟩
            rw [hval2, writeOrPush_getD_lt lr.valnos k h (vn lr x).id hx.1 hk]
            exact hx.2.1
          · exact absurd hx hxh
      have ih2 := ih lr2 (k + 1)
        (by
          intro o ho hh hoh
          rw [harena2]
          exact Harena o (List.mem_cons_of_mem _ ho) hh hoh)
        hk2
      have hcount : ((some h :: rest).filterMap id).length = (rest.filterMap id).length + 1 := by
        simp
      refine ⟨by rw [hgo, ih2.1, hseg2], by rw [hgo, ih2.2.1, harena2], ?_, ?_⟩
      · rw [hgo, hcount]
        have := ih2.2.2.1
        omega
      · intro x hx
        rw [hgo]
        have hx2 : some x ∈ rest ∨
            ((vn lr2 x).id < k + 1 ∧ lr2.valnos.getD (vn lr2 x).id 0 = x ∧
             x < lr2.arena.length) := by
          rcases hx with hx | hx
          · rcases List.mem_cons.mp hx with hh | hh
            · have hxh : x = h := by injection hh
              exact Or.inr (hwritten2 x (Or.inr hxh))
            · exact Or.inl hh
          · exact Or.inr (hwritten2 x (Or.inl hx))
        have := ih2.2.2.2 x hx2
        refine ⟨?_, this.2.1, this.2.2⟩
        rw [hcount]
        have h1 := this.1
        omega


theorem getD_take {α : Type} (l : List α) (m i : Nat) (d : α) (hi : i < m) :
    (l.take m).getD i d = l.getD i d := by
  by_cases h : i < l.length
  · rw [getD_eq_getElem _ d i (by simp; omega), getD_eq_getElem l d i h]
    simp [List.getElem_take]
  · rw [List.getD_eq_default _ _ (by simp; omega), List.getD_eq_default _ _ (by omega)]

/-- The VN-table rebuild produces a range satisfying the `verify` invariants
whenever the incoming segments do and each live value number appears as a
non-null entry of `NewVNInfo` bounded by the arena. -/
theorem joinRebuildValnos_invariant (lrA : LiveRangeS) (nv : List (Option Nat))
    (hss : ∀ s ∈ lrA.segments, s.start < s.stop)
    (hch : lrA.segments.Chain' adjOK)
    (hmem : ∀ s ∈ lrA.segments, some s.valno ∈ nv)
    (Harena : ∀ o ∈ nv, ∀ h, o = some h → h < lrA.arena.length) :
    lrInvariant (joinRebuildValnos lrA nv) := by
  obtain ⟨hseg, harena, hlen, hx⟩ := joinRebuildGo_spec nv lrA 0 Harena (Nat.zero_le _)
  have hcount : (nv.filterMap id).length ≤ nv.length := List.length_filterMap_le id nv
  unfold joinRebuildValnos
  show lrInvariant (if nv.length < lrA.valnos.length then
    { joinRebuildGo nv lrA 0 with
        valnos := (joinRebuildGo nv lrA 0).valnos.take nv.length }
    else joinRebuildGo nv lrA 0)
  split
  case isTrue hlt =>
    refine ⟨?_, ?_, ?_⟩
    · show ∀ s ∈ (joinRebuildGo nv lrA 0).segments, s.start < s.stop
      rw [hseg]; exact hss
    · show ((joinRebuildGo nv lrA 0).segments).Chain' adjOK
      rw [hseg]; exact hch
    · intro s hs
      have hs2 : s ∈ lrA.segments := by rw [← hseg]; exact hs
      obtain ⟨hid, hrt, har⟩ := hx s.valno (Or.inl (hmem s hs2))
      have hid2 : (vn (joinRebuildGo nv lrA 0) s.valno).id < (nv.filterMap id).length := by
        omega
      refine ⟨har, ?_, ?_⟩
      · show (vn (joinRebuildGo nv lrA 0) s.valno).id <
          ((joinRebuildGo nv lrA 0).valnos.take nv.length).length
        simp only [List.length_take]
        omega
      · show ((joinRebuildGo nv lrA 0).valnos.take nv.length).getD
            (vn (joinRebuildGo nv lrA 0) s.valno).id 0 = s.valno
        rw [getD_take _ _ _ _ (by omega)]
        exact hrt
  case isFalse hge =>
    refine ⟨?_, ?_, ?_⟩
    · rw [hseg]; exact hss
    · rw [hseg]; exact hch
    · intro s hs
      have hs2 : s ∈ lrA.segments := by rw [← hseg]; exact hs
      obtain ⟨hid, hrt, har⟩ := hx s.valno (Or.inl (hmem s hs2))
      exact ⟨har, by omega, hrt⟩

/-- When the `MustMapCurValNos` scan comes back false, every table index is
fixed by the assignment and a non-null `NewVNInfo` entry at that index is the
table entry itself. -/
theorem mustMap_false_spec (lr : LiveRangeS) (a : List Nat) (nv : List (Option Nat))
    (hmm : mustMapCurValNos lr a nv = false) (i : Nat) (hi : i < lr.valnos.length) :
    a.getD i 0 = i ∧ ∀ h, nv.getD i none = some h → h = lr.valnos.getD i 0 := by
  unfold mustMapCurValNos at hmm
  rw [List.any_eq_false] at hmm
  have h1 := hmm i (List.mem_range.mpr hi)
  have h2 : ¬ ((decide (i ≠ a.getD i 0) ||
      (match nv.getD (a.getD i 0) none with
       | some h => decide (h ≠ lr.valnos.getD i 0)
       | none => false)) = true) := h1
  rw [Bool.or_eq_true] at h2
  push_neg at h2
  obtain ⟨h3, h4⟩ := h2
  have hai : a.getD i 0 = i := by
    by_contra hc
    exact h3 (decide_eq_true (fun he => hc he.symm))
  refine ⟨hai, ?_⟩
  intro h hh
  rw [hai, hh] at h4
  by_contra hc
  exact h4 (decide_eq_true hc)


/-- The tail of `join` after the value-number mapping decisions: rewrite the
other range's segments, rebuild the VN table, stream the additions and
flush. -/
theorem join_rest_preserves (lrA : LiveRangeS) (otherSegments : List Segment)
    (rhsAssign : List Nat) (nv : List (Option Nat)) (lr' : LiveRangeS)
    (hinvB : lrInvariant (joinRebuildValnos lrA nv))
    (hok : (do
        let otherSegs' ← rewriteOtherSegs (joinMapVN rhsAssign nv lrA) otherSegments
        let u ← streamAdds ⟨joinRebuildValnos lrA nv, none, 0, 0, []⟩ otherSegs'
        let u ← updFlush u
        pure u.lr : Except AssertErr LiveRangeS) = .ok lr') :
    lrInvariant lr' := by
  simp only [bind, Except.bind, pure, Except.pure] at hok
  cases hro : rewriteOtherSegs (joinMapVN rhsAssign nv lrA) otherSegments with
  | error e => rw [hro] at hok; exact Except.noConfusion hok
  | ok l =>
    rw [hro] at hok
    simp only [] at hok
    cases hsa : streamAdds ⟨joinRebuildValnos lrA nv, none, 0, 0, []⟩ l with
    | error e => rw [hsa] at hok; exact Except.noConfusion hok
    | ok u =>
      rw [hsa] at hok
      simp only [] at hok
      cases hfl : updFlush u with
      | error e => rw [hfl] at hok; exact Except.noConfusion hok
      | ok u2 =>
        rw [hfl] at hok
        have hok2 : Except.ok u2.lr = Except.ok lr' := hok
        injection hok2 with h3
        rw [← h3]
        cases otherSegments with
        | nil =>
          have hro2 : Except.ok ([] : List Segment) = Except.ok l := hro
          injection hro2 with h4
          rw [← h4] at hsa
          have hsa2 : Except.ok (⟨joinRebuildValnos lrA nv, none, 0, 0, []⟩ :
              LiveRangeUpdater) = Except.ok u := hsa
          injection hsa2 with h5
          rw [← h5] at hfl
          have hfl2 : Except.ok (⟨joinRebuildValnos lrA nv, none, 0, 0, []⟩ :
              LiveRangeUpdater) = Except.ok u2 := hfl
          injection hfl2 with h6
          rw [← h6]
          exact hinvB
        | cons o os =>
          have hne : l ≠ [] := rewriteOtherSegs_ne_nil hro
          have hdirty := streamAdds_lastStart l _ u hsa hne
          exact updFlush_dirty_verified hdirty hfl

/-- `join` preserves the `verify` invariants provided every live value number
of the left range maps to a non-null `NewVNInfo` entry and the entries of
`NewVNInfo` are live arena handles. -/
theorem join_preserves (lr : LiveRangeS) (otherSegments : List Segment)
    (lhsAssign rhsAssign : List Nat) (newVNInfo : List (Option Nat)) (lr' : LiveRangeS)
    (Hsome : ∀ s ∈ lr.segments,
      (joinMapVN lhsAssign newVNInfo lr s.valno).isSome = true)
    (Harena : ∀ o ∈ newVNInfo, ∀ h, o = some h → h < lr.arena.length)
    (hok : join lr otherSegments lhsAssign rhsAssign newVNInfo = .ok lr') :
    lrInvariant lr' := by
  unfold join at hok
  simp only [bind, Except.bind, pure, Except.pure] at hok
  split at hok
  · exact Except.noConfusion hok
  case isFalse hver0 =>
  have hver : lrInvariant lr := (verifyLR_iff lr).mp (not_not.mp hver0)
  obtain ⟨h1, h2, h3⟩ := hver
  split at hok
  case isTrue hmust =>
    split at hok
    · exact Except.noConfusion hok
    case h_2 segs' heq =>
      obtain ⟨hss', hch', himg⟩ :=
        joinRewrite_ok (joinMapVN lhsAssign newVNInfo lr) lr.segments segs' heq h1 h2
      have hmem : ∀ t ∈ segs', some t.valno ∈ newVNInfo := by
        intro t ht
        obtain ⟨x, hx⟩ := himg t ht
        exact getD_some_mem newVNInfo _ _ hx
      have hinvB := joinRebuildValnos_invariant { lr with segments := segs' }
        newVNInfo hss' hch' hmem Harena
      exact join_rest_preserves { lr with segments := segs' } otherSegments
        rhsAssign newVNInfo lr' hinvB hok
  case isFalse hno =>
    have hmem : ∀ s ∈ lr.segments, some s.valno ∈ newVNInfo := by
      by_cases hemp : lr.segments.isEmpty = true
      · intro s hs
        rw [List.isEmpty_iff] at hemp
        rw [hemp] at hs
        exact absurd hs (by simp)
      · have hmmf : mustMapCurValNos lr lhsAssign newVNInfo = false := by
          by_contra hc
          exact hno ⟨by simpa using hc, hemp⟩
        intro s hs
        obtain ⟨hx1, hx2, hx3⟩ := h3 s hs
        obtain ⟨v, hv⟩ := Option.isSome_iff_exists.mp (Hsome s hs)
        obtain ⟨ha1, ha2⟩ := mustMap_false_spec lr lhsAssign newVNInfo hmmf
          (vn lr s.valno).id hx2
        have hv2 : newVNInfo.getD (vn lr s.valno).id none = some v := by
          rw [← ha1]
          exact hv
        have hvx : v = s.valno := by
          rw [ha2 v hv2]
          exact hx3
        rw [← hvx]
        exact getD_some_mem newVNInfo _ _ hv2
    have hinvB := joinRebuildValnos_invariant lr newVNInfo h1 h2 hmem Harena
    exact join_rest_preserves lr otherSegments rhsAssign newVNInfo lr' hinvB hok


/-! ## Claim C1: invariant preservation of the public mutations -/

end LiveIntervalModel